import Mathlib

/-!
# gr-generator: generators, generator maps and the prime pipelines

A shallow embedding of the Go package `generator` (basics.go, filter.go,
generators.go, primes.go and the `primeMap` example of info.go).

Go closures are stored in mutable continuation slots and call each other
through those slots, so the embedding is a store-passing interpreter:

* generator objects live on a heap (`State.heap`), addressed by their index;
* a function value `func(elem T) R` held in a continuation slot is a
  `Continuation` (a closure: code together with its captured variables);
* the function handed to `CreateIterativeMap` / `CreateRecursiveMap` is an
  `Action`: a tree describing what the function does with the one capability
  it is given, `outStream.Yield`;
* generator maps are named by codes of a type `M`, and a table
  `defn : M → mapGenerator σ M T` gives the function of each code.  This is how
  the self-referential `primeRecMap` / `primeMap` are expressed.

The result type `R` of the package is instantiated with `LoopDirective`
throughout, as in every generator of the repository.  `State.trace` is ghost
state: it records every `Yield` call, every call of a map function and every
call of the consumer, in the order in which they happen.
-/

namespace Generator

/-! ## filter.go: LoopDirective, Predicate -/

/-- The Go declaration is `type LoopDirective uint`: a directive is an unsigned
machine integer (values below `2 ^ 64`), not a closed enumeration. -/
abbrev LoopDirective := Nat

/-- The constant `LoopDirectiveBreak = iota`, i.e. 0. -/
abbrev LoopDirectiveBreak : LoopDirective := 0

/-- The constant `LoopDirectiveContinue`, i.e. 1. -/
abbrev LoopDirectiveContinue : LoopDirective := 1

/-- Ways in which a run does not produce a value.  The first three are Go
run-time panics; `outOfFuel` means that the interpreter's step budget was too
small (the Go program would still be running). -/
inductive Err where
  | nilDereference
  | divideByZero
  | indexOutOfRange
  | outOfFuel
  deriving DecidableEq, Repr

/-- The Go type `Predicate[T]` is `func(elem T) bool`; evaluating it may panic. -/
abbrev Predicate (T : Type) := T → Except Err Bool

/-! ## The data model -/

/-- What a function passed to `CreateIterativeMap` / `CreateRecursiveMap` does:
it returns, panics, calls `outStream.Yield(x)` and goes on with the directive it
gets back, or reads / writes the variables `σ` captured by its closure. -/
inductive Action (σ T α : Type) where
  | ret (a : α)
  | fault (e : Err)
  | yield (x : T) (k : LoopDirective → Action σ T α)
  | get (k : σ → Action σ T α)
  | set (s : σ) (k : Action σ T α)

/-- The Go type `mapGenerator` is `func(inStream, outStream, elem) R`.  The
package builds its values in two ways only: `CreateIterativeMap(action)` and
`CreateRecursiveMap(action)`.  Maps returned by a recursive action are given by
their codes. -/
inductive mapGenerator (σ M T : Type) where
  | iterative (action : T → Action σ T LoopDirective)
  | recursive (action : T → Action σ T (LoopDirective × List M))

/-- CreateIterativeMap: the map function is
`func(_, outStream, elem) { return action(outStream, elem) }`. -/
def CreateIterativeMap {σ M T : Type} (action : T → Action σ T LoopDirective) :
    mapGenerator σ M T :=
  .iterative action

/-- CreateRecursiveMap: the map function runs `action(outStream, elem)`, applies
the returned maps to `inStream` from left to right, installs `outStream.Yield`
as the continuation of the last stream and returns the action's first result
(see `invoke`). -/
def CreateRecursiveMap {σ M T : Type}
    (action : T → Action σ T (LoopDirective × List M)) : mapGenerator σ M T :=
  .recursive action

/-- The function values that are stored in continuation slots. -/
inductive Continuation (M T : Type) where
  /-- The function given to `Foreach`.  A consumer is deterministic and only
  sees the items it is called with, so its directive is a function of the items
  received before and of the current item. -/
  | consumer (f : List T → T → LoopDirective)
  /-- The closure `_action` of `mapGenerator.Apply`, capturing the map `g`
  (by its code), `inStream` and `outStream`. -/
  | action (m : M) (inStream outStream : Nat)
  /-- The method value `g.Yield`. -/
  | method (g : Nat)

/-- The three implementations of `Loop`. -/
inductive Kind (T : Type) where
  /-- The struct `arrayGenerator{data}`. -/
  | arrayGenerator (data : List T)
  /-- The struct `naturals{start}`; `incr` is the statement `counter++` on the
  item type (wrapping `uint` addition for `NewNaturals`). -/
  | naturals (start : T) (incr : T → T)
  /-- The struct `sGenerator{inStream}`. -/
  | sGenerator (inStream : Nat)

/-- A generator object: its embedded `GeneratorBase` (the `yield` field, `nil`
until `setYield` is called) and its kind. -/
structure Object (M T : Type) where
  kind : Kind T
  yield : Option (Continuation M T)

/-- Ghost events. -/
inductive Event (M T : Type) where
  /-- `g.Yield(x)` was called. -/
  | yield (g : Nat) (x : T)
  /-- The map function of `m` was called with `x`. -/
  | enter (m : M) (x : T)
  /-- The consumer was called with `x`. -/
  | consume (x : T)

/-- The store. -/
structure State (σ M T : Type) where
  heap : List (Object M T)
  vars : σ
  received : List T
  trace : List (Event M T)

namespace State

variable {σ M T : Type}

/-- The state before any generator is created. -/
def init (vars : σ) : State σ M T :=
  { heap := [], vars := vars, received := [], trace := [] }

/-- Append a ghost event. -/
def emit (st : State σ M T) (e : Event M T) : State σ M T :=
  { st with trace := st.trace ++ [e] }

/-- The `yield` field of generator `g`. -/
def slot (st : State σ M T) (g : Nat) : Option (Continuation M T) :=
  match st.heap[g]? with
  | none => none
  | some obj => obj.yield

/-- The kind of generator `g`. -/
def kind (st : State σ M T) (g : Nat) : Option (Kind T) :=
  match st.heap[g]? with
  | none => none
  | some obj => some obj.kind

/-- Allocate a generator object; its address is the old heap size. -/
def alloc (st : State σ M T) (kind : Kind T) : Nat × State σ M T :=
  (st.heap.length, { st with heap := st.heap ++ [{ kind := kind, yield := none }] })

/-- GeneratorBase.setYield: `b.yield = yield`. -/
def setYield (st : State σ M T) (g : Nat) (c : Continuation M T) : State σ M T :=
  match st.heap[g]? with
  | none => st
  | some obj => { st with heap := st.heap.set g { obj with yield := some c } }

end State

/-! ## basics.go -/

section Semantics

variable {σ M T : Type}

/-- Result of a call that returns a directive. -/
abbrev Call (σ M T : Type) := Except Err (LoopDirective × State σ M T)

/-- GeneratorBase.Yield: `return b.yield(elem)`, where calling the stored
function is left to `call`.  Calling a nil function value panics. -/
def yieldWith (call : Continuation M T → T → State σ M T → Call σ M T)
    (g : Nat) (elem : T) (st : State σ M T) : Call σ M T :=
  match st.slot g with
  | none => .error .nilDereference
  | some c => call c elem (st.emit (.yield g elem))

/-- Run an action with the given meaning of `outStream.Yield`. -/
def Action.run {α : Type} (yield : T → State σ M T → Call σ M T) :
    Action σ T α → State σ M T → Except Err (α × State σ M T)
  | .ret a, st => .ok (a, st)
  | .fault e, _ => .error e
  | .yield x k, st =>
    match yield x st with
    | .error e => .error e
    | .ok (d, st1) => (k d).run yield st1
  | .get k, st => (k st.vars).run yield st
  | .set s k, st => k.run yield { st with vars := s }

/-- mapGenerator.Apply: allocate `outStream := &sGenerator{inStream: inStream}`,
install the closure `_action` in `inStream` and return `outStream`. -/
def mapGenerator.Apply (m : M) (inStream : Nat) (st : State σ M T) :
    Nat × State σ M T :=
  let (outStream, st1) := st.alloc (.sGenerator inStream)
  (outStream, st1.setYield inStream (.action m inStream outStream))

/-- The loop `for _, m := range maps { _stream = m.Apply(_stream) }`. -/
def applyMaps : List M → Nat → State σ M T → Nat × State σ M T
  | [], _stream, st => (_stream, st)
  | m :: maps, _stream, st =>
    let (out, st1) := mapGenerator.Apply m _stream st
    applyMaps maps out st1

/-- Call a function value stored in a continuation slot.  `fuel` bounds the
depth of nested calls. -/
def invoke (defn : M → mapGenerator σ M T) :
    Nat → Continuation M T → T → State σ M T → Call σ M T
  | 0, _, _, _ => .error .outOfFuel
  | _ + 1, .consumer f, elem, st =>
    .ok (f st.received elem,
      { st with received := st.received ++ [elem], trace := st.trace ++ [.consume elem] })
  | fuel + 1, .method g, elem, st => yieldWith (invoke defn fuel) g elem st
  | fuel + 1, .action m inStream outStream, elem, st =>
    match defn m with
    | .iterative action =>
      (action elem).run (yieldWith (invoke defn fuel) outStream) (st.emit (.enter m elem))
    | .recursive action =>
      match (action elem).run (yieldWith (invoke defn fuel) outStream)
          (st.emit (.enter m elem)) with
      | .error e => .error e
      | .ok ((_retval, maps), st1) =>
        let (_stream, st2) := applyMaps maps inStream st1
        .ok (_retval, st2.setYield _stream (.method outStream))

/-- GeneratorBase.Yield. -/
def Yield (defn : M → mapGenerator σ M T) (fuel : Nat) (g : Nat) (elem : T)
    (st : State σ M T) : Call σ M T :=
  yieldWith (invoke defn fuel) g elem st

/-! ## generators.go and the `naturals` generator of primes.go -/

/-- arrayGenerator.Loop: `for _, item := range g.data { if LoopDirectiveBreak ==
g.Yield(item) { break } }`. -/
def arrayGenerator.Loop (yield : T → State σ M T → Call σ M T) :
    List T → State σ M T → Except Err (State σ M T)
  | [], st => .ok st
  | item :: rest, st =>
    match yield item st with
    | .error e => .error e
    | .ok (d, st1) =>
      if LoopDirectiveBreak = d then .ok st1 else arrayGenerator.Loop yield rest st1

/-- naturals.Loop: `counter := n.start; for { if LoopDirectiveBreak ==
n.Yield(counter) { break }; counter++ }`.  `fuel` bounds the number of
iterations. -/
def naturals.Loop (yield : T → State σ M T → Call σ M T) (incr : T → T) :
    Nat → T → State σ M T → Except Err (State σ M T)
  | 0, _, _ => .error .outOfFuel
  | fuel + 1, counter, st =>
    match yield counter st with
    | .error e => .error e
    | .ok (d, st1) =>
      if LoopDirectiveBreak = d then .ok st1 else naturals.Loop yield incr fuel (incr counter) st1

/-- The method `Loop` of generator `g`, by dynamic dispatch on its kind;
sGenerator.Loop is `g.inStream.Loop()`. -/
def Loop (defn : M → mapGenerator σ M T) :
    Nat → Nat → State σ M T → Except Err (State σ M T)
  | 0, _, _ => .error .outOfFuel
  | fuel + 1, g, st =>
    match st.heap[g]? with
    | none => .error .nilDereference
    | some obj =>
      match obj.kind with
      | .arrayGenerator data => arrayGenerator.Loop (Yield defn fuel g) data st
      | .naturals start incr => naturals.Loop (Yield defn fuel g) incr fuel start st
      | .sGenerator inStream => Loop defn fuel inStream st

/-- Foreach: `g.setYield(yield); g.Loop()`. -/
def Foreach (defn : M → mapGenerator σ M T) (fuel : Nat) (g : Nat)
    (yield : List T → T → LoopDirective) (st : State σ M T) :
    Except Err (State σ M T) :=
  Loop defn fuel g (st.setYield g (.consumer yield))

/-- Array2Generator: `&arrayGenerator[T]{data: data}`. -/
def Array2Generator (data : List T) (st : State σ M T) : Nat × State σ M T :=
  st.alloc (.arrayGenerator data)

/-! ## filter.go -/

/-- Filter: `CreateIterativeMap(func(outStream, elem) { if predicate(elem)
{ return outStream.Yield(elem) }; return LoopDirectiveContinue })`. -/
def Filter (predicate : Predicate T) : mapGenerator σ M T :=
  CreateIterativeMap fun elem =>
    match predicate elem with
    | .error e => .fault e
    | .ok true => .yield elem fun d => .ret d
    | .ok false => .ret LoopDirectiveContinue

end Semantics

/-! ## primes.go and the `primeMap` example of info.go -/

/-- Go's `uint` on a 64-bit platform: arithmetic is modulo `2 ^ 64`. -/
def uintSize : Nat := 2 ^ 64

/-- NewNaturals: `&naturals{start: start}`; `counter++` wraps around. -/
def NewNaturals {σ M : Type} (start : Nat) (st : State σ M Nat) : Nat × State σ M Nat :=
  st.alloc (.naturals start fun counter => (counter + 1) % uintSize)

/-- IsNonDivisible: `func(elem uint) bool { return elem%divisor != 0 }`; the
remainder by zero panics. -/
def IsNonDivisible (divisor : Nat) : Predicate Nat :=
  fun elem => if divisor = 0 then .error .divideByZero else .ok (elem % divisor != 0)

/-- The loop of primeIterMap,
`for j := uint(0); j < uint(len(alreadyFound)); j++ { if alreadyFound[j] > l
{ break }; if elem%alreadyFound[j] == 0 { isNextPrime = false; break } }`,
returning `isNextPrime`.  The first argument bounds the number of iterations
(`len(alreadyFound)` is enough, as `j` grows in every iteration). -/
def primeIterMap.loop (alreadyFound : List Nat) (l elem : Nat) : Nat → Nat → Except Err Bool
  | 0, _ => .ok true
  | n + 1, j =>
    if j < alreadyFound.length then
      match alreadyFound[j]? with
      | none => .error .indexOutOfRange
      | some a =>
        if a > l then .ok true
        else if a = 0 then .error .divideByZero
        else if elem % a = 0 then .ok false
        else primeIterMap.loop alreadyFound l elem n (j + 1)
    else .ok true

/-- The function of primeIterMap.  Its closure variables `alreadyFound` and `l`
are the store's `vars`. -/
def primeIterMap {M : Type} : mapGenerator (List Nat × Nat) M Nat :=
  CreateIterativeMap fun elem =>
    .get fun vars =>
      let alreadyFound := vars.1
      let l := if elem > (vars.2 * vars.2) % uintSize then (vars.2 + 1) % uintSize else vars.2
      .set (alreadyFound, l) <|
        match primeIterMap.loop alreadyFound l elem alreadyFound.length 0 with
        | .error e => .fault e
        | .ok isNextPrime =>
          if isNextPrime then
            .set (alreadyFound ++ [elem], l) <|
              .yield elem fun d =>
                if LoopDirectiveBreak = d then .ret LoopDirectiveBreak
                else .ret LoopDirectiveContinue
          else .ret LoopDirectiveContinue

/-- The generator maps of primes.go and of the package documentation, by name. -/
inductive PrimesMap where
  /-- The map `Filter[uint](IsNonDivisible(divisor))`. -/
  | Filter (divisor : Nat)
  /-- The map `primeIterMap()`. -/
  | primeIterMap
  /-- The map `primeRecMap(alreadyFound, lastSent)`. -/
  | primeRecMap (alreadyFound : List Nat) (lastSent : Nat)
  /-- The map `primeMap()` of the package documentation. -/
  | primeMap
  deriving DecidableEq, Repr

/-- The function of primeRecMap(alreadyFound, lastSent). -/
def primeRecMap {σ : Type} (alreadyFound : List Nat) (lastSent : Nat) :
    mapGenerator σ PrimesMap Nat :=
  CreateRecursiveMap fun elem =>
    .yield elem fun d =>
      if LoopDirectiveBreak = d then .ret (LoopDirectiveBreak, [])
      else
        let _alreadyFound := alreadyFound ++ [elem]
        if (lastSent * lastSent) % uintSize < elem then
          match _alreadyFound with
          | [] => .fault .indexOutOfRange
          | _lastSent :: rest =>
            .ret (LoopDirectiveContinue, [.Filter _lastSent, .primeRecMap rest _lastSent])
        else .ret (LoopDirectiveContinue, [.primeRecMap _alreadyFound lastSent])

/-- The function of the documentation's `primeMap()`:
`return outStream.Yield(elem), {Filter[uint](isNonDivisible(elem)), primeMap()}`. -/
def primeMap {σ : Type} : mapGenerator σ PrimesMap Nat :=
  CreateRecursiveMap fun elem =>
    .yield elem fun d => .ret (d, [.Filter elem, .primeMap])

/-- The function of each named map. -/
def PrimesMap.defn : PrimesMap → mapGenerator (List Nat × Nat) PrimesMap Nat
  | .Filter divisor => Generator.Filter (IsNonDivisible divisor)
  | .primeIterMap => Generator.primeIterMap
  | .primeRecMap alreadyFound lastSent => Generator.primeRecMap alreadyFound lastSent
  | .primeMap => Generator.primeMap

/-- The store of the prime pipelines; `vars` holds `alreadyFound` and `l`. -/
abbrev PState := State (List Nat × Nat) PrimesMap Nat

/-- Primes: `generator := NewNaturals(2); m := primeIterMap(); return
m.Apply(generator)`, where `primeIterMap()` starts with `alreadyFound = []` and
`l = 2`. -/
def Primes (st : PState) : Nat × PState :=
  let (generator, st1) := NewNaturals 2 st
  mapGenerator.Apply .primeIterMap generator { st1 with vars := ([], 2) }

/-- RecPrimes: `generator := NewNaturals(2); m := primeRecMap([]uint{}, 0);
return m.Apply(generator)`. -/
def RecPrimes (st : PState) : Nat × PState :=
  let (generator, st1) := NewNaturals 2 st
  mapGenerator.Apply (.primeRecMap [] 0) generator st1

/-- The documentation's `primes`: `startStream := NewNaturals(2); myMap :=
primeMap(); primes := myMap.Apply(startStream)`. -/
def docPrimes (st : PState) : Nat × PState :=
  let (startStream, st1) := NewNaturals 2 st
  mapGenerator.Apply .primeMap startStream st1

/-- `Foreach(Primes(), consumer)`. -/
def drivePrimes (fuel : Nat) (consumer : List Nat → Nat → LoopDirective) :
    Except Err PState :=
  let (g, st) := Primes (State.init ([], 2))
  Foreach PrimesMap.defn fuel g consumer st

/-- `Foreach(RecPrimes(), consumer)`. -/
def driveRecPrimes (fuel : Nat) (consumer : List Nat → Nat → LoopDirective) :
    Except Err PState :=
  let (g, st) := RecPrimes (State.init ([], 2))
  Foreach PrimesMap.defn fuel g consumer st

/-- `Foreach(primes, consumer)` for the documentation's `primes`. -/
def driveDocPrimes (fuel : Nat) (consumer : List Nat → Nat → LoopDirective) :
    Except Err PState :=
  let (g, st) := docPrimes (State.init ([], 2))
  Foreach PrimesMap.defn fuel g consumer st

/-- A consumer that answers LoopDirectiveContinue on its first `n - 1` calls and
LoopDirectiveBreak from call `n` on (the consumer of primes_test.go for
`n = 12`). -/
def breakOnCall (n : Nat) : List Nat → Nat → LoopDirective :=
  fun hist _ => if hist.length + 1 ≥ n then LoopDirectiveBreak else LoopDirectiveContinue

/-! ## Pipelines and reference functions used in the statements -/

/-- The consumer that records every item and always returns
LoopDirectiveContinue (the record is `State.received`). -/
def recorder {T : Type} : List T → T → LoopDirective :=
  fun _ _ => LoopDirectiveContinue

/-- The pipeline `Foreach(Array2Generator(s), consumer)`. -/
def driveArray {σ M T : Type} (defn : M → mapGenerator σ M T) (vars : σ) (fuel : Nat)
    (s : List T) (consumer : List T → T → LoopDirective) : Except Err (State σ M T) :=
  let (g, st) := Array2Generator s (State.init vars)
  Foreach defn fuel g consumer st

/-- The pipeline `Foreach(m.Apply(Array2Generator(s)), consumer)`. -/
def driveMapped {σ M T : Type} (defn : M → mapGenerator σ M T) (vars : σ) (fuel : Nat)
    (s : List T) (m : M) (consumer : List T → T → LoopDirective) :
    Except Err (State σ M T) :=
  let (g, st) := Array2Generator s (State.init vars)
  let (out, st1) := mapGenerator.Apply m g st
  Foreach defn fuel out consumer st1

/-- The pipeline `Foreach(mn.Apply(...m1.Apply(Array2Generator(s))...), consumer)`
for `maps = [m1, ..., mn]`. -/
def drivePipeline {σ M T : Type} (defn : M → mapGenerator σ M T) (vars : σ) (fuel : Nat)
    (s : List T) (maps : List M) (consumer : List T → T → LoopDirective) :
    Except Err (State σ M T) :=
  let (g, st) := Array2Generator s (State.init vars)
  let (out, st1) := applyMaps maps g st
  Foreach defn fuel out consumer st1

/-- A predicate that never panics, as a Go predicate. -/
def total {T : Type} (p : T → Bool) : Predicate T :=
  fun x => .ok (p x)

/-- The value of a Go predicate at `x` when it does not panic there. -/
def holds {T : Type} (p : Predicate T) (x : T) : Bool :=
  match p x with
  | .ok b => b
  | .error _ => false

/-- The items a source hands out when only the items satisfying `keep` reach
the consumer `f`, which has received `hist` so far: the source stops right
after the first item on which `f` answers LoopDirectiveBreak. -/
def sourced {T : Type} (keep : T → Bool) (f : List T → T → LoopDirective) :
    List T → List T → List T
  | _, [] => []
  | hist, x :: xs =>
    if keep x then
      if LoopDirectiveBreak = f hist x then [x] else x :: sourced keep f (hist ++ [x]) xs
    else x :: sourced keep f hist xs

/-- The shortest initial segment of a list that contains `j + 1` items
satisfying `keep` (the whole list if there are fewer). -/
def takeThrough {T : Type} (keep : T → Bool) : Nat → List T → List T
  | _, [] => []
  | j, x :: xs =>
    if keep x then
      match j with
      | 0 => [x]
      | j + 1 => x :: takeThrough keep j xs
    else x :: takeThrough keep j xs

/-- The items the consumer was called with, read off the trace. -/
def consumed {M T : Type} (trace : List (Event M T)) : List T :=
  trace.filterMap fun e => match e with
    | .consume x => some x
    | _ => none

/-- The items for which `g.Yield` was called, read off the trace. -/
def yieldedBy {M T : Type} (g : Nat) (trace : List (Event M T)) : List T :=
  trace.filterMap fun e => match e with
    | .yield g1 x => if g1 = g then some x else none
    | _ => none

/-- The chain that `applyMaps maps a` builds when the heap has `n` objects: the
map codes paired with the output generators allocated for them. -/
def chainOf {M : Type} : List M → Nat → List (M × Nat)
  | [], _ => []
  | m :: maps, n => (m, n) :: chainOf maps (n + 1)

/-- The last generator of a chain that starts at `a`. -/
def chainEnd {M : Type} : Nat → List (M × Nat) → Nat
  | a, [] => a
  | _, (_, b) :: rest => chainEnd b rest

/-- The generators of a chain whose continuation is a map closure: all but the
last one. -/
def sources {M : Type} : Nat → List (M × Nat) → List Nat
  | _, [] => []
  | a, (_, b) :: rest => a :: sources b rest

/-- `Links st a chain`: from generator `a` on, the continuation slots hold the
`_action` closures of the maps of `chain`, each one feeding the next generator. -/
def Links {σ M T : Type} (st : State σ M T) : Nat → List (M × Nat) → Prop
  | _, [] => True
  | a, (m, b) :: rest => st.slot a = some (.action m a b) ∧ Links st b rest

/-- `BackLinks st a chain`: every generator of the chain after `a` is an
`sGenerator` whose `inStream` is its predecessor. -/
def BackLinks {σ M T : Type} (st : State σ M T) : Nat → List (M × Nat) → Prop
  | _, [] => True
  | a, (_, b) :: rest => st.kind b = some (.sGenerator a) ∧ BackLinks st b rest

/-- The events of item `x` travelling from generator `a` through a chain of
filters with predicates `pred m`, up to the first predicate that rejects it. -/
def chainTrace {M T : Type} (pred : M → T → Bool) : Nat → List (M × Nat) → T →
    List (Event M T)
  | _, [], _ => []
  | a, (m, b) :: rest, x =>
    .yield a x :: .enter m x :: (if pred m x then chainTrace pred b rest x else [])

/-- Item `x` satisfies the predicates of all filters of the chain. -/
def allPass {M T : Type} (pred : M → T → Bool) (chain : List (M × Nat)) (x : T) : Bool :=
  chain.all fun mb => pred mb.1 x

/-- The events of item `x` in the pipeline of the filters `ps` over an array
generator: the trip through the filters and, if `x` passes them all, the call
of the consumer. -/
def pipelineTrace {T : Type} (ps : List (Predicate T)) (x : T) :
    List (Event (Predicate T) T) :=
  chainTrace holds 0 (chainOf ps 1) x ++
    if ps.all (fun p => holds p x) then [.yield ps.length x, .consume x] else []

/-- What a run lets one observe: the items received by the consumer and the
items it was called with according to the trace. -/
def observe {σ M T : Type} (r : Except Err (State σ M T)) : Option (List T × List T) :=
  match r with
  | .ok st => some (st.received, consumed st.trace)
  | .error _ => none

/-- The heap of `Foreach(Primes(), f)`. -/
def primesHeap (f : List Nat → Nat → LoopDirective) : List (Object PrimesMap Nat) :=
  [{ kind := .naturals 2 fun counter => (counter + 1) % uintSize,
     yield := some (.action .primeIterMap 0 1) },
   { kind := .sGenerator 0, yield := some (.consumer f) }]

/-- The invariant of the run of `Primes()` before item `c` (the `i`-th item,
counting from 0) is yielded: `alreadyFound` and the consumer's record hold the
primes below `c`, and `l` is the least number from 2 on whose square is at
least `c - 1`. -/
def PrimesInv (f : List Nat → Nat → LoopDirective) (i c : Nat) (st : PState) : Prop :=
  c = i + 2 ∧ st.heap = primesHeap f ∧
  st.vars.1 = (List.range (Nat.count Nat.Prime c)).map (Nat.nth Nat.Prime) ∧
  (st.vars.2 = 2 ∨ (st.vars.2 - 1) * (st.vars.2 - 1) < c - 1) ∧
  c - 1 ≤ st.vars.2 * st.vars.2 ∧ 2 ≤ st.vars.2 ∧
  st.received = (List.range (Nat.count Nat.Prime c)).map (Nat.nth Nat.Prime) ∧
  consumed st.trace = st.received ∧
  yieldedBy 0 st.trace = List.range' 2 i ∧
  yieldedBy 1 st.trace = (yieldedBy 0 st.trace).filter fun e => decide e.Prime

/-- `FwdLinks st f b fwd`: the continuation of `b` is the method value `Yield` of
the first generator of `fwd`, and so on down to the last generator, whose
continuation is the consumer `f`. -/
def FwdLinks {σ M T : Type} (st : State σ M T) (f : List T → T → LoopDirective) :
    Nat → List Nat → Prop
  | b, [] => st.slot b = some (.consumer f)
  | b, b1 :: rest => st.slot b = some (.method b1) ∧ FwdLinks st f b1 rest

/-- The events of item `x` handed from `b` down such a chain to the consumer. -/
def fwdTrace {M T : Type} : Nat → List Nat → T → List (Event M T)
  | b, [], x => [.yield b x, .consume x]
  | b, b1 :: rest, x => .yield b x :: fwdTrace b1 rest x

/-- The codes of the maps whose function was called, read off the trace. -/
def entered {M T : Type} (trace : List (Event M T)) : List M :=
  trace.filterMap fun e => match e with
    | .enter m _ => some m
    | _ => none

/-- An example table for splicing: the recursive map `splice` hands its first
item on and returns the filters `odd` and `notMultipleOf3`. -/
inductive SpliceMap where
  | splice
  | odd
  | notMultipleOf3
  deriving DecidableEq, Repr

/-- The predicates of the example's filters. -/
def SpliceMap.pred : SpliceMap → Nat → Bool
  | .splice, _ => true
  | .odd, n => n % 2 == 1
  | .notMultipleOf3, n => n % 3 != 0

/-- The functions of the example's maps. -/
def SpliceMap.defn : SpliceMap → mapGenerator Unit SpliceMap Nat
  | .splice => CreateRecursiveMap fun x => .yield x fun d => .ret (d, [.odd, .notMultipleOf3])
  | m => Filter (total (SpliceMap.pred m))

/-- The example's store before the first item: `splice.Apply(Array2Generator(s))`
with the recorder installed on the output generator. -/
def SpliceMap.start (s : List Nat) : State Unit SpliceMap Nat :=
  let (g, st) := Array2Generator s (State.init ())
  let (out, st1) := mapGenerator.Apply SpliceMap.splice g st
  st1.setYield out (.consumer recorder)

/-- The example's store after the function of `splice` has handed the first item
5 to the recorder. -/
def SpliceMap.afterFirst : State Unit SpliceMap Nat :=
  State.mk (SpliceMap.start [5, 9, 7]).heap () [5]
    [.yield 0 5, .enter .splice 5, .yield 1 5, .consume 5]

/-- Splice the maps `ms` in behind generator `a` and wire the last stream to
`b`: what the function of a recursive map does after its action has returned. -/
def splice {σ M T : Type} (ms : List M) (a b : Nat) (st : State σ M T) : State σ M T :=
  (applyMaps ms a st).2.setYield (applyMaps ms a st).1 (.method b)

/-- The shape of a sieve pipeline over the source `g`: a chain of filters, then
the closure of the recursive map `tail` with output generator `b`, and from `b`
a chain of method values down to the consumer `f`. -/
def Sieve {σ M T : Type} (st : State σ M T) (f : List T → T → LoopDirective) (g : Nat)
    (chain : List (M × Nat)) (tail : M) (b : Nat) (fwd : List Nat) : Prop :=
  Links st g chain ∧
  st.slot (chainEnd g chain) = some (.action tail (chainEnd g chain) b) ∧
  FwdLinks st f b fwd ∧
  chainEnd g chain ∉ sources g chain ∧
  chainEnd g chain ∉ b :: fwd

/-- The predicate of the filter named by a code of `PrimesMap` (for a divisor
other than zero): `elem % divisor != 0`. -/
def primesPred : PrimesMap → Nat → Bool
  | .Filter divisor, elem => elem % divisor != 0
  | _, _ => true

/-- The heap of `Foreach(m.Apply(NewNaturals(2)), f)` for a map `m`. -/
def sieveHeap (m : PrimesMap) (f : List Nat → Nat → LoopDirective) :
    List (Object PrimesMap Nat) :=
  [{ kind := .naturals 2 fun counter => (counter + 1) % uintSize,
     yield := some (.action m 0 1) },
   { kind := .sGenerator 0, yield := some (.consumer f) }]

/-- The invariant of the run of the documentation's sieve before item `c` (the
`i`-th item, counting from 0) is yielded: the filter chain holds one filter for
every prime below `c`, in increasing order, and the consumer has received these
primes. -/
def DocInv (f : List Nat → Nat → LoopDirective) (i c : Nat) (st : PState) : Prop :=
  c = i + 2 ∧ ∃ chain b fwd, Sieve st f 0 chain .primeMap b fwd ∧
    chain.map Prod.fst =
      ((List.range (Nat.count Nat.Prime c)).map (Nat.nth Nat.Prime)).map PrimesMap.Filter ∧
    st.received = (List.range (Nat.count Nat.Prime c)).map (Nat.nth Nat.Prime) ∧
    chain.length ≤ i ∧ fwd.length ≤ i ∧ consumed st.trace = st.received

/-- The invariant of the run of `RecPrimes()` before item `c` (the `i`-th item,
counting from 0) is yielded: the pipeline is a chain of filters whose divisors
are received items, followed by `primeRecMap(alreadyFound, lastSent)` with
`alreadyFound` made of received items; the consumer has received every prime
below `c`, all received items lie between 2 and `c`, in increasing order. -/
def RecInv (f : List Nat → Nat → LoopDirective) (i c : Nat) (st : PState) : Prop :=
  c = i + 2 ∧ ∃ chain af ls b fwd, Sieve st f 0 chain (.primeRecMap af ls) b fwd ∧
    (∀ mb ∈ chain, ∃ d, mb.1 = PrimesMap.Filter d ∧ d ∈ st.received) ∧
    (∀ d ∈ af, d ∈ st.received) ∧
    (∀ q, q.Prime → q < c → q ∈ st.received) ∧
    (∀ d ∈ st.received, 2 ≤ d ∧ d < c) ∧
    st.received.Pairwise (· < ·) ∧
    chain.length ≤ i ∧ fwd.length ≤ i ∧ consumed st.trace = st.received

/-- The consumer that answers LoopDirectiveBreak on item `p` and
LoopDirectiveContinue on every other item. -/
def breakOnItem (p : Nat) : List Nat → Nat → LoopDirective :=
  fun _ x => if x = p then LoopDirectiveBreak else LoopDirectiveContinue

/-- The generator `Array2Generator([]uint{})` in the initial store, with no
continuation installed. -/
def emptyArray : Nat × PState :=
  Array2Generator [] (State.init ([], 2))

/-- A consumer that always answers 2, which is neither LoopDirectiveBreak nor
LoopDirectiveContinue. -/
def answerTwo : List Nat → Nat → LoopDirective :=
  fun _ _ => 2

/-- The pipeline `Foreach(NewNaturals(start), consumer)`. -/
def driveNaturals {σ M : Type} (defn : M → mapGenerator σ M Nat) (vars : σ) (fuel : Nat)
    (start : Nat) (consumer : List Nat → Nat → LoopDirective) : Except Err (State σ M Nat) :=
  let (g, st) := NewNaturals start (State.init vars)
  Foreach defn fuel g consumer st

/-- The heap of `Foreach(NewNaturals(start), f)`. -/
def naturalsHeap {M : Type} (start : Nat) (f : List Nat → Nat → LoopDirective) :
    List (Object M Nat) :=
  [{ kind := .naturals start fun counter => (counter + 1) % uintSize,
     yield := some (.consumer f) }]

/-- A recursive map that returns itself, as in
`var m GeneratorMap; m = CreateRecursiveMap(func(out, elem) { return
out.Yield(elem), []GeneratorMap{m} })`. -/
inductive SelfMap where
  | self
  deriving DecidableEq, Repr

/-- The function of the map `self`. -/
def SelfMap.defn : SelfMap → mapGenerator Unit SelfMap Nat
  | .self => CreateRecursiveMap fun x => .yield x fun d => .ret (d, [.self])

/-- The maps whose function was called in a run, in order. -/
def enteredIn {σ M T : Type} (r : Except Err (State σ M T)) : Option (List M) :=
  match r with
  | .ok st => some (entered st.trace)
  | .error _ => none

/-- The store of `Foreach(RecPrimes(), breakOnCall 1)` before the first item. -/
def recFirst : PState :=
  State.mk (sieveHeap (.primeRecMap [] 0) (breakOnCall 1)) ([], 2) [] []

/-- The same store after the function of `primeRecMap([], 0)` has handed the
first item 2 to the consumer. -/
def recAfterFirst : PState :=
  State.mk (sieveHeap (.primeRecMap [] 0) (breakOnCall 1)) ([], 2) [2]
    [.yield 0 2, .enter (.primeRecMap [] 0) 2, .yield 1 2, .consume 2]

/-- The invariant of a run of `Primes()` with an arbitrary consumer, before item
`c` (the `i`-th item) is yielded: every entry of `alreadyFound` is at least 2. -/
def PrimesSafe (f : List Nat → Nat → LoopDirective) (i c : Nat) (st : PState) : Prop :=
  c = i + 2 ∧ st.heap = primesHeap f ∧ ∀ d ∈ st.vars.1, 2 ≤ d

/-- The divisors a map of the prime pipelines holds are at least 2: the divisor
of a filter, and the entries of `alreadyFound` of primeRecMap. -/
def SafeMap : PrimesMap → Prop
  | .Filter divisor => 2 ≤ divisor
  | .primeRecMap alreadyFound _ => ∀ d ∈ alreadyFound, 2 ≤ d
  | _ => True

/-- Every closure installed in the heap belongs to a map with divisors from 2 on. -/
def SafeHeap (st : PState) : Prop :=
  ∀ i m g out, st.slot i = some (.action m g out) → SafeMap m

/-- The invariant of a run of `RecPrimes()` with an arbitrary consumer, before
item `c` (the `i`-th item) is yielded. -/
def RecSafe (f : List Nat → Nat → LoopDirective) (i c : Nat) (st : PState) : Prop :=
  c = i + 2 ∧ SafeHeap st ∧ ∃ chain af ls b fwd, Sieve st f 0 chain (.primeRecMap af ls) b fwd ∧
    (∀ mb ∈ chain, ∃ d, mb.1 = PrimesMap.Filter d ∧ 2 ≤ d) ∧
    (∀ d ∈ af, 2 ≤ d) ∧ chain.length ≤ i ∧ fwd.length ≤ i

/-- The invariant of the run of `RecPrimes()` under the hypothesis on the gaps
between squares of consecutive primes, before item `c` (the `i`-th item) is
yielded: the chain holds the filters of the first `j` primes, `alreadyFound`
holds the other primes below `c`, `lastSent` is the `(j - 1)`-th prime, no prime
below `c` exceeds its square, each filter but the first was spliced after a
prime above the square of the prime before its divisor's predecessor, and `c`
is below the square of the `j`-th prime. -/
def RecSound (f : List Nat → Nat → LoopDirective) (i c : Nat) (st : PState) : Prop :=
  c = i + 2 ∧ ∃ chain af ls b fwd j, Sieve st f 0 chain (.primeRecMap af ls) b fwd ∧
    chain.map Prod.fst = (List.range j).map (fun t => PrimesMap.Filter (Nat.nth Nat.Prime t)) ∧
    j ≤ Nat.count Nat.Prime c ∧
    af = ((List.range (Nat.count Nat.Prime c)).map (Nat.nth Nat.Prime)).drop j ∧
    ((j = 0 ∧ ls = 0 ∧ c = 2) ∨
      (1 ≤ j ∧ ls = Nat.nth Nat.Prime (j - 1) ∧ ∀ r, r.Prime → r < c → r ≤ ls * ls)) ∧
    (∀ t, t + 1 < j → ∃ r, r.Prime ∧ r < c ∧ Nat.nth Nat.Prime t * Nat.nth Nat.Prime t < r) ∧
    c < Nat.nth Nat.Prime j * Nat.nth Nat.Prime j ∧
    st.received = (List.range (Nat.count Nat.Prime c)).map (Nat.nth Nat.Prime) ∧
    consumed st.trace = st.received ∧
    chain.length ≤ i ∧ fwd.length ≤ i

/-- The generators a stored function value refers to: `inStream` and `outStream`
of a closure of Apply, the receiver of a method value. -/
def Continuation.pointers {M T : Type} : Continuation M T → List Nat
  | .consumer _ => []
  | .action _ inStream outStream => [inStream, outStream]
  | .method g => [g]

/-- Every stored function value refers to generators that exist. -/
def Closed {σ M T : Type} (st : State σ M T) : Prop :=
  ∀ i c, st.slot i = some c → ∀ p ∈ c.pointers, p < st.heap.length

/-- `Separate S st`: the store is closed, the generators of `S` exist, and no
function value stored in a generator outside `S` refers to a generator of `S`.
Pipelines built with Apply have this shape for the generators upstream of any
point. -/
def Separate {σ M T : Type} (S : Nat → Prop) (st : State σ M T) : Prop :=
  Closed st ∧ (∀ i, S i → i < st.heap.length) ∧
  ∀ i c, st.slot i = some c → ¬ S i → ∀ p ∈ c.pointers, ¬ S p

/-- The generators of a chain spliced in behind `g`: `g` itself and the `k`
fresh generators from address `n` on. -/
def chainNodes (g n k : Nat) : Nat → Prop :=
  fun i => i = g ∨ (n ≤ i ∧ i < n + k)

/-- `Rebuilt g out n ms st`: behind generator `g` stands the chain of the
closures of `ms = [m1, ..., mn]`, applied from left to right over the fresh
generators `n, n + 1, ...`; the continuation of the last stream is
`outStream.Yield` for `out`; and the generators of the chain are referred to
from inside the chain only. -/
def Rebuilt {σ M T : Type} (g out n : Nat) (ms : List M) (st : State σ M T) : Prop :=
  Links st g (chainOf ms n) ∧
  st.slot (chainEnd g (chainOf ms n)) = some (.method out) ∧
  Separate (chainNodes g n ms.length) st

/-- Every result the action can return satisfies `P`, whatever the directives
it gets back from `outStream.Yield` and whatever the captured variables hold. -/
def Action.Returns {σ T α : Type} (P : α → Prop) : Action σ T α → Prop
  | .ret a => P a
  | .fault _ => True
  | .yield _ k => ∀ d, (k d).Returns P
  | .get k => ∀ s, (k s).Returns P
  | .set _ k => k.Returns P

/-- The items the function of map `m0` was called with, read off the trace. -/
def enteredWith {M T : Type} [DecidableEq M] (m0 : M) (trace : List (Event M T)) : List T :=
  trace.filterMap fun e => match e with
    | .enter m x => if m = m0 then some x else none
    | _ => none

/-- The continuation of the input generator `g` after the maps `ms` have been
spliced in behind it: the closure of the first map, whose output generator is the
fresh generator `n`, or `outStream.Yield` if there is no map. -/
def rebuiltContinuation {M T : Type} (ms : List M) (g out n : Nat) : Continuation M T :=
  match ms with
  | [] => .method out
  | m1 :: _ => .action m1 g n

/-- Append ghost events. -/
def State.log {σ M T : Type} (st : State σ M T) (es : List (Event M T)) : State σ M T :=
  { st with trace := st.trace ++ es }

/-- The consumer of `Test_ArrayGenerator`: LoopDirectiveContinue on the first
call, LoopDirectiveBreak afterwards. -/
def testConsumer : List Nat → Nat → LoopDirective :=
  fun hist _ => if hist.length < 1 then LoopDirectiveContinue else LoopDirectiveBreak

/-! ## Basic facts about the store -/

section StoreLemmas

variable {σ M T : Type}

@[simp] theorem State.log_heap (st : State σ M T) (es : List (Event M T)) :
    (st.log es).heap = st.heap := rfl

@[simp] theorem State.log_vars (st : State σ M T) (es : List (Event M T)) :
    (st.log es).vars = st.vars := rfl

@[simp] theorem State.log_received (st : State σ M T) (es : List (Event M T)) :
    (st.log es).received = st.received := rfl

@[simp] theorem State.log_trace (st : State σ M T) (es : List (Event M T)) :
    (st.log es).trace = st.trace ++ es := rfl

@[simp] theorem State.log_log (st : State σ M T) (es fs : List (Event M T)) :
    (st.log es).log fs = st.log (es ++ fs) := by
  simp [State.log]

theorem State.emit_eq_log (st : State σ M T) (e : Event M T) :
    st.emit e = st.log [e] := rfl

@[simp] theorem State.log_nil (st : State σ M T) : st.log [] = st := by
  simp [State.log]

@[simp] theorem State.slot_log (st : State σ M T) (es : List (Event M T)) (g : Nat) :
    (st.log es).slot g = st.slot g := rfl

/-- Calling `Yield` on a generator whose continuation is the consumer. -/
theorem Yield_consumer (defn : M → mapGenerator σ M T) (fuel g : Nat) (x : T)
    (f : List T → T → LoopDirective) (st : State σ M T)
    (hslot : st.slot g = some (.consumer f)) :
    Yield defn (fuel + 1) g x st =
      .ok (f st.received x,
        { st with received := st.received ++ [x],
                  trace := st.trace ++ [.yield g x, .consume x] }) := by
  simp [Yield, yieldWith, hslot, invoke, State.emit]

/-- The array loop, for a `Yield` that hands the items satisfying `keep` to the
consumer `f`, leaves heap and variables alone and logs `tr x` for item `x`. -/
theorem arrayLoop_sourced (y : T → State σ M T → Call σ M T) (keep : T → Bool)
    (f : List T → T → LoopDirective) (tr : T → List (Event M T))
    (h : List (Object M T)) (v : σ)
    (hy : ∀ x (st : State σ M T), st.heap = h → st.vars = v →
      y x st = .ok (if keep x then f st.received x else LoopDirectiveContinue,
        { heap := h, vars := v,
          received := if keep x then st.received ++ [x] else st.received,
          trace := st.trace ++ tr x }))
    (s : List T) (st : State σ M T) (hh : st.heap = h) (hv : st.vars = v) :
    arrayGenerator.Loop y s st =
      .ok { heap := h, vars := v,
            received := st.received ++ (sourced keep f st.received s).filter keep,
            trace := st.trace ++ (sourced keep f st.received s).flatMap tr } := by
  induction s generalizing st with
  | nil => simp [arrayGenerator.Loop, sourced, ← hh, ← hv]
  | cons x xs ih =>
    rw [arrayGenerator.Loop, hy x st hh hv]
    by_cases hk : keep x = true
    · by_cases hb : LoopDirectiveBreak = f st.received x
      · simp [hk, sourced, ← hb]
      · simp only [hk, if_true, hb, if_false]
        rw [ih _ rfl rfl]
        simp [sourced, hk, hb]
    · simp only [hk]
      simp only [Bool.false_eq_true, if_false]
      have h01 : ¬ (LoopDirectiveBreak = LoopDirectiveContinue) := by decide
      simp only [h01, if_false]
      rw [ih _ rfl rfl]
      simp [sourced, hk]

theorem sourced_recorder (keep : T → Bool) (hist s : List T) :
    sourced keep recorder hist s = s := by
  induction s generalizing hist with
  | nil => rfl
  | cons x xs ih => simp [sourced, recorder, ih]

/-- A consumer that answers LoopDirectiveContinue on its first `k` calls and
LoopDirectiveBreak on call `k + 1` stops the source right after the
`(k + 1)`-th item that is kept. -/
theorem sourced_breakAt (keep : T → Bool) (f : List T → T → LoopDirective) (k : Nat)
    (hcont : ∀ hist x, hist.length < k → f hist x = LoopDirectiveContinue)
    (hbrk : ∀ hist x, hist.length = k → f hist x = LoopDirectiveBreak)
    (hist s : List T) (hle : hist.length ≤ k) :
    sourced keep f hist s = takeThrough keep (k - hist.length) s := by
  induction s generalizing hist with
  | nil => simp [sourced, takeThrough]
  | cons x xs ih =>
    by_cases hk : keep x = true
    · rcases Nat.lt_or_ge hist.length k with hlt | hge
      · have hc := hcont hist x hlt
        obtain ⟨j, hj⟩ : ∃ j, k - hist.length = j + 1 := ⟨k - hist.length - 1, by omega⟩
        have hlen : (hist ++ [x]).length ≤ k := by simp; omega
        have hj2 : k - (hist ++ [x]).length = j := by simp; omega
        rw [hj]
        simp only [sourced, takeThrough, hk, hc, if_true]
        rw [ih (hist ++ [x]) hlen, hj2]
        simp
      · have hb := hbrk hist x (by omega)
        have hj : k - hist.length = 0 := by omega
        simp [sourced, takeThrough, hk, hb, hj]
    · simp [sourced, takeThrough, hk, ih hist hle]

theorem takeThrough_true (k : Nat) (s : List T) :
    takeThrough (fun _ => true) k s = s.take (k + 1) := by
  induction s generalizing k with
  | nil => simp [takeThrough]
  | cons x xs ih =>
    cases k with
    | zero => simp [takeThrough]
    | succ k => simp [takeThrough, ih]

theorem filter_takeThrough (keep : T → Bool) (j : Nat) (s : List T) :
    (takeThrough keep j s).filter keep = (s.filter keep).take (j + 1) := by
  induction s generalizing j with
  | nil => simp [takeThrough]
  | cons x xs ih =>
    by_cases hk : keep x = true
    · cases j with
      | zero => simp [takeThrough, hk]
      | succ j => simp [takeThrough, hk, ih]
    · simp [takeThrough, hk, ih]

theorem consumed_append (a b : List (Event M T)) :
    consumed (a ++ b) = consumed a ++ consumed b := by
  simp [consumed]

theorem yieldedBy_append (g : Nat) (a b : List (Event M T)) :
    yieldedBy g (a ++ b) = yieldedBy g a ++ yieldedBy g b := by
  simp [yieldedBy]

/-- The run of `Foreach(Array2Generator(s), f)`: the final store. -/
theorem driveArray_eq (defn : M → mapGenerator σ M T) (vars : σ) (fuel : Nat)
    (s : List T) (f : List T → T → LoopDirective) :
    driveArray defn vars (fuel + 2) s f =
      .ok { heap := [{ kind := .arrayGenerator s, yield := some (.consumer f) }],
            vars := vars,
            received := sourced (fun _ => true) f [] s,
            trace := (sourced (fun _ => true) f [] s).flatMap
              fun x => [.yield 0 x, .consume x] } := by
  have hloop := arrayLoop_sourced (Yield defn (fuel + 1) 0) (fun _ => true) f
    (fun x => [.yield 0 x, .consume x])
    [{ kind := .arrayGenerator s, yield := some (.consumer f) }] vars
    (by
      intro x st hh hv
      rw [Yield_consumer defn fuel 0 x f st (by simp [State.slot, hh])]
      simp [← hh, ← hv])
    s { heap := [{ kind := .arrayGenerator s, yield := some (.consumer f) }],
        vars := vars, received := [], trace := [] } rfl rfl
  simp only [driveArray, Array2Generator, State.alloc, State.init, Foreach, State.setYield,
    Loop, List.nil_append, List.length_nil, List.getElem?_cons_zero, List.set_cons_zero]
  rw [hloop]
  simp

theorem consumed_flatMap_array (g : Nat) (s : List T) :
    consumed (s.flatMap fun x => [(.yield g x : Event M T), .consume x]) = s := by
  induction s with
  | nil => rfl
  | cons x xs ih =>
    simp only [List.flatMap_cons, consumed_append, ih]
    simp [consumed]

theorem yieldedBy_flatMap_array (g : Nat) (s : List T) :
    yieldedBy g (s.flatMap fun x => [(.yield g x : Event M T), .consume x]) = s := by
  induction s with
  | nil => rfl
  | cons x xs ih =>
    simp only [List.flatMap_cons, yieldedBy_append, ih]
    simp [yieldedBy]

/-! ### Allocation, setYield and Apply -/

@[simp] theorem State.setYield_vars (st : State σ M T) (g : Nat) (c : Continuation M T) :
    (st.setYield g c).vars = st.vars := by
  unfold State.setYield; split <;> rfl

@[simp] theorem State.setYield_received (st : State σ M T) (g : Nat)
    (c : Continuation M T) : (st.setYield g c).received = st.received := by
  unfold State.setYield; split <;> rfl

@[simp] theorem State.setYield_trace (st : State σ M T) (g : Nat) (c : Continuation M T) :
    (st.setYield g c).trace = st.trace := by
  unfold State.setYield; split <;> rfl

@[simp] theorem State.setYield_length (st : State σ M T) (g : Nat)
    (c : Continuation M T) : (st.setYield g c).heap.length = st.heap.length := by
  unfold State.setYield; split <;> simp

theorem State.slot_setYield_self (st : State σ M T) (g : Nat) (c : Continuation M T)
    (hg : g < st.heap.length) : (st.setYield g c).slot g = some c := by
  have h : st.heap[g]? = some st.heap[g] := List.getElem?_eq_getElem hg
  simp [State.setYield, State.slot, h, hg]

theorem State.slot_setYield_ne (st : State σ M T) (g i : Nat) (c : Continuation M T)
    (hi : i ≠ g) : (st.setYield g c).slot i = st.slot i := by
  unfold State.setYield
  split
  · rfl
  · simp [State.slot, List.getElem?_set_ne (Ne.symm hi)]

@[simp] theorem State.kind_setYield (st : State σ M T) (g i : Nat)
    (c : Continuation M T) : (st.setYield g c).kind i = st.kind i := by
  unfold State.setYield
  split
  · rfl
  · rename_i obj hobj
    by_cases hi : g = i
    · subst hi
      have hg : g < st.heap.length := by
        rcases Nat.lt_or_ge g st.heap.length with h | h
        · exact h
        · rw [List.getElem?_eq_none h] at hobj; cases hobj
      simp [State.kind, hobj, hg]
    · simp [State.kind, List.getElem?_set_ne hi]

theorem State.slot_alloc_lt (st : State σ M T) (k : Kind T) (i : Nat)
    (hi : i < st.heap.length) : (st.alloc k).2.slot i = st.slot i := by
  simp [State.alloc, State.slot, List.getElem?_append_left hi]

theorem State.slot_alloc_new (st : State σ M T) (k : Kind T) :
    (st.alloc k).2.slot st.heap.length = none := by
  simp [State.alloc, State.slot]

theorem State.kind_alloc_lt (st : State σ M T) (k : Kind T) (i : Nat)
    (hi : i < st.heap.length) : (st.alloc k).2.kind i = st.kind i := by
  simp [State.alloc, State.kind, List.getElem?_append_left hi]

theorem State.kind_alloc_new (st : State σ M T) (k : Kind T) :
    (st.alloc k).2.kind st.heap.length = some k := by
  simp [State.alloc, State.kind]

/-- What `m.Apply(inStream)` does to the store. -/
theorem Apply_spec (m : M) (b : Nat) (st : State σ M T) (hb : b < st.heap.length) :
    (mapGenerator.Apply m b st).1 = st.heap.length ∧
    (mapGenerator.Apply m b st).2.heap.length = st.heap.length + 1 ∧
    (mapGenerator.Apply m b st).2.slot b = some (.action m b st.heap.length) ∧
    (mapGenerator.Apply m b st).2.slot st.heap.length = none ∧
    (mapGenerator.Apply m b st).2.kind st.heap.length = some (.sGenerator b) ∧
    (∀ i, i < st.heap.length → i ≠ b →
      (mapGenerator.Apply m b st).2.slot i = st.slot i) ∧
    (∀ i, i < st.heap.length → (mapGenerator.Apply m b st).2.kind i = st.kind i) ∧
    (mapGenerator.Apply m b st).2.vars = st.vars ∧
    (mapGenerator.Apply m b st).2.received = st.received ∧
    (mapGenerator.Apply m b st).2.trace = st.trace := by
  have hlen : (st.alloc (.sGenerator b)).2.heap.length = st.heap.length + 1 := by
    simp [State.alloc]
  refine ⟨rfl, ?_, ?_, ?_, ?_, ?_, ?_, ?_, ?_, ?_⟩
  · simp [mapGenerator.Apply, hlen]
  · simp only [mapGenerator.Apply]
    exact State.slot_setYield_self _ _ _ (by rw [hlen]; omega)
  · simp only [mapGenerator.Apply]
    rw [State.slot_setYield_ne _ _ _ _ (by exact Nat.ne_of_gt hb)]
    exact State.slot_alloc_new st _
  · simp only [mapGenerator.Apply, State.kind_setYield]
    exact State.kind_alloc_new st _
  · intro i hi hib
    simp only [mapGenerator.Apply]
    rw [State.slot_setYield_ne _ _ _ _ hib]
    exact State.slot_alloc_lt st _ i hi
  · intro i hi
    simp only [mapGenerator.Apply, State.kind_setYield]
    exact State.kind_alloc_lt st _ i hi
  · simp [mapGenerator.Apply, State.alloc]
  · simp [mapGenerator.Apply, State.alloc]
  · simp [mapGenerator.Apply, State.alloc]

theorem chainOf_length (ms : List M) (n : Nat) : (chainOf ms n).length = ms.length := by
  induction ms generalizing n with
  | nil => rfl
  | cons m ms ih => simp [chainOf, ih]

theorem chainEnd_chainOf (ms : List M) (b n : Nat) :
    chainEnd b (chainOf ms n) = if ms.length = 0 then b else n + ms.length - 1 := by
  induction ms generalizing b n with
  | nil => rfl
  | cons m ms ih =>
    simp only [chainOf, chainEnd, ih]
    by_cases h : ms.length = 0
    · simp [h]
    · simp only [h, if_false, List.length_cons]
      simp

theorem sources_chainOf_lt (ms : List M) (b n : Nat) (hb : b < n) :
    ∀ i ∈ sources b (chainOf ms n), i + 1 < n + ms.length := by
  induction ms generalizing b n with
  | nil => simp [chainOf, sources]
  | cons m ms ih =>
    intro i hi
    simp only [chainOf, sources, List.mem_cons] at hi
    rcases hi with hi | hi
    · subst hi; simp; omega
    · have := ih n (n + 1) (by omega) i hi
      simp; omega

/-- What the loop `for _, m := range maps { _stream = m.Apply(_stream) }` does to
the store: it builds the chain `chainOf maps n` behind `b` out of fresh
`sGenerator` objects and touches no other slot. -/
theorem applyMaps_spec (ms : List M) (b : Nat) (st : State σ M T)
    (hb : b < st.heap.length) :
    (applyMaps ms b st).1 = chainEnd b (chainOf ms st.heap.length) ∧
    (applyMaps ms b st).2.heap.length = st.heap.length + ms.length ∧
    Links (applyMaps ms b st).2 b (chainOf ms st.heap.length) ∧
    BackLinks (applyMaps ms b st).2 b (chainOf ms st.heap.length) ∧
    (∀ i, i < st.heap.length → i ≠ b → (applyMaps ms b st).2.slot i = st.slot i) ∧
    (∀ i, i < st.heap.length → (applyMaps ms b st).2.kind i = st.kind i) ∧
    (ms ≠ [] → (applyMaps ms b st).2.slot (applyMaps ms b st).1 = none) ∧
    (applyMaps ms b st).2.vars = st.vars ∧
    (applyMaps ms b st).2.received = st.received ∧
    (applyMaps ms b st).2.trace = st.trace := by
  induction ms generalizing b st with
  | nil => simp [applyMaps, chainOf, chainEnd, Links, BackLinks]
  | cons m ms ih =>
    obtain ⟨-, a2, a3, a4, a5, a6, a7, a8, a9, a10⟩ := Apply_spec m b st hb
    have hn : st.heap.length < (mapGenerator.Apply m b st).2.heap.length := by omega
    obtain ⟨i1, i2, i3, i4, i5, i6, i7, i8, i9, i10⟩ :=
      ih st.heap.length (mapGenerator.Apply m b st).2 hn
    have hstep : applyMaps (m :: ms) b st =
        applyMaps ms st.heap.length (mapGenerator.Apply m b st).2 := rfl
    rw [hstep]
    rw [a2] at i1 i3 i4
    refine ⟨i1, ?_, ⟨?_, i3⟩, ⟨?_, i4⟩, ?_, ?_, ?_, ?_, ?_, ?_⟩
    · rw [i2, a2]; simp; omega
    · rw [i5 b (by omega) (Nat.ne_of_lt hb), a3]
    · rw [i6 _ hn, a5]
    · intro i hi hib
      rw [i5 i (by omega) (Nat.ne_of_lt hi), a6 i hi hib]
    · intro i hi
      rw [i6 i (by omega), a7 i hi]
    · intro _
      by_cases hms : ms = []
      · subst hms
        simpa [applyMaps] using a4
      · exact i7 hms
    · rw [i8, a8]
    · rw [i9, a9]
    · rw [i10, a10]

theorem BackLinks_frame {st st1 : State σ M T} (a : Nat) (chain : List (M × Nat))
    (hk : ∀ i, st1.kind i = st.kind i) (hl : BackLinks st a chain) :
    BackLinks st1 a chain := by
  induction chain generalizing a with
  | nil => trivial
  | cons mb rest ih =>
    obtain ⟨m, b⟩ := mb
    exact ⟨by rw [hk]; exact hl.1, ih b hl.2⟩

/-- sGenerator.Loop delegates to `inStream.Loop()`: running the last generator of
a chain runs the first one. -/
theorem Loop_back (defn : M → mapGenerator σ M T) (chain : List (M × Nat))
    (fuel a : Nat) (st : State σ M T) (hl : BackLinks st a chain) :
    Loop defn (fuel + chain.length) (chainEnd a chain) st = Loop defn fuel a st := by
  induction chain generalizing a fuel with
  | nil => rfl
  | cons mb rest ih =>
    obtain ⟨m, b⟩ := mb
    have h1 := ih (fuel + 1) b hl.2
    have hlen : fuel + ((m, b) :: rest).length = fuel + 1 + rest.length := by
      simp; omega
    rw [hlen]
    simp only [chainEnd]
    rw [h1]
    have hk := hl.1
    simp only [State.kind] at hk
    split at hk
    · cases hk
    · rename_i obj hobj
      simp only [Option.some.injEq] at hk
      simp [Loop, hobj, hk]

/-! ### Chains of filters -/

theorem Action.run_yield_ret (y : T → State σ M T → Call σ M T) (x : T)
    (st : State σ M T) :
    (Action.yield x fun d => (.ret d : Action σ T LoopDirective)).run y st = y x st := by
  simp only [Action.run]
  cases y x st with
  | error e => rfl
  | ok r => rfl

/-- One filter stage: what `g.Yield(x)` does when the continuation of `g` is the
closure of `Filter(p)` with output generator `out`. -/
theorem Yield_filter (defn : M → mapGenerator σ M T) (fuel g out : Nat) (m : M)
    (p : Predicate T) (x : T) (st : State σ M T)
    (hdef : defn m = Filter p) (hslot : st.slot g = some (.action m g out)) :
    Yield defn (fuel + 1) g x st =
      match p x with
      | .ok true => Yield defn fuel out x (st.log [.yield g x, .enter m x])
      | .ok false => .ok (LoopDirectiveContinue, st.log [.yield g x, .enter m x])
      | .error e => .error e := by
  simp only [Yield, yieldWith, hslot, invoke, hdef, Filter, CreateIterativeMap]
  cases hp : p x with
  | error e => simp [Action.run]
  | ok b =>
    cases b with
    | false => simp [Action.run, State.emit, State.log]
    | true =>
      simp only [Action.run_yield_ret]
      simp [yieldWith, State.emit, State.log]

theorem Links_of_heap_eq {st st1 : State σ M T} (hh : st1.heap = st.heap) (a : Nat)
    (chain : List (M × Nat)) (hl : Links st a chain) : Links st1 a chain := by
  induction chain generalizing a with
  | nil => trivial
  | cons mb rest ih =>
    obtain ⟨m, b⟩ := mb
    exact ⟨by simpa [State.slot, hh] using hl.1, ih b hl.2⟩

/-- A chain stays in place when the slots of its sources are not touched. -/
theorem Links_frame {st st1 : State σ M T} (a : Nat) (chain : List (M × Nat))
    (hs : ∀ i ∈ sources a chain, st1.slot i = st.slot i) (hl : Links st a chain) :
    Links st1 a chain := by
  induction chain generalizing a with
  | nil => trivial
  | cons mb rest ih =>
    obtain ⟨m, b⟩ := mb
    refine ⟨?_, ih b (fun i hi => hs i (by simp [sources, hi])) hl.2⟩
    rw [hs a (by simp [sources])]
    exact hl.1

/-- An item travels through a chain of filters with total predicates: it reaches
the last generator iff it satisfies all of them, and is answered by
LoopDirectiveContinue at the first one that rejects it. -/
theorem Yield_filters (defn : M → mapGenerator σ M T) (pred : M → T → Bool)
    (chain : List (M × Nat))
    (hdef : ∀ mb ∈ chain, defn mb.1 = Filter fun x => .ok (pred mb.1 x))
    (fuel a : Nat) (x : T) (st : State σ M T) (hl : Links st a chain) :
    Yield defn (fuel + chain.length) a x st =
      if allPass pred chain x then
        Yield defn fuel (chainEnd a chain) x (st.log (chainTrace pred a chain x))
      else .ok (LoopDirectiveContinue, st.log (chainTrace pred a chain x)) := by
  induction chain generalizing a st with
  | nil => simp [allPass, chainEnd, chainTrace]
  | cons mb rest ih =>
    obtain ⟨m, b⟩ := mb
    have hm := hdef (m, b) (by simp)
    rw [List.length_cons, ← Nat.add_assoc,
      Yield_filter defn (fuel + rest.length) a b m _ x st hm hl.1]
    by_cases hp : pred m x = true
    · simp only [hp]
      rw [ih (fun mb hmb => hdef mb (by simp [hmb])) b _
        (Links_of_heap_eq (by simp) b rest hl.2)]
      simp only [allPass, chainEnd, chainTrace, hp, List.all_cons, Bool.true_and, if_true,
        State.log_log, List.cons_append, List.nil_append]
    · simp only [Bool.not_eq_true] at hp
      simp [allPass, chainTrace, hp]

/-! ### Pipelines of filters over an array generator -/

theorem Loop_array (defn : M → mapGenerator σ M T) (fuel g : Nat) (data : List T)
    (st : State σ M T) (hk : st.kind g = some (.arrayGenerator data)) :
    Loop defn (fuel + 1) g st = arrayGenerator.Loop (Yield defn fuel g) data st := by
  simp only [State.kind] at hk
  split at hk
  · cases hk
  · rename_i obj hobj
    simp only [Option.some.injEq] at hk
    simp [Loop, hobj, hk]

theorem allPass_chainOf (pred : M → T → Bool) (ms : List M) (n : Nat) (x : T) :
    allPass pred (chainOf ms n) x = ms.all fun m => pred m x := by
  induction ms generalizing n with
  | nil => rfl
  | cons m ms ih =>
    have := ih (n + 1)
    simp only [allPass] at this
    simp [allPass, chainOf, this]

theorem mem_chainOf (ms : List M) (n : Nat) (mb : M × Nat) (h : mb ∈ chainOf ms n) :
    mb.1 ∈ ms := by
  induction ms generalizing n with
  | nil => simp [chainOf] at h
  | cons m ms ih =>
    simp only [chainOf, List.mem_cons] at h
    rcases h with h | h
    · simp [h]
    · simp [ih (n + 1) h]

/-- The run of a pipeline of filters whose predicates are total, for an
arbitrary consumer: the final store. -/
theorem drivePipeline_eq (defn : M → mapGenerator σ M T) (pred : M → T → Bool)
    (ms : List M) (hdef : ∀ m ∈ ms, defn m = Filter fun x => .ok (pred m x))
    (vars : σ) (fuel : Nat) (s : List T) (f : List T → T → LoopDirective) :
    ∃ st, drivePipeline defn vars (fuel + 2 * ms.length + 2) s ms f = .ok st ∧
      st.vars = vars ∧
      st.received =
        (sourced (fun x => ms.all fun m => pred m x) f [] s).filter
          (fun x => ms.all fun m => pred m x) ∧
      st.trace =
        (sourced (fun x => ms.all fun m => pred m x) f [] s).flatMap fun x =>
          chainTrace pred 0 (chainOf ms 1) x ++
            if ms.all (fun m => pred m x) then [.yield ms.length x, .consume x] else [] := by
  let st0 : State σ M T := (Array2Generator s (State.init vars)).2
  have hlen0 : st0.heap.length = 1 := rfl
  obtain ⟨b1, b2, b3, b4, b5, b6, -, b8, b9, b10⟩ :=
    applyMaps_spec ms 0 st0 (by rw [hlen0]; omega)
  rw [hlen0] at b1 b2 b3 b4
  rw [chainEnd_chainOf] at b1
  let st1 := (applyMaps ms 0 st0).2
  let out := (applyMaps ms 0 st0).1
  have hout : out = ms.length := by
    show (applyMaps ms 0 st0).1 = ms.length
    rw [b1]; split <;> omega
  let st2 := st1.setYield out (.consumer f)
  have hrun : drivePipeline defn vars (fuel + 2 * ms.length + 2) s ms f =
      Loop defn (fuel + 2 * ms.length + 2) out st2 := rfl
  have hback : BackLinks st2 0 (chainOf ms 1) :=
    BackLinks_frame 0 _ (fun i => State.kind_setYield st1 out i _) b4
  have hend : chainEnd 0 (chainOf ms 1) = out := by
    rw [chainEnd_chainOf, hout]; split <;> omega
  have hlinks : Links st2 0 (chainOf ms 1) := by
    refine Links_frame 0 _ (fun i hi => ?_) b3
    have := sources_chainOf_lt ms 0 1 (by omega) i hi
    exact State.slot_setYield_ne st1 out i _ (by omega)
  have hslot : st2.slot out = some (.consumer f) :=
    State.slot_setYield_self st1 out _ (by
      show out < (applyMaps ms 0 st0).2.heap.length
      rw [b2]; omega)
  have hkind : st2.kind 0 = some (.arrayGenerator s) := by
    show (st1.setYield out _).kind 0 = _
    rw [State.kind_setYield]
    show (applyMaps ms 0 st0).2.kind 0 = _
    rw [b6 0 (by rw [hlen0]; omega)]
    rfl
  have hfuel : fuel + 2 * ms.length + 2 = (fuel + ms.length + 2) + (chainOf ms 1).length := by
    rw [chainOf_length]; omega
  rw [hrun, hfuel, ← hend, Loop_back defn _ _ 0 st2 hback,
    Loop_array defn _ 0 s st2 hkind]
  have hloop := arrayLoop_sourced (Yield defn (fuel + ms.length + 1) 0)
    (fun x => ms.all fun m => pred m x) f
    (fun x => chainTrace pred 0 (chainOf ms 1) x ++
      if ms.all (fun m => pred m x) then [.yield ms.length x, .consume x] else [])
    st2.heap st2.vars
    (by
      intro x st hh hv
      have hl : Links st 0 (chainOf ms 1) := Links_of_heap_eq hh 0 _ hlinks
      have hf : fuel + ms.length + 1 = (fuel + 1) + (chainOf ms 1).length := by
        rw [chainOf_length]; omega
      rw [hf, Yield_filters defn pred (chainOf ms 1)
        (fun mb hmb => hdef mb.1 (mem_chainOf ms 1 mb hmb)) (fuel + 1) 0 x st hl,
        allPass_chainOf]
      by_cases hp : (ms.all fun m => pred m x) = true
      · simp only [hp, if_true]
        rw [hend, Yield_consumer defn fuel out x f _
          (by simpa [State.slot, hh] using hslot)]
        simp [hh, hv, hout]
      · simp only [hp]
        simp [State.log, hh, hv])
    s st2 rfl rfl
  have hr : st2.received = [] := by
    show (st1.setYield out _).received = []
    rw [State.setYield_received]
    show (applyMaps ms 0 st0).2.received = []
    rw [b9]; rfl
  have ht : st2.trace = [] := by
    show (st1.setYield out _).trace = []
    rw [State.setYield_trace]
    show (applyMaps ms 0 st0).2.trace = []
    rw [b10]; rfl
  rw [hr, ht] at hloop
  refine ⟨_, hloop, ?_, ?_, ?_⟩
  · show (st1.setYield out _).vars = vars
    rw [State.setYield_vars]
    show (applyMaps ms 0 st0).2.vars = vars
    rw [b8]; rfl
  · simp
  · simp

theorem consumed_chainTrace (pred : M → T → Bool) (a : Nat) (chain : List (M × Nat))
    (x : T) : consumed (chainTrace pred a chain x) = [] := by
  induction chain generalizing a with
  | nil => rfl
  | cons mb rest ih =>
    obtain ⟨m, b⟩ := mb
    by_cases hp : pred m x = true
    · have := ih b
      simp only [consumed] at this
      simp [chainTrace, consumed, hp, this]
    · simp [chainTrace, consumed, hp]

theorem yieldedBy_chainTrace (pred : M → T → Bool) (ms : List M) (a n g : Nat) (x : T)
    (hg : g < n) :
    yieldedBy g (chainTrace pred a (chainOf ms n) x) =
      if a = g ∧ ms.length ≠ 0 then [x] else [] := by
  induction ms generalizing a n with
  | nil => simp [chainOf, chainTrace, yieldedBy]
  | cons m ms ih =>
    have h1 := ih n (n + 1) (by omega)
    have hn : ¬ (n = g ∧ ms.length ≠ 0) := by omega
    rw [if_neg hn] at h1
    simp only [yieldedBy] at h1
    by_cases hp : pred m x = true
    · by_cases ha : a = g
      · simp [chainOf, chainTrace, yieldedBy, hp, h1, ha]
      · simp [chainOf, chainTrace, yieldedBy, hp, h1, ha]
    · by_cases ha : a = g
      · simp [chainOf, chainTrace, yieldedBy, hp, ha]
      · simp [chainOf, chainTrace, yieldedBy, hp, ha]

theorem consumed_pipelineTrace (ps : List (Predicate T)) (s : List T) :
    consumed (s.flatMap (pipelineTrace ps)) =
      s.filter fun x => ps.all fun p => holds p x := by
  induction s with
  | nil => rfl
  | cons x xs ih =>
    simp only [List.flatMap_cons, consumed_append, ih, pipelineTrace, consumed_chainTrace]
    by_cases hp : (ps.all fun p => holds p x) = true
    · simp [hp, consumed, List.filter_cons]
    · simp [hp, consumed, List.filter_cons]

theorem yieldedBy_pipelineTrace (ps : List (Predicate T)) (s : List T) :
    yieldedBy 0 (s.flatMap (pipelineTrace ps)) = s := by
  induction s with
  | nil => rfl
  | cons x xs ih =>
    simp only [List.flatMap_cons, yieldedBy_append, ih, pipelineTrace,
      yieldedBy_chainTrace holds ps 0 1 0 x (by omega)]
    cases ps with
    | nil => simp [yieldedBy]
    | cons p ps =>
      by_cases hp : ((p :: ps).all fun p => holds p x) = true
      · rw [if_pos hp]; simp [yieldedBy]
      · rw [if_neg hp]; simp [yieldedBy]

theorem takeThrough_last (keep : T → Bool) (j : Nat) (s : List T) (y : T)
    (hy : (s.filter keep)[j]? = some y) :
    ∃ pre, takeThrough keep j s = pre ++ [y] ∧ keep y = true := by
  induction s generalizing j with
  | nil => simp at hy
  | cons x xs ih =>
    by_cases hk : keep x = true
    · cases j with
      | zero =>
        simp [List.filter_cons, hk] at hy
        subst hy
        exact ⟨[], by simp [takeThrough, hk], hk⟩
      | succ j =>
        simp [List.filter_cons, hk] at hy
        obtain ⟨pre, h1, h2⟩ := ih j hy
        exact ⟨x :: pre, by simp [takeThrough, hk, h1], h2⟩
    · simp [List.filter_cons, hk] at hy
      obtain ⟨pre, h1, h2⟩ := ih j hy
      exact ⟨x :: pre, by simp [takeThrough, hk, h1], h2⟩

theorem holds_total (p : T → Bool) (x : T) : holds (total p) x = p x := rfl

theorem all_map_total (ps : List (T → Bool)) (x : T) :
    ((ps.map total).all fun p => holds p x) = ps.all fun p => p x := by
  induction ps with
  | nil => rfl
  | cons p ps ih => simp [holds_total, ih]

/-- The run of a pipeline of filters with the total predicates `ps`, for an
arbitrary consumer. -/
theorem driveFilters_eq (vars : σ) (fuel : Nat) (s : List T) (ps : List (T → Bool))
    (f : List T → T → LoopDirective) :
    ∃ st : State σ (Predicate T) T,
      drivePipeline Filter vars (fuel + 2 * ps.length + 2) s (ps.map total) f = .ok st ∧
      st.vars = vars ∧
      st.received = (sourced (fun x => ps.all fun p => p x) f [] s).filter
        (fun x => ps.all fun p => p x) ∧
      st.trace = (sourced (fun x => ps.all fun p => p x) f [] s).flatMap
        (pipelineTrace (ps.map total)) := by
  obtain ⟨st, h1, h2, h3, h4⟩ := drivePipeline_eq (Filter : Predicate T → mapGenerator σ _ T)
    holds (ps.map total)
    (by
      intro m hm
      obtain ⟨p, -, rfl⟩ := List.mem_map.mp hm
      rfl)
    vars fuel s f
  have hk : (fun x => (ps.map total).all fun m => holds m x) =
      fun x => ps.all fun p => p x := by
    funext x; exact all_map_total ps x
  rw [hk] at h3 h4
  rw [List.length_map] at h1
  exact ⟨st, h1, h2, h3, h4⟩

end StoreLemmas

/-! ## The natural-number generator and primeIterMap -/

section IterPrimes

variable {σ M T : Type}

theorem Loop_naturals (defn : M → mapGenerator σ M T) (fuel g : Nat) (start : T)
    (incr : T → T) (st : State σ M T) (hk : st.kind g = some (.naturals start incr)) :
    Loop defn (fuel + 1) g st = naturals.Loop (Yield defn fuel g) incr fuel start st := by
  simp only [State.kind] at hk
  split at hk
  · cases hk
  · rename_i obj hobj
    simp only [Option.some.injEq] at hk
    simp [Loop, hobj, hk]

theorem Loop_sGenerator (defn : M → mapGenerator σ M T) (fuel g inStream : Nat)
    (st : State σ M T) (hk : st.kind g = some (.sGenerator inStream)) :
    Loop defn (fuel + 1) g st = Loop defn fuel inStream st := by
  simp only [State.kind] at hk
  split at hk
  · cases hk
  · rename_i obj hobj
    simp only [Option.some.injEq] at hk
    simp [Loop, hobj, hk]

/-- The loop of `naturals` under an invariant: if the first `k` items are
answered by something else than LoopDirectiveBreak and item `k + 1` by
LoopDirectiveBreak, the loop returns after `k + 1` iterations. -/
theorem naturals_loop_inv (y : T → State σ M T → Call σ M T) (incr : T → T)
    (Inv : Nat → T → State σ M T → Prop) (Post : State σ M T → Prop) (k : Nat)
    (hstep : ∀ i c st, i < k → Inv i c st →
      ∃ d st1, y c st = .ok (d, st1) ∧ LoopDirectiveBreak ≠ d ∧ Inv (i + 1) (incr c) st1)
    (hlast : ∀ c st, Inv k c st → ∃ st1, y c st = .ok (LoopDirectiveBreak, st1) ∧ Post st1)
    (fuel : Nat) :
    ∀ m i c st, k - i = m → i ≤ k → Inv i c st →
      ∃ st1, naturals.Loop y incr (fuel + m + 1) c st = .ok st1 ∧ Post st1 := by
  intro m
  induction m with
  | zero =>
    intro i c st hm hik hinv
    have hi : i = k := by omega
    subst hi
    obtain ⟨st1, h1, h2⟩ := hlast c st hinv
    exact ⟨st1, by simp [naturals.Loop, h1], h2⟩
  | succ m ih =>
    intro i c st hm hik hinv
    obtain ⟨d, st1, h1, h2, h3⟩ := hstep i c st (by omega) hinv
    obtain ⟨st2, h4, h5⟩ := ih (i + 1) (incr c) st1 (by omega) (by omega) h3
    refine ⟨st2, ?_, h5⟩
    rw [show fuel + (m + 1) + 1 = (fuel + m + 1) + 1 by omega, naturals.Loop, h1]
    simp only [h2, if_false]
    exact h4

/-- One item through primeIterMap, given the result `b` of its inner loop. -/
theorem Yield_primeIterMap (fuel x : Nat) (st : PState) (f : List Nat → Nat → LoopDirective)
    (b : Bool) (hs0 : st.slot 0 = some (.action .primeIterMap 0 1))
    (hs1 : st.slot 1 = some (.consumer f))
    (hloop : primeIterMap.loop st.vars.1
      (if x > (st.vars.2 * st.vars.2) % uintSize then (st.vars.2 + 1) % uintSize else st.vars.2)
      x st.vars.1.length 0 = .ok b) :
    Yield PrimesMap.defn (fuel + 2) 0 x st =
      .ok (if b then (if LoopDirectiveBreak = f st.received x then LoopDirectiveBreak
            else LoopDirectiveContinue) else LoopDirectiveContinue,
        { heap := st.heap,
          vars := (if b then st.vars.1 ++ [x] else st.vars.1,
            if x > (st.vars.2 * st.vars.2) % uintSize then (st.vars.2 + 1) % uintSize
            else st.vars.2),
          received := if b then st.received ++ [x] else st.received,
          trace := st.trace ++ [.yield 0 x, .enter .primeIterMap x] ++
            if b then [.yield 1 x, .consume x] else [] }) := by
  have hs1b : ∀ v r t, State.slot (State.mk st.heap v r t : PState) 1 = some (.consumer f) :=
    fun _ _ _ => hs1
  cases b with
  | false =>
    simp [Yield, yieldWith, hs0, invoke, PrimesMap.defn, primeIterMap, CreateIterativeMap,
      Action.run, State.emit, hloop]
  | true =>
    simp only [Yield, yieldWith, hs0, invoke, PrimesMap.defn, primeIterMap, CreateIterativeMap,
      Action.run, State.emit, hloop, if_true, hs1b]
    by_cases hb : LoopDirectiveBreak = f st.received x
    · simp [Action.run, ← hb]
    · simp [Action.run, hb]

theorem primeIterMap_loop_spec (af : List Nat) (l x : Nat) (hpos : ∀ p ∈ af, p ≠ 0)
    (hsort : af.Pairwise (· < ·)) :
    ∀ n j, j + n = af.length →
      ∃ b, primeIterMap.loop af l x n j = .ok b ∧
        (b = true ↔ ∀ p ∈ af.drop j, p ≤ l → ¬ p ∣ x) := by
  intro n
  induction n with
  | zero =>
    intro j hj
    have : af.drop j = [] := List.drop_eq_nil_of_le (by omega)
    exact ⟨true, rfl, by simp [this]⟩
  | succ n ih =>
    intro j hj
    have hjl : j < af.length := by omega
    have hdrop : af.drop j = af[j] :: af.drop (j + 1) := List.drop_eq_getElem_cons hjl
    have hget : af[j]? = some af[j] := List.getElem?_eq_getElem hjl
    have hmem : af[j] ∈ af := List.getElem_mem hjl
    have hsorted : (af.drop j).Pairwise (· < ·) := hsort.sublist (List.drop_sublist j af)
    rw [hdrop] at hsorted
    have hrest : ∀ p ∈ af.drop (j + 1), af[j] < p := (List.pairwise_cons.mp hsorted).1
    simp only [primeIterMap.loop, hjl, if_true, hget]
    by_cases h1 : af[j] > l
    · refine ⟨true, by simp [h1], ?_⟩
      simp only [true_iff, hdrop, List.mem_cons]
      intro p hp hpl
      rcases hp with hp | hp
      · omega
      · have := hrest p hp; omega
    · simp only [h1, if_false, hpos _ hmem]
      by_cases h2 : x % af[j] = 0
      · refine ⟨false, by simp [h2], ?_⟩
        simp only [Bool.false_eq_true, false_iff, hdrop, List.mem_cons, not_forall]
        exact ⟨af[j], Or.inl rfl, by omega, fun h => h (Nat.dvd_of_mod_eq_zero h2)⟩
      · obtain ⟨b, hb1, hb2⟩ := ih (j + 1) (by omega)
        refine ⟨b, by simp [h2, hb1], ?_⟩
        rw [hb2, hdrop]
        constructor
        · intro h p hp hpl
          rcases List.mem_cons.mp hp with hp | hp
          · subst hp
            intro hd
            exact h2 (Nat.mod_eq_zero_of_dvd hd)
          · exact h p hp hpl
        · intro h p hp hpl
          exact h p (List.mem_cons_of_mem _ hp) hpl

theorem mem_firstPrimes (c q : Nat) :
    q ∈ (List.range (Nat.count Nat.Prime c)).map (Nat.nth Nat.Prime) ↔ q.Prime ∧ q < c := by
  simp only [List.mem_map, List.mem_range]
  constructor
  · rintro ⟨i, hi, rfl⟩
    exact ⟨Nat.prime_nth_prime i, (Nat.lt_nth_iff_count_lt Nat.infinite_setOf_prime).mp hi⟩
  · rintro ⟨hq, hqc⟩
    exact ⟨Nat.count Nat.Prime q, Nat.count_strict_mono hq hqc, Nat.nth_count hq⟩

theorem pairwise_firstPrimes (n : Nat) :
    ((List.range n).map (Nat.nth Nat.Prime)).Pairwise (· < ·) := by
  rw [List.pairwise_map]
  exact (List.pairwise_lt_range n).imp fun h =>
    Nat.nth_strictMono Nat.infinite_setOf_prime h

theorem firstPrimes_succ (c : Nat) :
    (List.range (Nat.count Nat.Prime (c + 1))).map (Nat.nth Nat.Prime) =
      (List.range (Nat.count Nat.Prime c)).map (Nat.nth Nat.Prime) ++
        if c.Prime then [c] else [] := by
  rw [Nat.count_succ]
  by_cases hc : c.Prime
  · simp only [hc, if_true, List.range_succ, List.map_append, List.map_cons, List.map_nil,
      Nat.nth_count hc]
  · simp [hc]

/-- With all primes below `x` at hand and `x ≤ l * l`, trial division by the
primes up to `l` decides primality. -/
theorem trial_division (x l : Nat) (hx : 2 ≤ x) (hl : x ≤ l * l) :
    (∀ p ∈ (List.range (Nat.count Nat.Prime x)).map (Nat.nth Nat.Prime), p ≤ l → ¬ p ∣ x) ↔
      x.Prime := by
  constructor
  · intro h
    by_contra hnp
    have hq : (Nat.minFac x).Prime := Nat.minFac_prime (by omega)
    have hsq : x.minFac ^ 2 ≤ x := Nat.minFac_sq_le_self (by omega) hnp
    have hql : x.minFac ≤ l := by
      by_contra hlt
      have : l < x.minFac := by omega
      have : l * l < x.minFac * x.minFac := Nat.mul_lt_mul'' this this
      rw [pow_two] at hsq
      omega
    have hqx : x.minFac < x := by
      rcases Nat.lt_or_ge x.minFac x with h1 | h1
      · exact h1
      · have : x.minFac = x := le_antisymm (Nat.minFac_le (by omega)) h1
        exact absurd (this ▸ hq) hnp
    exact h _ ((mem_firstPrimes x _).mpr ⟨hq, hqx⟩) hql (Nat.minFac_dvd x)
  · intro hp p hpm _ hd
    obtain ⟨hpp, hpx⟩ := (mem_firstPrimes x p).mp hpm
    rcases (Nat.dvd_prime hp).mp hd with h1 | h1
    · exact hpp.one_lt.ne' h1
    · omega

theorem drivePrimes_eq (fuel : Nat) (f : List Nat → Nat → LoopDirective) :
    drivePrimes (fuel + 2) f =
      naturals.Loop (Yield PrimesMap.defn fuel 0) (fun counter => (counter + 1) % uintSize)
        fuel 2 (State.mk (primesHeap f) ([], 2) [] []) := by
  rfl

theorem sq_no_overflow (l c : Nat) (hl : l = 2 ∨ (l - 1) * (l - 1) < c - 1)
    (hc : c ≤ (2 ^ 32 - 1) ^ 2) : l * l < uintSize ∧ l + 1 < uintSize := by
  have hB : l ≤ 2 ^ 32 - 1 := by
    rcases hl with h | h
    · subst h; norm_num
    · by_contra hlt
      have h1 : 2 ^ 32 - 1 ≤ l - 1 := by omega
      have h2 : (2 ^ 32 - 1) * (2 ^ 32 - 1) ≤ (l - 1) * (l - 1) := Nat.mul_le_mul h1 h1
      rw [pow_two] at hc
      omega
  have h3 : l * l ≤ (2 ^ 32 - 1) * (2 ^ 32 - 1) := Nat.mul_le_mul hB hB
  have h4 : (2 ^ 32 - 1) * (2 ^ 32 - 1) < uintSize := by norm_num [uintSize]
  have h5 : (2 : Nat) ^ 32 - 1 + 1 < uintSize := by norm_num [uintSize]
  exact ⟨by omega, by omega⟩

/-- One step of the run of `Primes()`. -/
theorem PrimesInv_step (f : List Nat → Nat → LoopDirective) (fuel i c : Nat) (st : PState)
    (hinv : PrimesInv f i c st) (hc : c ≤ (2 ^ 32 - 1) ^ 2) :
    ∃ st1, Yield PrimesMap.defn (fuel + 2) 0 c st =
        .ok (if c.Prime then (if LoopDirectiveBreak = f st.received c then LoopDirectiveBreak
          else LoopDirectiveContinue) else LoopDirectiveContinue, st1) ∧
      PrimesInv f (i + 1) (c + 1) st1 := by
  obtain ⟨hci, hheap, haf, hl1, hl2, hl3, hrec, hcons, hy0, hy1⟩ := hinv
  obtain ⟨hov1, hov2⟩ := sq_no_overflow st.vars.2 c hl1 hc
  have hc2 : 2 ≤ c := by omega
  -- the new value of `l`
  have hlnew : (if c > (st.vars.2 * st.vars.2) % uintSize then (st.vars.2 + 1) % uintSize
      else st.vars.2) = if c > st.vars.2 * st.vars.2 then st.vars.2 + 1 else st.vars.2 := by
    rw [Nat.mod_eq_of_lt hov1, Nat.mod_eq_of_lt hov2]
  obtain ⟨l, hldef⟩ : ∃ l, l = if c > st.vars.2 * st.vars.2 then st.vars.2 + 1 else st.vars.2 :=
    ⟨_, rfl⟩
  have hlc : c ≤ l * l := by
    rw [hldef]
    split
    · have : (st.vars.2 + 1) * (st.vars.2 + 1) = st.vars.2 * st.vars.2 + 2 * st.vars.2 + 1 := by
        ring
      omega
    · omega
  have hl2' : 2 ≤ l := by rw [hldef]; split <;> omega
  have hl1' : l = 2 ∨ (l - 1) * (l - 1) < c := by
    rw [hldef]
    split
    · right; simpa using (by omega : st.vars.2 * st.vars.2 < c)
    · rcases hl1 with h | h
      · left; exact h
      · right; omega
  -- the inner loop
  obtain ⟨b, hb1, hb2⟩ := primeIterMap_loop_spec st.vars.1 l c
    (by
      intro p hp
      rw [haf] at hp
      exact ((mem_firstPrimes c p).mp hp).1.pos.ne')
    (by rw [haf]; exact pairwise_firstPrimes _) st.vars.1.length 0 (by omega)
  have hbp : b = true ↔ c.Prime := by
    rw [hb2, List.drop_zero, haf]
    exact trial_division c l hc2 hlc
  have hs0 : st.slot 0 = some (.action .primeIterMap 0 1) := by
    simp [State.slot, hheap, primesHeap]
  have hs1 : st.slot 1 = some (.consumer f) := by
    simp [State.slot, hheap, primesHeap]
  have hstep := Yield_primeIterMap fuel c st f b hs0 hs1 (by rw [hlnew, ← hldef]; exact hb1)
  rw [hlnew, ← hldef] at hstep
  by_cases hp : c.Prime
  · have hbt : b = true := hbp.mpr hp
    subst hbt
    simp only [if_true] at hstep
    rw [hstep]
    simp only [hp, if_true]
    refine ⟨_, rfl, ?_⟩
    refine ⟨by omega, hheap, ?_, ?_, ?_, hl2', ?_, ?_, ?_, ?_⟩
    · simp only [firstPrimes_succ, hp, if_true, haf]
    · simpa using hl1'
    · simpa using hlc
    · simp only [firstPrimes_succ, hp, if_true, hrec]
    · show consumed (_ ++ _ ++ _) = _
      rw [consumed_append, consumed_append, hcons]
      simp [consumed]
    · simp only [yieldedBy_append, hy0, List.range'_concat]
      simp [yieldedBy, hci]; omega
    · simp only [yieldedBy_append, hy1, List.filter_append]
      simp [yieldedBy, hp]
  · have hbf : b = false := by
      cases b with
      | false => rfl
      | true => exact absurd (hbp.mp rfl) hp
    subst hbf
    simp only [Bool.false_eq_true, if_false] at hstep
    rw [hstep]
    simp only [hp, if_false]
    refine ⟨_, rfl, ?_⟩
    refine ⟨by omega, hheap, ?_, ?_, ?_, hl2', ?_, ?_, ?_, ?_⟩
    · simp only [firstPrimes_succ, hp, if_false, List.append_nil, haf]
    · simpa using hl1'
    · simpa using hlc
    · simp only [firstPrimes_succ, hp, if_false, List.append_nil, hrec]
    · show consumed (_ ++ _ ++ _) = _
      rw [consumed_append, consumed_append, hcons]
      simp [consumed]
    · simp only [yieldedBy_append, hy0, List.range'_concat]
      simp [yieldedBy, hci]; omega
    · simp only [yieldedBy_append, hy1, List.filter_append]
      simp [yieldedBy, hp]

theorem length_firstPrimes (n : Nat) :
    ((List.range n).map (Nat.nth Nat.Prime)).length = n := by simp

theorem count_prime_two : Nat.count Nat.Prime 2 = 0 := by decide

theorem two_le_nth_prime (j : Nat) : 2 ≤ Nat.nth Nat.Prime j :=
  (Nat.prime_nth_prime j).two_le

theorem nth_prime_two : Nat.nth Nat.Prime 2 = 5 := by
  have h : Nat.count Nat.Prime 5 = 2 := by decide
  have := Nat.nth_count (p := Nat.Prime) (n := 5) (by norm_num)
  rwa [h] at this

end IterPrimes

/-! ## Recursive maps -/

section RecLemmas

variable {σ M T : Type}

theorem FwdLinks_of_heap_eq {st st1 : State σ M T} (hh : st1.heap = st.heap)
    (f : List T → T → LoopDirective) (b : Nat) (fwd : List Nat)
    (hl : FwdLinks st f b fwd) : FwdLinks st1 f b fwd := by
  induction fwd generalizing b with
  | nil => simpa [FwdLinks, State.slot, hh] using hl
  | cons b1 rest ih =>
    exact ⟨by simpa [State.slot, hh] using hl.1, ih b1 hl.2⟩

theorem FwdLinks_frame {st st1 : State σ M T} (f : List T → T → LoopDirective) (b : Nat)
    (fwd : List Nat) (hs : ∀ i ∈ b :: fwd, st1.slot i = st.slot i)
    (hl : FwdLinks st f b fwd) : FwdLinks st1 f b fwd := by
  induction fwd generalizing b with
  | nil =>
    show st1.slot b = _
    rw [hs b (by simp)]; exact hl
  | cons b1 rest ih =>
    refine ⟨?_, ih b1 (fun i hi => hs i (List.mem_cons_of_mem _ hi)) hl.2⟩
    rw [hs b (by simp)]; exact hl.1

/-- An item handed down a chain of method values reaches the consumer. -/
theorem Yield_fwd (defn : M → mapGenerator σ M T) (f : List T → T → LoopDirective)
    (fwd : List Nat) (fuel b : Nat) (x : T) (st : State σ M T)
    (hl : FwdLinks st f b fwd) :
    Yield defn (fuel + fwd.length + 1) b x st =
      .ok (f st.received x,
        State.mk st.heap st.vars (st.received ++ [x]) (st.trace ++ fwdTrace b fwd x)) := by
  induction fwd generalizing b st with
  | nil =>
    rw [Yield_consumer defn _ b x f st hl]
    rfl
  | cons b1 rest ih =>
    have h1 := ih b1 (st.log [.yield b x]) (FwdLinks_of_heap_eq (by simp) f b1 rest hl.2)
    have hlen : fuel + (b1 :: rest).length + 1 = (fuel + rest.length + 1) + 1 := by
      simp; omega
    rw [hlen]
    simp only [Yield, yieldWith, hl.1, invoke]
    simp only [Yield, yieldWith, State.slot_log] at h1
    rw [State.emit_eq_log]
    simp only [State.slot_log]
    rw [h1]
    simp [fwdTrace, State.log]

/-- The first call of the function of a recursive map: it runs the action,
applies the returned maps to `inStream` from left to right and installs
`outStream.Yield` as continuation of the last stream. -/
theorem Yield_recursive (defn : M → mapGenerator σ M T) (fuel a b : Nat) (m : M)
    (act : T → Action σ T (LoopDirective × List M)) (x : T) (st st1 : State σ M T)
    (r : LoopDirective) (ms : List M)
    (hdef : defn m = CreateRecursiveMap act) (hslot : st.slot a = some (.action m a b))
    (hrun : (act x).run (yieldWith (invoke defn fuel) b) (st.log [.yield a x, .enter m x]) =
      .ok ((r, ms), st1)) :
    Yield defn (fuel + 1) a x st =
      .ok (r, (applyMaps ms a st1).2.setYield (applyMaps ms a st1).1 (.method b)) := by
  simp only [Yield, yieldWith, hslot, invoke, hdef, CreateRecursiveMap]
  simp only [State.emit_eq_log, State.log_log, List.singleton_append]
  rw [hrun]

/-- The store after the maps `ms` have been spliced in behind generator `a` and
the last stream has been wired to `b`. -/
theorem splice_spec (ms : List M) (a b : Nat) (st : State σ M T) (ha : a < st.heap.length) :
    Links ((applyMaps ms a st).2.setYield (applyMaps ms a st).1 (.method b)) a
      (chainOf ms st.heap.length) ∧
    ((applyMaps ms a st).2.setYield (applyMaps ms a st).1 (.method b)).slot
      (chainEnd a (chainOf ms st.heap.length)) = some (.method b) ∧
    (∀ i, i < st.heap.length → i ≠ a →
      ((applyMaps ms a st).2.setYield (applyMaps ms a st).1 (.method b)).slot i = st.slot i) ∧
    ((applyMaps ms a st).2.setYield (applyMaps ms a st).1 (.method b)).heap.length =
      st.heap.length + ms.length ∧
    ((applyMaps ms a st).2.setYield (applyMaps ms a st).1 (.method b)).vars = st.vars ∧
    ((applyMaps ms a st).2.setYield (applyMaps ms a st).1 (.method b)).received = st.received ∧
    ((applyMaps ms a st).2.setYield (applyMaps ms a st).1 (.method b)).trace = st.trace := by
  obtain ⟨b1, b2, b3, -, b5, -, -, b8, b9, b10⟩ := applyMaps_spec ms a st ha
  have hend : (applyMaps ms a st).1 = if ms.length = 0 then a else st.heap.length + ms.length - 1 := by
    rw [b1, chainEnd_chainOf]
  refine ⟨?_, ?_, ?_, ?_, ?_, ?_, ?_⟩
  · refine Links_frame a _ (fun i hi => ?_) b3
    have h1 := sources_chainOf_lt ms a st.heap.length ha i hi
    refine State.slot_setYield_ne _ _ _ _ ?_
    rw [hend]
    split
    · rename_i h0
      have : ms = [] := List.length_eq_zero.mp h0
      subst this
      simp [chainOf, sources] at hi
    · omega
  · rw [← b1]
    refine State.slot_setYield_self _ _ _ ?_
    rw [b2, hend]
    split <;> omega
  · intro i hi hia
    rw [State.slot_setYield_ne _ _ _ _ (by rw [hend]; split <;> omega)]
    exact b5 i hi hia
  · rw [State.setYield_length, b2]
  · rw [State.setYield_vars, b8]
  · rw [State.setYield_received, b9]
  · rw [State.setYield_trace, b10]

theorem applyMaps_length (ms : List M) (a : Nat) (st : State σ M T) :
    (applyMaps ms a st).2.heap.length = st.heap.length + ms.length := by
  induction ms generalizing a st with
  | nil => rfl
  | cons m ms ih =>
    have hstep : applyMaps (m :: ms) a st =
        applyMaps ms st.heap.length (mapGenerator.Apply m a st).2 := rfl
    rw [hstep, ih]
    simp [mapGenerator.Apply, State.alloc]
    omega

theorem Action.run_length_le {α : Type} (y : T → State σ M T → Call σ M T)
    (hy : ∀ x st d st1, y x st = .ok (d, st1) → st.heap.length ≤ st1.heap.length)
    (act : Action σ T α) (st st1 : State σ M T) (a : α)
    (h : act.run y st = .ok (a, st1)) : st.heap.length ≤ st1.heap.length := by
  induction act generalizing st with
  | ret a0 =>
    simp only [Action.run, Except.ok.injEq, Prod.mk.injEq] at h
    rw [← h.2]
  | fault e => simp [Action.run] at h
  | yield x k ih =>
    simp only [Action.run] at h
    cases hyx : y x st with
    | error e => simp [hyx] at h
    | ok r =>
      obtain ⟨d, st2⟩ := r
      simp only [hyx] at h
      exact Nat.le_trans (hy x st d st2 hyx) (ih d st2 h)
  | get k ih =>
    simp only [Action.run] at h
    exact ih _ st h
  | set s k ih =>
    simp only [Action.run] at h
    have := ih _ h
    exact this

/-- Calls never shrink the heap. -/
theorem invoke_length_le (defn : M → mapGenerator σ M T) (fuel : Nat) :
    ∀ (c : Continuation M T) (x : T) (st : State σ M T) (d : LoopDirective)
      (st1 : State σ M T),
      invoke defn fuel c x st = .ok (d, st1) → st.heap.length ≤ st1.heap.length := by
  induction fuel with
  | zero => intro c x st d st1 h; simp [invoke] at h
  | succ fuel ih =>
    have hy : ∀ g x (st : State σ M T) d st1,
        yieldWith (invoke defn fuel) g x st = .ok (d, st1) →
          st.heap.length ≤ st1.heap.length := by
      intro g x st d st1 h
      simp only [yieldWith] at h
      split at h
      · simp at h
      · have := ih _ _ _ _ _ h
        exact this
    intro c x st d st1 h
    cases c with
    | consumer f =>
      simp only [invoke, Except.ok.injEq, Prod.mk.injEq] at h
      rw [← h.2]
    | method g => exact hy g x st d st1 h
    | action m a b =>
      simp only [invoke] at h
      split at h
      · have := Action.run_length_le _ (hy b) _ _ _ _ h
        exact this
      · split at h
        · simp at h
        · rename_i act _ r ms st2 hrun
          simp only [Except.ok.injEq, Prod.mk.injEq] at h
          have h1 := Action.run_length_le _ (hy b) _ _ _ _ hrun
          rw [← h.2, State.setYield_length, applyMaps_length]
          simp only [State.emit] at h1
          omega


variable {σ M T : Type}

theorem Yield_length_le (defn : M → mapGenerator σ M T) (fuel g : Nat) (x : T)
    (st st1 : State σ M T) (d : LoopDirective)
    (h : yieldWith (invoke defn fuel) g x st = .ok (d, st1)) :
    st.heap.length ≤ st1.heap.length := by
  simp only [yieldWith] at h
  split at h
  · simp at h
  · have := invoke_length_le defn fuel _ _ _ _ _ h
    exact this

theorem Yield_method (defn : M → mapGenerator σ M T) (fuel e out : Nat) (x : T)
    (st : State σ M T) (hslot : st.slot e = some (.method out)) :
    Yield defn (fuel + 1) e x st = Yield defn fuel out x (st.log [.yield e x]) := by
  simp only [Yield, yieldWith, hslot, invoke]
  rfl

theorem entered_chainTrace (pred : M → T → Bool) (ms : List M) (a n : Nat) (x : T) :
    entered (chainTrace pred a (chainOf ms n) x) =
      ms.take ((ms.takeWhile fun m => pred m x).length + 1) := by
  induction ms generalizing a n with
  | nil => rfl
  | cons m ms ih =>
    have h1 := ih n (n + 1)
    simp only [entered] at h1
    by_cases hp : pred m x = true
    · simp [chainOf, chainTrace, entered, hp, h1, List.takeWhile_cons]
    · simp [chainOf, chainTrace, entered, hp, List.takeWhile_cons]

theorem slot_lt_length (st : State σ M T) (g : Nat) (c : Continuation M T)
    (h : st.slot g = some c) : g < st.heap.length := by
  rcases Nat.lt_or_ge g st.heap.length with h1 | h1
  · exact h1
  · simp [State.slot, List.getElem?_eq_none h1] at h

end RecLemmas

/-! ## Sieves: a chain of filters followed by a recursive map -/

section SieveLemmas

variable {σ M T : Type}

theorem Links_append (st : State σ M T) (a : Nat) (c1 c2 : List (M × Nat)) :
    Links st a (c1 ++ c2) ↔ Links st a c1 ∧ Links st (chainEnd a c1) c2 := by
  induction c1 generalizing a with
  | nil => simp [Links, chainEnd]
  | cons mb rest ih =>
    obtain ⟨m, b⟩ := mb
    simp only [List.cons_append, Links, chainEnd, List.append_eq, ih b, and_assoc]

theorem chainEnd_append (a : Nat) (c1 c2 : List (M × Nat)) :
    chainEnd a (c1 ++ c2) = chainEnd (chainEnd a c1) c2 := by
  induction c1 generalizing a with
  | nil => rfl
  | cons mb rest ih =>
    obtain ⟨m, b⟩ := mb
    simp only [List.cons_append, chainEnd, List.append_eq, ih b]

theorem sources_append (a : Nat) (c1 c2 : List (M × Nat)) :
    sources a (c1 ++ c2) = sources a c1 ++ sources (chainEnd a c1) c2 := by
  induction c1 generalizing a with
  | nil => rfl
  | cons mb rest ih =>
    obtain ⟨m, b⟩ := mb
    simp only [List.cons_append, sources, chainEnd, List.append_eq, ih b, List.cons_append]

theorem chainOf_append (ms1 ms2 : List M) (n : Nat) :
    chainOf (ms1 ++ ms2) n = chainOf ms1 n ++ chainOf ms2 (n + ms1.length) := by
  induction ms1 generalizing n with
  | nil => rfl
  | cons m ms ih =>
    simp only [List.cons_append, chainOf, List.append_eq, ih (n + 1), List.length_cons]
    rw [show n + 1 + ms.length = n + (ms.length + 1) by omega]

theorem Links_sources_lt (st : State σ M T) (a : Nat) (chain : List (M × Nat))
    (hl : Links st a chain) : ∀ i ∈ sources a chain, i < st.heap.length := by
  induction chain generalizing a with
  | nil => simp [sources]
  | cons mb rest ih =>
    obtain ⟨m, b⟩ := mb
    intro i hi
    simp only [sources, List.mem_cons] at hi
    rcases hi with hi | hi
    · subst hi; exact slot_lt_length st _ _ hl.1
    · exact ih b hl.2 i hi

theorem FwdLinks_lt (st : State σ M T) (f : List T → T → LoopDirective) (b : Nat)
    (fwd : List Nat) (hl : FwdLinks st f b fwd) : ∀ i ∈ b :: fwd, i < st.heap.length := by
  induction fwd generalizing b with
  | nil =>
    intro i hi
    simp only [List.mem_singleton] at hi
    subst hi; exact slot_lt_length st _ _ hl
  | cons b1 rest ih =>
    intro i hi
    rcases List.mem_cons.mp hi with hi | hi
    · subst hi; exact slot_lt_length st _ _ hl.1
    · exact ih b1 hl.2 i hi

theorem Sieve_of_heap_eq (st st1 : State σ M T) (hh : st1.heap = st.heap)
    (f : List T → T → LoopDirective) (g : Nat) (chain : List (M × Nat)) (tail : M) (b : Nat)
    (fwd : List Nat) (hs : Sieve st f g chain tail b fwd) : Sieve st1 f g chain tail b fwd := by
  obtain ⟨h1, h2, h3, h4, h5⟩ := hs
  exact ⟨Links_of_heap_eq hh g chain h1, by simpa [State.slot, hh] using h2,
    FwdLinks_of_heap_eq hh f b fwd h3, h4, h5⟩

/-- An item rejected by one of the filters of a sieve. -/
theorem Sieve_reject (defn : M → mapGenerator σ M T) (pred : M → T → Bool)
    (st : State σ M T) (f : List T → T → LoopDirective) (g : Nat) (chain : List (M × Nat))
    (tail : M) (b : Nat) (fwd : List Nat) (hs : Sieve st f g chain tail b fwd)
    (hdef : ∀ mb ∈ chain, defn mb.1 = Filter (total (pred mb.1)))
    (x : T) (hx : allPass pred chain x = false) (fuel : Nat) :
    Yield defn (fuel + chain.length) g x st =
      .ok (LoopDirectiveContinue, st.log (chainTrace pred g chain x)) := by
  rw [Yield_filters defn pred chain hdef fuel g x st hs.1, hx]
  rfl

/-- An item that passes all filters of a sieve reaches the recursive map at the
end of the chain, which hands it on to the consumer and then splices the maps it
returns. -/
theorem Sieve_pass (defn : M → mapGenerator σ M T) (pred : M → T → Bool)
    (st : State σ M T) (f : List T → T → LoopDirective) (g : Nat) (chain : List (M × Nat))
    (tail : M) (b : Nat) (fwd : List Nat) (hs : Sieve st f g chain tail b fwd)
    (hdef : ∀ mb ∈ chain, defn mb.1 = Filter (total (pred mb.1)))
    (x : T) (hx : allPass pred chain x = true)
    (act : T → Action σ T (LoopDirective × List M)) (hact : defn tail = CreateRecursiveMap act)
    (k : LoopDirective → Action σ T (LoopDirective × List M)) (hk : act x = .yield x k)
    (r : LoopDirective) (ms : List M) (hr : k (f st.received x) = .ret (r, ms))
    (fuel : Nat) :
    Yield defn (fuel + fwd.length + 2 + chain.length) g x st =
      .ok (r, splice ms (chainEnd g chain) b
        (State.mk st.heap st.vars (st.received ++ [x])
          (st.trace ++ (chainTrace pred g chain x ++
            ([.yield (chainEnd g chain) x, .enter tail x] ++ fwdTrace b fwd x))))) := by
  obtain ⟨h1, h2, h3, -, -⟩ := hs
  rw [Yield_filters defn pred chain hdef (fuel + fwd.length + 2) g x st h1, hx, if_pos rfl]
  refine Yield_recursive defn (fuel + fwd.length + 1) (chainEnd g chain) b tail act x _ _ r ms
    hact (by rw [State.slot_log]; exact h2) ?_
  rw [hk]
  simp only [Action.run]
  have h4 := Yield_fwd defn f fwd fuel b x
    ((st.log (chainTrace pred g chain x)).log [.yield (chainEnd g chain) x, .enter tail x])
    (FwdLinks_of_heap_eq (by simp) f b fwd h3)
  simp only [Yield] at h4
  rw [h4]
  simp only [State.log_received, hr, Action.run, State.log_heap, State.log_vars,
    State.log_trace, List.append_assoc]

/-- The shape of the sieve after the maps `fs ++ [t]` have been spliced in. -/
theorem Sieve_splice (st : State σ M T) (f : List T → T → LoopDirective) (g : Nat)
    (chain : List (M × Nat)) (tail : M) (b : Nat) (fwd : List Nat)
    (hs : Sieve st f g chain tail b fwd) (fs : List M) (t : M) :
    Sieve (splice (fs ++ [t]) (chainEnd g chain) b st) f g
      (chain ++ chainOf fs st.heap.length) t (st.heap.length + fs.length) (b :: fwd) ∧
    (splice (fs ++ [t]) (chainEnd g chain) b st).vars = st.vars ∧
    (splice (fs ++ [t]) (chainEnd g chain) b st).received = st.received ∧
    (splice (fs ++ [t]) (chainEnd g chain) b st).trace = st.trace := by
  obtain ⟨h1, h2, h3, h4, h5⟩ := hs
  have ha : chainEnd g chain < st.heap.length := slot_lt_length st _ _ h2
  obtain ⟨s1, s2, s3, -, s5, s6, s7⟩ := splice_spec (fs ++ [t]) (chainEnd g chain) b st ha
  have hsrc := Links_sources_lt st g chain h1
  have hfwd := FwdLinks_lt st f b fwd h3
  rw [chainOf_append, Links_append] at s1
  rw [chainOf_append, chainEnd_append] at s2
  simp only [chainOf, chainEnd, Links, and_true] at s1 s2
  have hend : chainEnd (chainEnd g chain) (chainOf fs st.heap.length) =
      if fs.length = 0 then chainEnd g chain else st.heap.length + fs.length - 1 :=
    chainEnd_chainOf fs _ _
  refine ⟨⟨?_, ?_, ⟨s2, ?_⟩, ?_, ?_⟩, s5, s6, s7⟩
  · rw [Links_append]
    refine ⟨Links_frame g chain (fun i hi => ?_) h1, s1.1⟩
    exact s3 i (hsrc i hi) (fun h => h4 (h ▸ hi))
  · rw [chainEnd_append]
    exact s1.2
  · refine FwdLinks_frame f b fwd (fun i hi => ?_) h3
    exact s3 i (hfwd i hi) (fun h => h5 (h ▸ hi))
  · rw [chainEnd_append, sources_append, List.mem_append, hend]
    intro hmem
    rcases hmem with hmem | hmem
    · split at hmem
      · exact h4 hmem
      · have := hsrc _ hmem; omega
    · have h6 := sources_chainOf_lt fs (chainEnd g chain) st.heap.length ha _ hmem
      split at h6
      · rename_i h0
        have : fs = [] := List.length_eq_zero.mp h0
        subst this
        simp [chainOf, sources] at hmem
      · omega
  · rw [chainEnd_append, hend]
    intro hmem
    rcases List.mem_cons.mp hmem with hmem | hmem
    · split at hmem <;> omega
    · split at hmem
      · exact h5 hmem
      · have := hfwd _ hmem; omega

end SieveLemmas

/-! ## The sieve of the package documentation -/

section DocSieve

theorem defn_Filter (d : Nat) (hd : d ≠ 0) :
    PrimesMap.defn (.Filter d) = Filter (total (primesPred (.Filter d))) := by
  have : IsNonDivisible d = total (primesPred (.Filter d)) := by
    funext x
    simp [IsNonDivisible, total, primesPred, hd]
  simp only [PrimesMap.defn, this]

theorem driveDocPrimes_eq (fuel : Nat) (f : List Nat → Nat → LoopDirective) :
    driveDocPrimes (fuel + 2) f =
      naturals.Loop (Yield PrimesMap.defn fuel 0) (fun counter => (counter + 1) % uintSize)
        fuel 2 (State.mk (sieveHeap .primeMap f) ([], 2) [] []) := by
  rfl

theorem Sieve_init (m : PrimesMap) (f : List Nat → Nat → LoopDirective)
    (v : List Nat × Nat) :
    Sieve (State.mk (sieveHeap m f) v [] [] : PState) f 0 [] m 1 [] := by
  refine ⟨trivial, rfl, rfl, ?_, ?_⟩
  · simp [sources]
  · simp [chainEnd]

theorem consumed_fwdTrace {M T : Type} (b : Nat) (fwd : List Nat) (x : T) :
    consumed (fwdTrace b fwd x : List (Event M T)) = [x] := by
  induction fwd generalizing b with
  | nil => simp [fwdTrace, consumed]
  | cons b1 rest ih =>
    have := ih b1
    simp only [consumed] at this
    simp [fwdTrace, consumed, this]

theorem allPass_eq_all {M T : Type} (pred : M → T → Bool) (chain : List (M × Nat)) (x : T) :
    allPass pred chain x = (chain.map Prod.fst).all fun m => pred m x := by
  induction chain with
  | nil => rfl
  | cons mb rest ih =>
    simp only [allPass] at ih
    simp [allPass, ih]

/-- An item passes the filters for all primes below it iff it is prime. -/
theorem allPass_primes (chain : List (PrimesMap × Nat)) (c : Nat) (hc : 2 ≤ c)
    (hch : chain.map Prod.fst =
      ((List.range (Nat.count Nat.Prime c)).map (Nat.nth Nat.Prime)).map PrimesMap.Filter) :
    allPass primesPred chain c = true ↔ c.Prime := by
  rw [allPass_eq_all, hch, ← trial_division c c hc (Nat.le_mul_self c), List.all_eq_true]
  constructor
  · intro h p hp _ hd
    have := h (.Filter p) (List.mem_map_of_mem _ hp)
    simp only [primesPred, bne_iff_ne, ne_eq] at this
    exact this (Nat.mod_eq_zero_of_dvd hd)
  · intro h m hm
    obtain ⟨p, hp, rfl⟩ := List.mem_map.mp hm
    have hlt := ((mem_firstPrimes c p).mp hp).2
    simp only [primesPred, bne_iff_ne, ne_eq]
    intro hmod
    exact h p hp (by omega) (Nat.dvd_of_mod_eq_zero hmod)

/-- One step of the run of the documentation's sieve. -/
theorem DocInv_step (f : List Nat → Nat → LoopDirective) (fuel i c : Nat) (st : PState)
    (hinv : DocInv f i c st) :
    ∃ st1, Yield PrimesMap.defn (fuel + 2 * i + 2) 0 c st =
        .ok (if c.Prime then f st.received c else LoopDirectiveContinue, st1) ∧
      DocInv f (i + 1) (c + 1) st1 := by
  obtain ⟨hci, chain, b, fwd, hs, hch, hrec, hl1, hl2, hcons⟩ := hinv
  have hc2 : 2 ≤ c := by omega
  have hdef : ∀ mb ∈ chain, PrimesMap.defn mb.1 = Filter (total (primesPred mb.1)) := by
    intro mb hmb
    have h1 : mb.1 ∈ chain.map Prod.fst := List.mem_map_of_mem _ hmb
    rw [hch] at h1
    obtain ⟨q, hq, hqe⟩ := List.mem_map.mp h1
    rw [← hqe]
    exact defn_Filter q ((mem_firstPrimes c q).mp hq).1.pos.ne'
  by_cases hp : c.Prime
  · have hx : allPass primesPred chain c = true := (allPass_primes chain c hc2 hch).mpr hp
    have hstep := Sieve_pass PrimesMap.defn primesPred st f 0 chain .primeMap b fwd hs hdef c hx
      (fun elem => .yield elem fun d => .ret (d, [.Filter elem, .primeMap])) rfl
      (fun d => .ret (d, [.Filter c, .primeMap])) rfl (f st.received c) [.Filter c, .primeMap] rfl
      (fuel + 2 * i - fwd.length - chain.length)
    rw [show fuel + 2 * i - fwd.length - chain.length + fwd.length + 2 + chain.length =
      fuel + 2 * i + 2 by omega] at hstep
    rw [hstep]
    simp only [hp, if_true]
    refine ⟨_, rfl, ?_⟩
    obtain ⟨t1, t2, t3, t4⟩ := Sieve_splice
      (State.mk st.heap st.vars (st.received ++ [c])
        (st.trace ++ (chainTrace primesPred 0 chain c ++
          ([.yield (chainEnd 0 chain) c, .enter .primeMap c] ++ fwdTrace b fwd c))))
      f 0 chain .primeMap b fwd (Sieve_of_heap_eq st _ (by rfl) f 0 chain _ b fwd hs) [.Filter c] .primeMap
    refine ⟨by omega, _, _, _, t1, ?_, ?_, ?_, ?_, ?_⟩
    · simp only [List.map_append, hch, chainOf, List.map_cons, List.map_nil, firstPrimes_succ,
        hp, if_true]
    · show (splice _ _ _ _).received = _
      rw [show ([PrimesMap.Filter c, PrimesMap.primeMap] : List PrimesMap) =
        [PrimesMap.Filter c] ++ [PrimesMap.primeMap] from rfl, t3]
      simp only [firstPrimes_succ, hp, if_true, hrec]
    · simp [chainOf]; omega
    · simp; omega
    · show consumed (splice _ _ _ _).trace = (splice _ _ _ _).received
      rw [show ([PrimesMap.Filter c, PrimesMap.primeMap] : List PrimesMap) =
        [PrimesMap.Filter c] ++ [PrimesMap.primeMap] from rfl, t3, t4]
      simp only [consumed_append, hcons, consumed_chainTrace, consumed_fwdTrace]
      simp [consumed]
  · have hx : allPass primesPred chain c = false := by
      cases h : allPass primesPred chain c with
      | false => rfl
      | true => exact absurd ((allPass_primes chain c hc2 hch).mp h) hp
    have hstep := Sieve_reject PrimesMap.defn primesPred st f 0 chain .primeMap b fwd hs hdef c hx
      (fuel + 2 * i + 2 - chain.length)
    rw [show fuel + 2 * i + 2 - chain.length + chain.length = fuel + 2 * i + 2 by omega] at hstep
    rw [hstep]
    simp only [hp, if_false]
    refine ⟨_, rfl, ?_⟩
    refine ⟨by omega, chain, b, fwd, Sieve_of_heap_eq st _ (by rfl) f 0 chain _ b fwd hs, ?_, ?_,
      by omega, by omega, ?_⟩
    · simp only [hch, firstPrimes_succ, hp, if_false, List.append_nil]
    · simp only [State.log_received, hrec, firstPrimes_succ, hp, if_false, List.append_nil]
    · simp only [State.log_trace, State.log_received, consumed_append, consumed_chainTrace,
        hcons, List.append_nil]

end DocSieve

/-! ## The recursive prime pipeline -/

section RecSieve

theorem driveRecPrimes_eq (fuel : Nat) (f : List Nat → Nat → LoopDirective) :
    driveRecPrimes (fuel + 2) f =
      naturals.Loop (Yield PrimesMap.defn fuel 0) (fun counter => (counter + 1) % uintSize)
        fuel 2 (State.mk (sieveHeap (.primeRecMap [] 0) f) ([], 2) [] []) := by
  rfl

/-- What the action of primeRecMap returns after the consumer has answered
LoopDirectiveContinue: at most one filter, whose divisor is an item found
before or the current item, followed by primeRecMap again. -/
theorem primeRecMap_next (af : List Nat) (ls c : Nat) :
    ∃ fs af1 ls1,
      (if LoopDirectiveBreak = LoopDirectiveContinue then
          (.ret (LoopDirectiveBreak, []) : Action (List Nat × Nat) Nat (LoopDirective × List PrimesMap))
        else
          if (ls * ls) % uintSize < c then
            match af ++ [c] with
            | [] => .fault .indexOutOfRange
            | _lastSent :: rest =>
              .ret (LoopDirectiveContinue, [.Filter _lastSent, .primeRecMap rest _lastSent])
          else .ret (LoopDirectiveContinue, [.primeRecMap (af ++ [c]) ls])) =
        .ret (LoopDirectiveContinue, fs ++ [.primeRecMap af1 ls1]) ∧
      (∀ m ∈ fs, ∃ d, m = PrimesMap.Filter d ∧ d ∈ af ++ [c]) ∧
      (∀ d ∈ af1, d ∈ af ++ [c]) ∧ fs.length ≤ 1 := by
  have h01 : ¬ (LoopDirectiveBreak = LoopDirectiveContinue) := by decide
  simp only [h01, if_false]
  by_cases hlt : (ls * ls) % uintSize < c
  · simp only [hlt, if_true]
    cases af with
    | nil =>
      exact ⟨[.Filter c], [], c, rfl, by simp, by simp, by simp⟩
    | cons a0 af0 =>
      refine ⟨[.Filter a0], af0 ++ [c], a0, rfl, by simp, ?_, by simp⟩
      intro d hd
      exact List.mem_cons_of_mem _ hd
  · simp only [hlt, if_false]
    exact ⟨[], af ++ [c], ls, rfl, by simp, fun d hd => hd, by simp⟩

/-- A prime passes every filter whose divisor lies between 2 and the prime. -/
theorem allPass_of_prime (chain : List (PrimesMap × Nat)) (c : Nat) (hc : c.Prime)
    (hch : ∀ mb ∈ chain, ∃ d, mb.1 = PrimesMap.Filter d ∧ 2 ≤ d ∧ d < c) :
    allPass primesPred chain c = true := by
  simp only [allPass, List.all_eq_true]
  intro mb hmb
  obtain ⟨d, hd, hd2, hdc⟩ := hch mb hmb
  rw [hd]
  simp only [primesPred, bne_iff_ne, ne_eq]
  intro hmod
  rcases (Nat.dvd_prime hc).mp (Nat.dvd_of_mod_eq_zero hmod) with h | h <;> omega

/-- One step of the run of `RecPrimes()` on an item the consumer answers with
LoopDirectiveContinue. -/
theorem RecInv_step (f : List Nat → Nat → LoopDirective) (fuel i c : Nat) (st : PState)
    (hinv : RecInv f i c st) (hf : f st.received c = LoopDirectiveContinue) :
    ∃ st1, Yield PrimesMap.defn (fuel + 2 * i + 2) 0 c st = .ok (LoopDirectiveContinue, st1) ∧
      RecInv f (i + 1) (c + 1) st1 := by
  obtain ⟨hci, chain, af, ls, b, fwd, hs, hch, haf, hprimes, hbound, hsorted, hl1, hl2, hcons⟩ :=
    hinv
  have hdef : ∀ mb ∈ chain, PrimesMap.defn mb.1 = Filter (total (primesPred mb.1)) := by
    intro mb hmb
    obtain ⟨d, hd, hdr⟩ := hch mb hmb
    rw [hd]
    exact defn_Filter d (by have := (hbound d hdr).1; omega)
  cases hx : allPass primesPred chain c with
  | false =>
    have hnp : ¬ c.Prime := by
      intro hp
      have := allPass_of_prime chain c hp (fun mb hmb => by
        obtain ⟨d, hd, hdr⟩ := hch mb hmb
        exact ⟨d, hd, hbound d hdr⟩)
      rw [hx] at this
      cases this
    have hstep := Sieve_reject PrimesMap.defn primesPred st f 0 chain _ b fwd hs hdef c hx
      (fuel + 2 * i + 2 - chain.length)
    rw [show fuel + 2 * i + 2 - chain.length + chain.length = fuel + 2 * i + 2 by omega] at hstep
    rw [hstep]
    refine ⟨_, rfl, ?_⟩
    refine ⟨by omega, chain, af, ls, b, fwd, Sieve_of_heap_eq st _ (by rfl) f 0 chain _ b fwd hs,
      hch, haf, ?_, ?_, hsorted, by omega, by omega, ?_⟩
    · intro q hq hqc
      rcases Nat.lt_or_ge q c with h | h
      · exact hprimes q hq h
      · have : q = c := by omega
        exact absurd (this ▸ hq) hnp
    · intro d hd
      have := hbound d hd
      exact ⟨this.1, by omega⟩
    · simp only [State.log_trace, State.log_received, consumed_append, consumed_chainTrace,
        hcons, List.append_nil]
  | true =>
    obtain ⟨fs, af1, ls1, hk, hfs, haf1, hfl⟩ := primeRecMap_next af ls c
    have hstep := Sieve_pass PrimesMap.defn primesPred st f 0 chain (.primeRecMap af ls) b fwd hs
      hdef c hx _ rfl _ rfl LoopDirectiveContinue (fs ++ [.primeRecMap af1 ls1])
      (by rw [hf]; exact hk) (fuel + 2 * i - fwd.length - chain.length)
    rw [show fuel + 2 * i - fwd.length - chain.length + fwd.length + 2 + chain.length =
      fuel + 2 * i + 2 by omega] at hstep
    rw [hstep]
    refine ⟨_, rfl, ?_⟩
    obtain ⟨t1, t2, t3, t4⟩ := Sieve_splice
      (State.mk st.heap st.vars (st.received ++ [c])
        (st.trace ++ (chainTrace primesPred 0 chain c ++
          ([.yield (chainEnd 0 chain) c, .enter (.primeRecMap af ls) c] ++ fwdTrace b fwd c))))
      f 0 chain (.primeRecMap af ls) b fwd (Sieve_of_heap_eq st _ (by rfl) f 0 chain _ b fwd hs)
      fs (.primeRecMap af1 ls1)
    have hmemaf : ∀ d ∈ af ++ [c], d ∈ st.received ++ [c] := by
      intro d hd
      rcases List.mem_append.mp hd with h | h
      · exact List.mem_append_left _ (haf d h)
      · exact List.mem_append_right _ h
    refine ⟨by omega, _, af1, ls1, _, _, t1, ?_, ?_, ?_, ?_, ?_, ?_, ?_, ?_⟩
    · intro mb hmb
      rw [t3]
      rcases List.mem_append.mp hmb with h | h
      · obtain ⟨d, hd, hdr⟩ := hch mb h
        exact ⟨d, hd, List.mem_append_left _ hdr⟩
      · obtain ⟨d, hd, hdm⟩ := hfs mb.1 (mem_chainOf fs _ mb h)
        exact ⟨d, hd, hmemaf d hdm⟩
    · intro d hd
      rw [t3]
      exact hmemaf d (haf1 d hd)
    · intro q hq hqc
      rw [t3]
      rcases Nat.lt_or_ge q c with h | h
      · exact List.mem_append_left _ (hprimes q hq h)
      · have : q = c := by omega
        subst this
        simp
    · intro d hd
      rw [t3] at hd
      rcases List.mem_append.mp hd with h | h
      · have := hbound d h
        exact ⟨this.1, by omega⟩
      · simp only [List.mem_singleton] at h
        subst h
        omega
    · rw [t3, List.pairwise_append]
      refine ⟨hsorted, by simp, ?_⟩
      intro a ha x hx2
      simp only [List.mem_singleton] at hx2
      subst hx2
      exact (hbound a ha).2
    · simp [chainOf_length]; omega
    · simp; omega
    · rw [t3, t4]
      simp only [consumed_append, hcons, consumed_chainTrace, consumed_fwdTrace]
      simp [consumed]

/-- The step of the run of `RecPrimes()` on a prime the consumer answers with
LoopDirectiveBreak. -/
theorem RecInv_last (f : List Nat → Nat → LoopDirective) (fuel i c : Nat) (st : PState)
    (hinv : RecInv f i c st) (hc : c.Prime) (hf : f st.received c = LoopDirectiveBreak) :
    ∃ st1, Yield PrimesMap.defn (fuel + 2 * i + 2) 0 c st = .ok (LoopDirectiveBreak, st1) ∧
      st1.received = st.received ++ [c] ∧ consumed st1.trace = st1.received := by
  obtain ⟨hci, chain, af, ls, b, fwd, hs, hch, haf, hprimes, hbound, hsorted, hl1, hl2, hcons⟩ :=
    hinv
  have hdef : ∀ mb ∈ chain, PrimesMap.defn mb.1 = Filter (total (primesPred mb.1)) := by
    intro mb hmb
    obtain ⟨d, hd, hdr⟩ := hch mb hmb
    rw [hd]
    exact defn_Filter d (by have := (hbound d hdr).1; omega)
  have hx := allPass_of_prime chain c hc (fun mb hmb => by
    obtain ⟨d, hd, hdr⟩ := hch mb hmb
    exact ⟨d, hd, hbound d hdr⟩)
  have hstep := Sieve_pass PrimesMap.defn primesPred st f 0 chain (.primeRecMap af ls) b fwd hs
    hdef c hx _ rfl _ rfl LoopDirectiveBreak []
    (by rw [hf]; rfl) (fuel + 2 * i - fwd.length - chain.length)
  rw [show fuel + 2 * i - fwd.length - chain.length + fwd.length + 2 + chain.length =
    fuel + 2 * i + 2 by omega] at hstep
  rw [hstep]
  refine ⟨_, rfl, ?_, ?_⟩
  · simp [splice, applyMaps]
  · simp only [splice, applyMaps, State.setYield_trace, State.setYield_received,
      consumed_append, hcons, consumed_chainTrace, consumed_fwdTrace]
    simp [consumed]

end RecSieve

/-! ## Further facts about the sources -/

section SourceLemmas

variable {σ M T : Type}

theorem sourced_never_break (keep : T → Bool) (f : List T → T → LoopDirective)
    (hf : ∀ hist x, f hist x ≠ LoopDirectiveBreak) (hist s : List T) :
    sourced keep f hist s = s := by
  induction s generalizing hist with
  | nil => rfl
  | cons x xs ih =>
    have h : ¬ (LoopDirectiveBreak = f hist x) := fun h => hf hist x h.symm
    by_cases hk : keep x = true
    · simp [sourced, hk, h, ih]
    · simp [sourced, hk, ih]

theorem driveNaturals_eq (defn : M → mapGenerator σ M Nat) (vars : σ) (fuel start : Nat)
    (f : List Nat → Nat → LoopDirective) :
    driveNaturals defn vars (fuel + 1) start f =
      naturals.Loop (Yield defn fuel 0) (fun counter => (counter + 1) % uintSize) fuel start
        (State.mk (naturalsHeap start f) vars [] []) := by
  rfl

/-- With a consumer that never answers LoopDirectiveBreak the loop of `naturals`
uses up any number of iterations. -/
theorem naturals_loop_never_returns (defn : M → mapGenerator σ M Nat) (start : Nat)
    (f : List Nat → Nat → LoopDirective) (hf : ∀ hist x, f hist x ≠ LoopDirectiveBreak)
    (depth : Nat) :
    ∀ (n c : Nat) (st : State σ M Nat), st.heap = naturalsHeap start f →
      naturals.Loop (Yield defn depth 0) (fun counter => (counter + 1) % uintSize) n c st =
        .error .outOfFuel := by
  intro n
  induction n with
  | zero => intro c st _; rfl
  | succ n ih =>
    intro c st hh
    have hslot : st.slot 0 = some (.consumer f) := by
      simp [State.slot, hh, naturalsHeap]
    cases depth with
    | zero => simp [naturals.Loop, Yield, yieldWith, hslot, invoke]
    | succ depth =>
      rw [naturals.Loop, Yield_consumer defn depth 0 c f st hslot]
      have h : ¬ (LoopDirectiveBreak = f st.received c) := fun h => hf _ _ h.symm
      simp only [h, if_false]
      exact ih _ _ hh

end SourceLemmas

/-! ## Closures are never installed twice -/

section ClosuresAreNeverInstalledTwice

variable {σ M T : Type}

theorem slot_setYield_cases (st : State σ M T) (g i : Nat) (c c1 : Continuation M T)
    (h : (st.setYield g c).slot i = some c1) : (i = g ∧ c1 = c) ∨ st.slot i = some c1 := by
  by_cases hi : i = g
  · subst hi
    by_cases hg : i < st.heap.length
    · rw [State.slot_setYield_self st i c hg] at h
      exact Or.inl ⟨rfl, (Option.some.inj h).symm⟩
    · right
      have hnone : st.heap[i]? = none := List.getElem?_eq_none (by omega)
      simpa [State.setYield, hnone] using h
  · right
    rwa [State.slot_setYield_ne st g i c hi] at h

theorem slot_alloc_cases (st : State σ M T) (k : Kind T) (i : Nat) (c1 : Continuation M T)
    (h : (st.alloc k).2.slot i = some c1) : st.slot i = some c1 := by
  rcases Nat.lt_trichotomy i st.heap.length with hi | hi | hi
  · rwa [State.slot_alloc_lt st k i hi] at h
  · subst hi
    rw [State.slot_alloc_new] at h
    cases h
  · have : (st.alloc k).2.heap[i]? = none :=
      List.getElem?_eq_none (by simp [State.alloc]; omega)
    simp [State.slot, this] at h

/-- Apply installs closures with a fresh output generator only. -/
theorem applyMaps_no_reinstall (ms : List M) (a : Nat) (st : State σ M T) (m : M)
    (g out : Nat) (hout : out < st.heap.length) (i : Nat)
    (h : (applyMaps ms a st).2.slot i = some (.action m g out)) :
    st.slot i = some (.action m g out) := by
  induction ms generalizing a st with
  | nil => exact h
  | cons m1 ms ih =>
    have hstep : applyMaps (m1 :: ms) a st =
        applyMaps ms st.heap.length (mapGenerator.Apply m1 a st).2 := rfl
    rw [hstep] at h
    have hlen : (mapGenerator.Apply m1 a st).2.heap.length = st.heap.length + 1 := by
      simp [mapGenerator.Apply, State.alloc]
    have h1 := ih st.heap.length (mapGenerator.Apply m1 a st).2 (by rw [hlen]; omega) h
    simp only [mapGenerator.Apply] at h1
    rcases slot_setYield_cases _ _ _ _ _ h1 with ⟨-, hc⟩ | h2
    · simp only [Continuation.action.injEq] at hc
      have h3 : (st.alloc (Kind.sGenerator a)).1 = st.heap.length := rfl
      omega
    · exact slot_alloc_cases st _ i _ h2

theorem Action.run_no_reinstall {α : Type} (y : T → State σ M T → Call σ M T)
    (m : M) (g out : Nat)
    (hy : ∀ x st d st1, y x st = .ok (d, st1) → out < st.heap.length →
      out < st1.heap.length ∧
        ∀ i, st1.slot i = some (.action m g out) → st.slot i = some (.action m g out))
    (act : Action σ T α) (st st1 : State σ M T) (a : α) (hout : out < st.heap.length)
    (h : act.run y st = .ok (a, st1)) :
    out < st1.heap.length ∧
      ∀ i, st1.slot i = some (.action m g out) → st.slot i = some (.action m g out) := by
  induction act generalizing st with
  | ret a0 =>
    simp only [Action.run, Except.ok.injEq, Prod.mk.injEq] at h
    rw [← h.2]
    exact ⟨hout, fun _ hi => hi⟩
  | fault e => simp [Action.run] at h
  | yield x k ih =>
    simp only [Action.run] at h
    cases hyx : y x st with
    | error e => simp [hyx] at h
    | ok r =>
      obtain ⟨d, st2⟩ := r
      simp only [hyx] at h
      obtain ⟨h1, h2⟩ := hy x st d st2 hyx hout
      obtain ⟨h3, h4⟩ := ih d st2 h1 h
      exact ⟨h3, fun i hi => h2 i (h4 i hi)⟩
  | get k ih =>
    simp only [Action.run] at h
    exact ih _ st hout h
  | set s k ih =>
    simp only [Action.run] at h
    have := ih _ (by exact hout) h
    exact this

/-- No call installs a closure whose output generator already exists: the slots
that hold such a closure after a call held it before. -/
theorem invoke_no_reinstall (defn : M → mapGenerator σ M T) (m : M) (g out : Nat)
    (fuel : Nat) :
    ∀ (c : Continuation M T) (x : T) (st : State σ M T) (d : LoopDirective)
      (st1 : State σ M T), out < st.heap.length →
      invoke defn fuel c x st = .ok (d, st1) →
      out < st1.heap.length ∧
        ∀ i, st1.slot i = some (.action m g out) → st.slot i = some (.action m g out) := by
  induction fuel with
  | zero => intro c x st d st1 _ h; simp [invoke] at h
  | succ fuel ih =>
    have hy : ∀ b x (st : State σ M T) d st1,
        yieldWith (invoke defn fuel) b x st = .ok (d, st1) → out < st.heap.length →
        out < st1.heap.length ∧
          ∀ i, st1.slot i = some (.action m g out) → st.slot i = some (.action m g out) := by
      intro b x st d st1 h hout
      simp only [yieldWith] at h
      split at h
      · simp at h
      · have := ih _ _ _ _ _ (by exact hout) h
        exact this
    intro c x st d st1 hout h
    cases c with
    | consumer f =>
      simp only [invoke, Except.ok.injEq, Prod.mk.injEq] at h
      rw [← h.2]
      exact ⟨hout, fun _ hi => hi⟩
    | method b => exact hy b x st d st1 h hout
    | action m1 a b =>
      simp only [invoke] at h
      split at h
      · have := Action.run_no_reinstall _ m g out (hy b) _ _ _ _ (by exact hout) h
        exact this
      · split at h
        · simp at h
        · rename_i act _ r ms st2 hrun
          simp only [Except.ok.injEq, Prod.mk.injEq] at h
          obtain ⟨h1, h2⟩ := Action.run_no_reinstall _ m g out (hy b) _ _ _ _ (by exact hout) hrun
          rw [← h.2]
          refine ⟨by rw [State.setYield_length, applyMaps_length]; omega, ?_⟩
          intro i hi
          rcases slot_setYield_cases _ _ _ _ _ hi with ⟨-, hc⟩ | h3
          · cases hc
          · exact h2 i (applyMaps_no_reinstall ms a st2 m g out h1 i h3)

theorem Yield_no_reinstall (defn : M → mapGenerator σ M T) (m : M) (g out : Nat)
    (fuel b : Nat) (x : T) (st st1 : State σ M T) (d : LoopDirective)
    (h : yieldWith (invoke defn fuel) b x st = .ok (d, st1)) (hout : out < st.heap.length) :
    out < st1.heap.length ∧
      ∀ i, st1.slot i = some (.action m g out) → st.slot i = some (.action m g out) := by
  simp only [yieldWith] at h
  split at h
  · simp at h
  · have := invoke_no_reinstall defn m g out fuel _ _ _ _ _ (by exact hout) h
    exact this

theorem enteredIn_eq_some (r : Except Err (State σ M T)) (l : List M)
    (h : enteredIn r = some l) : ∃ st, r = .ok st ∧ entered st.trace = l := by
  cases r with
  | error e => simp [enteredIn] at h
  | ok st =>
    simp only [enteredIn, Option.some.injEq] at h
    exact ⟨st, rfl, h⟩

end ClosuresAreNeverInstalledTwice

/-! ## Runs with an arbitrary consumer -/

section RunsWithAnArbitraryConsumer

variable {σ M T : Type}

theorem Action.run_mono {α : Type} (y1 y2 : T → State σ M T → Call σ M T)
    (hy : ∀ x st r, y1 x st = r → r ≠ .error .outOfFuel → y2 x st = r)
    (act : Action σ T α) (st : State σ M T) (r : Except Err (α × State σ M T))
    (h : act.run y1 st = r) (hr : r ≠ .error .outOfFuel) : act.run y2 st = r := by
  induction act generalizing st with
  | ret a0 => exact h
  | fault e => exact h
  | yield x k ih =>
    simp only [Action.run] at h ⊢
    cases hyx : y1 x st with
    | error e =>
      rw [hyx] at h
      have he : (Except.error e : Call σ M T) ≠ .error .outOfFuel := by
        intro he
        apply hr
        rw [← h]
        simp only [Except.error.injEq] at he
        rw [he]
      rw [hy x st _ hyx he]
      exact h
    | ok p =>
      obtain ⟨d, st2⟩ := p
      rw [hyx] at h
      rw [hy x st _ hyx (by simp)]
      exact ih d st2 h
  | get k ih =>
    simp only [Action.run] at h ⊢
    exact ih _ st h
  | set s k ih =>
    simp only [Action.run] at h ⊢
    exact ih _ h

/-- More fuel does not change a result other than "out of fuel". -/
theorem invoke_mono (defn : M → mapGenerator σ M T) (fuel : Nat) :
    ∀ (c : Continuation M T) (x : T) (st : State σ M T) (r : Call σ M T),
      invoke defn fuel c x st = r → r ≠ .error .outOfFuel →
      invoke defn (fuel + 1) c x st = r := by
  induction fuel with
  | zero =>
    intro c x st r h hr
    simp only [invoke] at h
    exact absurd h.symm hr
  | succ fuel ih =>
    have hy : ∀ b x (st : State σ M T) (r : Call σ M T),
        yieldWith (invoke defn fuel) b x st = r → r ≠ .error .outOfFuel →
        yieldWith (invoke defn (fuel + 1)) b x st = r := by
      intro b x st r h hr
      simp only [yieldWith] at h ⊢
      split
      · rename_i hs
        simpa [hs] using h
      · rename_i c hs
        simp only [hs] at h
        exact ih _ _ _ _ h hr
    intro c x st r h hr
    cases c with
    | consumer f => exact h
    | method b => exact hy b x st r h hr
    | action m a b =>
      simp only [invoke] at h ⊢
      split
      · rename_i act hd
        simp only [hd] at h
        exact Action.run_mono _ _ (hy b) _ _ _ h hr
      · rename_i act hd
        simp only [hd] at h
        cases hrun : (act x).run (yieldWith (invoke defn fuel) b) (st.emit (.enter m x)) with
        | error e =>
          rw [hrun] at h
          have he : (Except.error e :
              Except Err ((LoopDirective × List M) × State σ M T)) ≠ .error .outOfFuel := by
            intro he
            apply hr
            rw [← h]
            simp only [Except.error.injEq] at he
            rw [he]
          rw [Action.run_mono _ _ (hy b) _ _ _ hrun he]
          exact h
        | ok p =>
          rw [hrun] at h
          rw [Action.run_mono _ _ (hy b) _ _ _ hrun (by simp)]
          exact h

theorem invoke_mono_add (defn : M → mapGenerator σ M T) (fuel k : Nat)
    (c : Continuation M T) (x : T) (st : State σ M T) (r : Call σ M T)
    (h : invoke defn fuel c x st = r) (hr : r ≠ .error .outOfFuel) :
    invoke defn (fuel + k) c x st = r := by
  induction k with
  | zero => exact h
  | succ k ih => exact invoke_mono defn (fuel + k) c x st r ih hr

/-- With less fuel a call either gives the same result or runs out of fuel. -/
theorem Yield_less_fuel (defn : M → mapGenerator σ M T) (fuel k g : Nat) (x : T)
    (st : State σ M T) (R : LoopDirective × State σ M T)
    (h : Yield defn (fuel + k) g x st = .ok R) :
    Yield defn fuel g x st = .ok R ∨ Yield defn fuel g x st = .error .outOfFuel := by
  simp only [Yield, yieldWith] at h ⊢
  split
  · rename_i hs
    simp [hs] at h
  · rename_i c hs
    simp only [hs] at h
    by_cases hr : invoke defn fuel c x (st.emit (.yield g x)) = .error .outOfFuel
    · exact Or.inr hr
    · left
      rw [← h]
      exact (invoke_mono_add defn fuel k c x _ _ rfl hr).symm

/-- The loop of `naturals` under an invariant, for an arbitrary consumer and an
arbitrary number of iterations: it runs out of fuel or returns in a state that
satisfies `Good`. -/
theorem naturals_loop_safe (y : T → State σ M T → Call σ M T) (incr : T → T)
    (Inv : Nat → T → State σ M T → Prop) (Good : State σ M T → Prop) (N : Nat)
    (hstep : ∀ i c st, i < N → Inv i c st →
      y c st = .error .outOfFuel ∨
      ∃ d st1, y c st = .ok (d, st1) ∧ (LoopDirectiveBreak = d → Good st1) ∧
        (LoopDirectiveBreak ≠ d → Inv (i + 1) (incr c) st1)) :
    ∀ n i c st, i + n ≤ N → Inv i c st →
      naturals.Loop y incr n c st = .error .outOfFuel ∨
      ∃ st1, naturals.Loop y incr n c st = .ok st1 ∧ Good st1 := by
  intro n
  induction n with
  | zero => intro i c st _ _; exact Or.inl rfl
  | succ n ih =>
    intro i c st hi hinv
    rcases hstep i c st (by omega) hinv with h | ⟨d, st1, h1, h2, h3⟩
    · left; simp [naturals.Loop, h]
    · by_cases hd : LoopDirectiveBreak = d
      · right
        exact ⟨st1, by simp [naturals.Loop, h1, hd], h2 hd⟩
      · have := ih (i + 1) (incr c) st1 (by omega) (h3 hd)
        simpa [naturals.Loop, h1, hd] using this

/-- The inner loop of primeIterMap does not panic when no entry of
`alreadyFound` is zero. -/
theorem primeIterMap_loop_ok (af : List Nat) (l x : Nat) (hpos : ∀ p ∈ af, p ≠ 0) :
    ∀ n j, ∃ b, primeIterMap.loop af l x n j = .ok b := by
  intro n
  induction n with
  | zero => intro j; exact ⟨true, rfl⟩
  | succ n ih =>
    intro j
    simp only [primeIterMap.loop]
    by_cases hjl : j < af.length
    · have hget : af[j]? = some af[j] := List.getElem?_eq_getElem hjl
      have hmem : af[j] ∈ af := List.getElem_mem hjl
      simp only [hjl, if_true, hget]
      by_cases h1 : af[j] > l
      · exact ⟨true, by simp [h1]⟩
      · simp only [h1, if_false, hpos _ hmem]
        by_cases h2 : x % af[j] = 0
        · exact ⟨false, by simp [h2]⟩
        · obtain ⟨b, hb⟩ := ih (j + 1)
          exact ⟨b, by simp [h2, hb]⟩
    · exact ⟨true, by simp [hjl]⟩

/-- One step of a run of `Primes()` with an arbitrary consumer. -/
theorem PrimesSafe_step (f : List Nat → Nat → LoopDirective) (fuel i c : Nat) (st : PState)
    (hinv : PrimesSafe f i c st) :
    ∃ d st1, Yield PrimesMap.defn (fuel + 2) 0 c st = .ok (d, st1) ∧
      (∀ e ∈ st1.vars.1, 2 ≤ e) ∧ PrimesSafe f (i + 1) (c + 1) st1 := by
  obtain ⟨hci, hheap, haf⟩ := hinv
  obtain ⟨b, hb⟩ := primeIterMap_loop_ok st.vars.1
    (if c > (st.vars.2 * st.vars.2) % uintSize then (st.vars.2 + 1) % uintSize else st.vars.2)
    c (fun p hp => by have := haf p hp; omega) st.vars.1.length 0
  have hs0 : st.slot 0 = some (.action .primeIterMap 0 1) := by
    simp [State.slot, hheap, primesHeap]
  have hs1 : st.slot 1 = some (.consumer f) := by
    simp [State.slot, hheap, primesHeap]
  have hstep := Yield_primeIterMap fuel c st f b hs0 hs1 hb
  have hnew : ∀ e ∈ (if b = true then st.vars.1 ++ [c] else st.vars.1), 2 ≤ e := by
    intro e he
    split at he
    · rcases List.mem_append.mp he with h | h
      · exact haf e h
      · simp only [List.mem_singleton] at h; omega
    · exact haf e he
  exact ⟨_, _, hstep, hnew, by omega, hheap, hnew⟩

/-- The closures found in the heap after `Apply` has run over `ms` were there
before or belong to a map of `ms`. -/
theorem applyMaps_action_cases (ms : List M) (a : Nat) (st : State σ M T) (m : M)
    (g out i : Nat) (h : (applyMaps ms a st).2.slot i = some (.action m g out)) :
    st.slot i = some (.action m g out) ∨ m ∈ ms := by
  induction ms generalizing a st with
  | nil => exact Or.inl h
  | cons m1 ms ih =>
    have hstep : applyMaps (m1 :: ms) a st =
        applyMaps ms st.heap.length (mapGenerator.Apply m1 a st).2 := rfl
    rw [hstep] at h
    rcases ih st.heap.length (mapGenerator.Apply m1 a st).2 h with h1 | h1
    · simp only [mapGenerator.Apply] at h1
      rcases slot_setYield_cases _ _ _ _ _ h1 with ⟨-, hc⟩ | h2
      · simp only [Continuation.action.injEq] at hc
        right
        rw [hc.1]
        exact List.mem_cons_self _ _
      · exact Or.inl (slot_alloc_cases st _ i _ h2)
    · exact Or.inr (List.mem_cons_of_mem _ h1)

theorem splice_action_cases (ms : List M) (a b : Nat) (st : State σ M T) (m : M)
    (g out i : Nat) (h : (splice ms a b st).slot i = some (.action m g out)) :
    st.slot i = some (.action m g out) ∨ m ∈ ms := by
  simp only [splice] at h
  rcases slot_setYield_cases _ _ _ _ _ h with ⟨-, hc⟩ | h2
  · cases hc
  · exact applyMaps_action_cases ms a st m g out i h2

/-- What the action of primeRecMap returns after the consumer has answered with
a directive other than LoopDirectiveBreak: at most one filter, whose divisor is
an item found before or the current item, followed by primeRecMap again. -/
theorem primeRecMap_next_of_ne (af : List Nat) (ls c : Nat) (d : LoopDirective)
    (hd : ¬ LoopDirectiveBreak = d) :
    ∃ fs af1 ls1,
      (if LoopDirectiveBreak = d then
          (.ret (LoopDirectiveBreak, []) : Action (List Nat × Nat) Nat (LoopDirective × List PrimesMap))
        else
          if (ls * ls) % uintSize < c then
            match af ++ [c] with
            | [] => .fault .indexOutOfRange
            | _lastSent :: rest =>
              .ret (LoopDirectiveContinue, [.Filter _lastSent, .primeRecMap rest _lastSent])
          else .ret (LoopDirectiveContinue, [.primeRecMap (af ++ [c]) ls])) =
        .ret (LoopDirectiveContinue, fs ++ [.primeRecMap af1 ls1]) ∧
      (∀ m ∈ fs, ∃ d, m = PrimesMap.Filter d ∧ d ∈ af ++ [c]) ∧
      (∀ d ∈ af1, d ∈ af ++ [c]) ∧ fs.length ≤ 1 := by
  simp only [hd, if_false]
  by_cases hlt : (ls * ls) % uintSize < c
  · simp only [hlt, if_true]
    cases af with
    | nil =>
      exact ⟨[.Filter c], [], c, rfl, by simp, by simp, by simp⟩
    | cons a0 af0 =>
      refine ⟨[.Filter a0], af0 ++ [c], a0, rfl, by simp, ?_, by simp⟩
      intro d hd
      exact List.mem_cons_of_mem _ hd
  · simp only [hlt, if_false]
    exact ⟨[], af ++ [c], ls, rfl, by simp, fun d hd => hd, by simp⟩

/-- One step of a run of `RecPrimes()` with an arbitrary consumer. -/
theorem RecSafe_step (f : List Nat → Nat → LoopDirective) (fuel i c : Nat) (st : PState)
    (hinv : RecSafe f i c st) :
    ∃ d st1, Yield PrimesMap.defn (fuel + (2 * i + 2)) 0 c st = .ok (d, st1) ∧
      SafeHeap st1 ∧ (LoopDirectiveBreak ≠ d → RecSafe f (i + 1) (c + 1) st1) := by
  obtain ⟨hci, hheap, chain, af, ls, b, fwd, hs, hch, haf, hl1, hl2⟩ := hinv
  have hdef : ∀ mb ∈ chain, PrimesMap.defn mb.1 = Filter (total (primesPred mb.1)) := by
    intro mb hmb
    obtain ⟨d, hd, hd2⟩ := hch mb hmb
    rw [hd]
    exact defn_Filter d (by omega)
  cases hx : allPass primesPred chain c with
  | false =>
    have hstep := Sieve_reject PrimesMap.defn primesPred st f 0 chain _ b fwd hs hdef c hx
      (fuel + 2 * i + 2 - chain.length)
    rw [show fuel + 2 * i + 2 - chain.length + chain.length = fuel + (2 * i + 2) by omega] at hstep
    rw [hstep]
    have hheap1 : SafeHeap (st.log (chainTrace primesPred 0 chain c)) := by
      intro j m g out hj
      exact hheap j m g out hj
    refine ⟨_, _, rfl, hheap1, fun _ => ?_⟩
    exact ⟨by omega, hheap1, chain, af, ls, b, fwd,
      Sieve_of_heap_eq st _ (by rfl) f 0 chain _ b fwd hs, hch, haf, by omega, by omega⟩
  | true =>
    have hmemaf : ∀ d ∈ af ++ [c], 2 ≤ d := by
      intro d hd
      rcases List.mem_append.mp hd with h | h
      · exact haf d h
      · simp only [List.mem_singleton] at h; omega
    by_cases hb : LoopDirectiveBreak = f st.received c
    · have hstep := Sieve_pass PrimesMap.defn primesPred st f 0 chain (.primeRecMap af ls) b fwd
        hs hdef c hx _ rfl _ rfl LoopDirectiveBreak []
        (by rw [if_pos hb]) (fuel + 2 * i - fwd.length - chain.length)
      rw [show fuel + 2 * i - fwd.length - chain.length + fwd.length + 2 + chain.length =
        fuel + (2 * i + 2) by omega] at hstep
      rw [hstep]
      refine ⟨_, _, rfl, ?_, fun h => absurd rfl h⟩
      intro j m g out hj
      rcases splice_action_cases _ _ _ _ m g out j hj with h | h
      · exact hheap j m g out h
      · cases h
    · obtain ⟨fs, af1, ls1, hk, hfs, haf1, hfl⟩ :=
        primeRecMap_next_of_ne af ls c (f st.received c) hb
      have hstep := Sieve_pass PrimesMap.defn primesPred st f 0 chain (.primeRecMap af ls) b fwd
        hs hdef c hx _ rfl _ rfl LoopDirectiveContinue (fs ++ [.primeRecMap af1 ls1])
        (by exact hk) (fuel + 2 * i - fwd.length - chain.length)
      rw [show fuel + 2 * i - fwd.length - chain.length + fwd.length + 2 + chain.length =
        fuel + (2 * i + 2) by omega] at hstep
      rw [hstep]
      obtain ⟨t1, t2, t3, t4⟩ := Sieve_splice
        (State.mk st.heap st.vars (st.received ++ [c])
          (st.trace ++ (chainTrace primesPred 0 chain c ++
            ([.yield (chainEnd 0 chain) c, .enter (.primeRecMap af ls) c] ++ fwdTrace b fwd c))))
        f 0 chain (.primeRecMap af ls) b fwd (Sieve_of_heap_eq st _ (by rfl) f 0 chain _ b fwd hs)
        fs (.primeRecMap af1 ls1)
      have hheap1 : SafeHeap (splice (fs ++ [.primeRecMap af1 ls1]) (chainEnd 0 chain) b
          (State.mk st.heap st.vars (st.received ++ [c])
            (st.trace ++ (chainTrace primesPred 0 chain c ++
              ([.yield (chainEnd 0 chain) c, .enter (.primeRecMap af ls) c] ++
                fwdTrace b fwd c))))) := by
        intro j m g out hj
        rcases splice_action_cases _ _ _ _ m g out j hj with h | h
        · exact hheap j m g out h
        · rcases List.mem_append.mp h with h1 | h1
          · obtain ⟨d, hd, hdm⟩ := hfs m h1
            rw [hd]
            exact hmemaf d hdm
          · simp only [List.mem_singleton] at h1
            rw [h1]
            intro d hd
            exact hmemaf d (haf1 d hd)
      refine ⟨_, _, rfl, hheap1, fun _ => ?_⟩
      refine ⟨by omega, hheap1, _, af1, ls1, _, _, t1, ?_, ?_, ?_, ?_⟩
      · intro mb hmb
        rcases List.mem_append.mp hmb with h | h
        · exact hch mb h
        · obtain ⟨d, hd, hdm⟩ := hfs mb.1 (mem_chainOf fs _ mb h)
          exact ⟨d, hd, hmemaf d hdm⟩
      · intro d hd
        exact hmemaf d (haf1 d hd)
      · simp [chainOf_length]; omega
      · simp; omega

theorem drivePrimes_safe (f : List Nat → Nat → LoopDirective) (fuel : Nat)
    (hfuel : fuel < uintSize) :
    drivePrimes fuel f = .error .outOfFuel ∨
      ∃ st, drivePrimes fuel f = .ok st ∧ ∀ d ∈ st.vars.1, 2 ≤ d := by
  rcases Nat.lt_or_ge fuel 2 with h2 | h2
  · left
    interval_cases fuel <;> rfl
  · obtain ⟨F, rfl⟩ : ∃ F, fuel = F + 2 := ⟨fuel - 2, by omega⟩
    rw [drivePrimes_eq]
    refine naturals_loop_safe _ _ (PrimesSafe f) (fun st => ∀ d ∈ st.vars.1, 2 ≤ d) F ?_
      F 0 2 _ (by omega) ⟨rfl, rfl, by simp⟩
    intro i c st hi hinv
    obtain ⟨d, st1, h1, h2, h3⟩ := PrimesSafe_step f F i c st hinv
    rcases Yield_less_fuel PrimesMap.defn F 2 0 c st _ h1 with h | h
    · right
      refine ⟨d, st1, h, fun _ => h2, fun _ => ?_⟩
      have hc : c = i + 2 := hinv.1
      have : (c + 1) % uintSize = c + 1 := Nat.mod_eq_of_lt (by omega)
      simp only [this]
      exact h3
    · exact Or.inl h

theorem driveRecPrimes_safe (f : List Nat → Nat → LoopDirective) (fuel : Nat)
    (hfuel : fuel < uintSize) :
    driveRecPrimes fuel f = .error .outOfFuel ∨
      ∃ st, driveRecPrimes fuel f = .ok st ∧ SafeHeap st := by
  rcases Nat.lt_or_ge fuel 2 with h2 | h2
  · left
    interval_cases fuel <;> rfl
  · obtain ⟨F, rfl⟩ : ∃ F, fuel = F + 2 := ⟨fuel - 2, by omega⟩
    rw [driveRecPrimes_eq]
    refine naturals_loop_safe _ _ (RecSafe f) SafeHeap F ?_
      F 0 2 _ (by omega) ⟨rfl, ?_, [], [], 0, 1, [], Sieve_init _ f _, by simp, by simp,
        by simp, by simp⟩
    · intro i c st hi hinv
      obtain ⟨d, st1, h1, h2, h3⟩ := RecSafe_step f F i c st hinv
      rcases Yield_less_fuel PrimesMap.defn F (2 * i + 2) 0 c st _ h1 with h | h
      · right
        refine ⟨d, st1, h, fun _ => h2, fun hd => ?_⟩
        have hc : c = i + 2 := hinv.1
        have : (c + 1) % uintSize = c + 1 := Nat.mod_eq_of_lt (by omega)
        simp only [this]
        exact h3 hd
      · exact Or.inl h
    · intro j m g out hj
      match j, hj with
      | 0, hj =>
        simp only [State.slot, sieveHeap, List.getElem?_cons_zero, Option.bind_some,
          Option.some.injEq, Continuation.action.injEq] at hj
        rw [← hj.1]
        intro d hd
        cases hd
      | 1, hj => simp [State.slot, sieveHeap] at hj
      | j + 2, hj => simp [State.slot, sieveHeap] at hj

end RunsWithAnArbitraryConsumer

/-! ## The recursive sieve under the hypothesis on prime gaps -/

section TheRecursiveSieveUnderTheHypothesisOnPrimeGaps

variable {σ M T : Type}

theorem nth_prime_lt_iff (a b : Nat) : Nat.nth Nat.Prime a < Nat.nth Nat.Prime b ↔ a < b :=
  (Nat.nth_strictMono Nat.infinite_setOf_prime).lt_iff_lt

theorem nth_prime_zero : Nat.nth Nat.Prime 0 = 2 := by
  have h : Nat.count Nat.Prime 2 = 0 := by decide
  have := Nat.nth_count (p := Nat.Prime) (n := 2) (by norm_num)
  rwa [h] at this

theorem nth_prime_one : Nat.nth Nat.Prime 1 = 3 := by
  have h : Nat.count Nat.Prime 3 = 1 := by decide
  have := Nat.nth_count (p := Nat.Prime) (n := 3) (by norm_num)
  rwa [h] at this

/-- A prime above the `j`-th prime is at least the next prime. -/
theorem nth_prime_succ_le (j q : Nat) (hq : q.Prime) (h : Nat.nth Nat.Prime j < q) :
    Nat.nth Nat.Prime (j + 1) ≤ q := by
  have h1 : j < Nat.count Nat.Prime q :=
    (Nat.lt_nth_iff_count_lt Nat.infinite_setOf_prime).mpr h
  have h2 := Nat.nth_monotone (p := Nat.Prime) Nat.infinite_setOf_prime
    (show j + 1 ≤ Nat.count Nat.Prime q from h1)
  rwa [Nat.nth_count hq] at h2

/-- Bertrand's postulate for consecutive primes. -/
theorem nth_prime_succ_le_two_mul (j : Nat) :
    Nat.nth Nat.Prime (j + 1) ≤ 2 * Nat.nth Nat.Prime j := by
  obtain ⟨q, hq, h1, h2⟩ := Nat.exists_prime_lt_and_le_two_mul (Nat.nth Nat.Prime j)
    (Nat.prime_nth_prime j).pos.ne'
  exact le_trans (nth_prime_succ_le j q hq h1) h2

/-- A composite number below the square of the `j`-th prime is a multiple of one
of the primes before the `j`-th. -/
theorem composite_below_square (c j : Nat) (hc : 2 ≤ c) (hnp : ¬ c.Prime)
    (hlt : c < Nat.nth Nat.Prime j * Nat.nth Nat.Prime j) :
    ∃ t, t < j ∧ c % Nat.nth Nat.Prime t = 0 := by
  have hq : (Nat.minFac c).Prime := Nat.minFac_prime (by omega)
  have hsq : Nat.minFac c * Nat.minFac c ≤ c := by
    have := Nat.minFac_sq_le_self (by omega : 0 < c) hnp
    rwa [sq] at this
  have hlt2 : Nat.minFac c < Nat.nth Nat.Prime j := by
    by_contra hge
    have hge : Nat.nth Nat.Prime j ≤ Nat.minFac c := Nat.le_of_not_lt hge
    have := Nat.mul_le_mul hge hge
    omega
  refine ⟨Nat.count Nat.Prime (Nat.minFac c), ?_, ?_⟩
  · exact (nth_prime_lt_iff _ _).mp (by rw [Nat.nth_count hq]; exact hlt2)
  · rw [Nat.nth_count hq]
    exact Nat.mod_eq_zero_of_dvd (Nat.minFac_dvd c)

theorem firstPrimes_drop (n j : Nat) (hj : j < n) :
    ((List.range n).map (Nat.nth Nat.Prime)).drop j =
      Nat.nth Nat.Prime j :: ((List.range n).map (Nat.nth Nat.Prime)).drop (j + 1) := by
  rw [List.drop_eq_getElem_cons (by simpa using hj)]
  simp

/-- The action of primeRecMap when the item exceeds the square of `lastSent`:
the filter of the first entry of `_alreadyFound` is spliced. -/
theorem primeRecMap_splice (af : List Nat) (ls c a : Nat) (rest : List Nat)
    (hlt : (ls * ls) % uintSize < c) (h : af ++ [c] = a :: rest) :
    (if LoopDirectiveBreak = LoopDirectiveContinue then
        (.ret (LoopDirectiveBreak, []) : Action (List Nat × Nat) Nat (LoopDirective × List PrimesMap))
      else
        if (ls * ls) % uintSize < c then
          match af ++ [c] with
          | [] => .fault .indexOutOfRange
          | _lastSent :: rest =>
            .ret (LoopDirectiveContinue, [.Filter _lastSent, .primeRecMap rest _lastSent])
        else .ret (LoopDirectiveContinue, [.primeRecMap (af ++ [c]) ls])) =
      .ret (LoopDirectiveContinue, [.Filter a] ++ [.primeRecMap rest a]) := by
  have h01 : ¬ (LoopDirectiveBreak = LoopDirectiveContinue) := by decide
  rw [if_neg h01, if_pos hlt, h]
  rfl

/-- The action of primeRecMap when the item does not exceed the square of
`lastSent`: the item is appended to `alreadyFound`. -/
theorem primeRecMap_keep (af : List Nat) (ls c : Nat) (hlt : ¬ (ls * ls) % uintSize < c) :
    (if LoopDirectiveBreak = LoopDirectiveContinue then
        (.ret (LoopDirectiveBreak, []) : Action (List Nat × Nat) Nat (LoopDirective × List PrimesMap))
      else
        if (ls * ls) % uintSize < c then
          match af ++ [c] with
          | [] => .fault .indexOutOfRange
          | _lastSent :: rest =>
            .ret (LoopDirectiveContinue, [.Filter _lastSent, .primeRecMap rest _lastSent])
        else .ret (LoopDirectiveContinue, [.primeRecMap (af ++ [c]) ls])) =
      .ret (LoopDirectiveContinue, [] ++ [.primeRecMap (af ++ [c]) ls]) := by
  have h01 : ¬ (LoopDirectiveBreak = LoopDirectiveContinue) := by decide
  rw [if_neg h01, if_neg hlt]
  rfl

/-- While no filter is due, the next item is still below the square of the
`j`-th prime. -/
theorem next_below_square (c j ls : Nat) (hj : 1 ≤ j) (hls : ls = Nat.nth Nat.Prime (j - 1))
    (hpend : ∀ r, r.Prime → r < c → r ≤ ls * ls) (hcc : c.Prime → c ≤ ls * ls)
    (hsq : c < Nat.nth Nat.Prime j * Nat.nth Nat.Prime j)
    (hgap : ∀ t, Nat.nth Nat.Prime (t + 1) * Nat.nth Nat.Prime (t + 1) ≤ c + 1 →
      ∃ r, r.Prime ∧ Nat.nth Nat.Prime t * Nat.nth Nat.Prime t < r ∧
        r < Nat.nth Nat.Prime (t + 1) * Nat.nth Nat.Prime (t + 1)) :
    c + 1 < Nat.nth Nat.Prime j * Nat.nth Nat.Prime j := by
  by_contra hge
  have hj1 : j - 1 + 1 = j := by omega
  obtain ⟨r, hr, h1, h2⟩ := hgap (j - 1) (by rw [hj1]; omega)
  rw [hj1] at h2
  rw [← hls] at h1
  rcases Nat.lt_or_ge r c with h | h
  · have := hpend r hr h
    omega
  · have hrc : r = c := by omega
    have := hcc (hrc ▸ hr)
    omega

/-- The square of `lastSent` does not overflow while the items stay below
`2 ^ 62`, by Bertrand's postulate. -/
theorem lastSent_sq_no_overflow (c j ls : Nat) (hc : c < 2 ^ 62)
    (hls : (j = 0 ∧ ls = 0 ∧ c = 2) ∨
      (1 ≤ j ∧ ls = Nat.nth Nat.Prime (j - 1) ∧ ∀ r, r.Prime → r < c → r ≤ ls * ls))
    (htrig : ∀ t, t + 1 < j →
      ∃ r, r.Prime ∧ r < c ∧ Nat.nth Nat.Prime t * Nat.nth Nat.Prime t < r) :
    (ls * ls) % uintSize = ls * ls := by
  have hU : uintSize = 2 ^ 64 := rfl
  apply Nat.mod_eq_of_lt
  rcases hls with ⟨-, hl0, -⟩ | ⟨hj1, hlj, -⟩
  · rw [hl0, hU]; norm_num
  · rcases Nat.lt_or_ge j 2 with hj2 | hj2
    · have : j - 1 = 0 := by omega
      rw [hlj, this, nth_prime_zero, hU]; norm_num
    · obtain ⟨r, -, hrc, hr⟩ := htrig (j - 2) (by omega)
      have hb := nth_prime_succ_le_two_mul (j - 2)
      rw [show j - 2 + 1 = j - 1 by omega, ← hlj] at hb
      have h4 := Nat.mul_le_mul hb hb
      have h5 : 2 * Nat.nth Nat.Prime (j - 2) * (2 * Nat.nth Nat.Prime (j - 2)) =
          4 * (Nat.nth Nat.Prime (j - 2) * Nat.nth Nat.Prime (j - 2)) := by ring
      rw [h5] at h4
      rw [hU]
      omega

/-- Which filters are in place before item `c`: the filter of the `t`-th prime
is there iff a prime below `c` was delivered that exceeds the square of the
`(t - 1)`-th prime (for `t = 0`: iff a prime below `c` was delivered). -/
theorem splice_timing (c j ls : Nat) (hjc : j ≤ Nat.count Nat.Prime c)
    (hls : (j = 0 ∧ ls = 0 ∧ c = 2) ∨
      (1 ≤ j ∧ ls = Nat.nth Nat.Prime (j - 1) ∧ ∀ r, r.Prime → r < c → r ≤ ls * ls))
    (htrig : ∀ t, t + 1 < j →
      ∃ r, r.Prime ∧ r < c ∧ Nat.nth Nat.Prime t * Nat.nth Nat.Prime t < r) (t : Nat) :
    t < j ↔ ∃ r, r.Prime ∧ r < c ∧
      (t = 0 ∨ Nat.nth Nat.Prime (t - 1) * Nat.nth Nat.Prime (t - 1) < r) := by
  constructor
  · intro ht
    rcases Nat.eq_zero_or_pos t with h0 | h0
    · refine ⟨2, Nat.prime_two, ?_, Or.inl h0⟩
      have := (Nat.lt_nth_iff_count_lt Nat.infinite_setOf_prime).mp
        (show 0 < Nat.count Nat.Prime c by omega)
      rwa [nth_prime_zero] at this
    · obtain ⟨r, hr, hrc, h⟩ := htrig (t - 1) (by omega)
      exact ⟨r, hr, hrc, Or.inr h⟩
  · rintro ⟨r, hr, hrc, h⟩
    rcases hls with ⟨-, -, hc2⟩ | ⟨hj1, hlj, hpend⟩
    · have := hr.two_le
      omega
    · rcases h with h | h
      · omega
      · have h1 := hpend r hr hrc
        rw [hlj] at h1
        have h2 : Nat.nth Nat.Prime (t - 1) * Nat.nth Nat.Prime (t - 1) <
            Nat.nth Nat.Prime (j - 1) * Nat.nth Nat.Prime (j - 1) := by omega
        have h3 := Nat.mul_self_lt_mul_self_iff.mp h2
        have h4 := (nth_prime_lt_iff _ _).mp h3
        omega

/-- One step of the run of `RecPrimes()` under the hypothesis on the gaps, on an
item the consumer answers with LoopDirectiveContinue. -/
theorem RecSound_step (f : List Nat → Nat → LoopDirective) (fuel i c : Nat) (st : PState)
    (hinv : RecSound f i c st) (hov : c < 2 ^ 62)
    (hgap : ∀ t, Nat.nth Nat.Prime (t + 1) * Nat.nth Nat.Prime (t + 1) ≤ c + 1 →
      ∃ r, r.Prime ∧ Nat.nth Nat.Prime t * Nat.nth Nat.Prime t < r ∧
        r < Nat.nth Nat.Prime (t + 1) * Nat.nth Nat.Prime (t + 1))
    (hf : f st.received c = LoopDirectiveContinue) :
    ∃ st1, Yield PrimesMap.defn (fuel + 2 * i + 2) 0 c st = .ok (LoopDirectiveContinue, st1) ∧
      RecSound f (i + 1) (c + 1) st1 := by
  obtain ⟨hci, chain, af, ls, b, fwd, j, hs, hch, hjc, haf, hls, htrig, hsq, hrec, hcons,
    hl1, hl2⟩ := hinv
  have hc2 : 2 ≤ c := by omega
  have hmem : ∀ mb ∈ chain, ∃ t, t < j ∧ mb.1 = PrimesMap.Filter (Nat.nth Nat.Prime t) := by
    intro mb hmb
    have h1 : mb.1 ∈ chain.map Prod.fst := List.mem_map_of_mem _ hmb
    rw [hch] at h1
    obtain ⟨t, ht, hte⟩ := List.mem_map.mp h1
    exact ⟨t, List.mem_range.mp ht, hte.symm⟩
  have hdef : ∀ mb ∈ chain, PrimesMap.defn mb.1 = Filter (total (primesPred mb.1)) := by
    intro mb hmb
    obtain ⟨t, -, hte⟩ := hmem mb hmb
    rw [hte]
    exact defn_Filter _ (Nat.prime_nth_prime t).pos.ne'
  have hovls := lastSent_sq_no_overflow c j ls hov hls htrig
  by_cases hp : c.Prime
  · have hx : allPass primesPred chain c = true :=
      allPass_of_prime chain c hp (fun mb hmb => by
        obtain ⟨t, ht, hte⟩ := hmem mb hmb
        exact ⟨_, hte, two_le_nth_prime t,
          (Nat.lt_nth_iff_count_lt Nat.infinite_setOf_prime).mp (lt_of_lt_of_le ht hjc)⟩)
    have hcount : Nat.count Nat.Prime (c + 1) = Nat.count Nat.Prime c + 1 := by
      rw [Nat.count_succ]; simp [hp]
    have hfp := firstPrimes_succ c
    simp only [hp, if_true] at hfp
    have hafc : af ++ [c] =
        ((List.range (Nat.count Nat.Prime (c + 1))).map (Nat.nth Nat.Prime)).drop j := by
      rw [hfp, haf, List.drop_append_of_le_length (by simpa using hjc)]
    by_cases hlt : ls * ls < c
    · have hcons2 := firstPrimes_drop (Nat.count Nat.Prime (c + 1)) j (by omega)
      have hk := primeRecMap_splice af ls c _ _ (by rw [hovls]; exact hlt) (hafc.trans hcons2)
      have hstep := Sieve_pass PrimesMap.defn primesPred st f 0 chain (.primeRecMap af ls) b fwd
        hs hdef c hx _ rfl _ rfl LoopDirectiveContinue _
        (by rw [hf]; exact hk) (fuel + 2 * i - fwd.length - chain.length)
      rw [show fuel + 2 * i - fwd.length - chain.length + fwd.length + 2 + chain.length =
        fuel + 2 * i + 2 by omega] at hstep
      rw [hstep]
      refine ⟨_, rfl, ?_⟩
      obtain ⟨t1, t2, t3, t4⟩ := Sieve_splice
        (State.mk st.heap st.vars (st.received ++ [c])
          (st.trace ++ (chainTrace primesPred 0 chain c ++
            ([.yield (chainEnd 0 chain) c, .enter (.primeRecMap af ls) c] ++ fwdTrace b fwd c))))
        f 0 chain (.primeRecMap af ls) b fwd (Sieve_of_heap_eq st _ (by rfl) f 0 chain _ b fwd hs)
        [.Filter (Nat.nth Nat.Prime j)]
        (.primeRecMap (((List.range (Nat.count Nat.Prime (c + 1))).map
          (Nat.nth Nat.Prime)).drop (j + 1)) (Nat.nth Nat.Prime j))
      refine ⟨by omega, _, _, _, _, _, j + 1, t1, ?_, ?_, rfl, ?_, ?_, ?_, ?_, ?_, ?_, ?_⟩
      · simp only [List.map_append, hch, chainOf, List.map_cons, List.map_nil, List.range_succ]
      · omega
      · right
        refine ⟨by omega, rfl, ?_⟩
        intro r _ hrc
        omega
      · intro t ht
        rcases Nat.lt_or_ge (t + 1) j with h | h
        · obtain ⟨r, hr, hrc, hh⟩ := htrig t h
          exact ⟨r, hr, by omega, hh⟩
        · have htj : t = j - 1 := by omega
          rcases hls with ⟨hj0, -, -⟩ | ⟨hj1, hlj, -⟩
          · omega
          · refine ⟨c, hp, by omega, ?_⟩
            rw [htj, ← hlj]
            exact hlt
      · have h1 := (nth_prime_lt_iff j (j + 1)).mpr (by omega)
        have h2 : Nat.nth Nat.Prime j + 1 ≤ Nat.nth Nat.Prime (j + 1) := h1
        have h3 := Nat.mul_le_mul h2 h2
        have h4 : (Nat.nth Nat.Prime j + 1) * (Nat.nth Nat.Prime j + 1) =
            Nat.nth Nat.Prime j * Nat.nth Nat.Prime j + 2 * Nat.nth Nat.Prime j + 1 := by ring
        omega
      · rw [t3]
        show st.received ++ [c] = _
        rw [hrec, hfp]
      · rw [t3, t4]
        simp only [consumed_append, hcons, consumed_chainTrace, consumed_fwdTrace]
        simp [consumed]
      · simp [chainOf_length]; omega
      · simp; omega
    · have hj1 : 1 ≤ j := by
        rcases hls with ⟨-, hl0, hc0⟩ | ⟨hj1, -, -⟩
        · exfalso; apply hlt; rw [hl0, hc0]; norm_num
        · exact hj1
      have hk := primeRecMap_keep af ls c (by rw [hovls]; exact hlt)
      have hstep := Sieve_pass PrimesMap.defn primesPred st f 0 chain (.primeRecMap af ls) b fwd
        hs hdef c hx _ rfl _ rfl LoopDirectiveContinue _
        (by rw [hf]; exact hk) (fuel + 2 * i - fwd.length - chain.length)
      rw [show fuel + 2 * i - fwd.length - chain.length + fwd.length + 2 + chain.length =
        fuel + 2 * i + 2 by omega] at hstep
      rw [hstep]
      refine ⟨_, rfl, ?_⟩
      obtain ⟨t1, t2, t3, t4⟩ := Sieve_splice
        (State.mk st.heap st.vars (st.received ++ [c])
          (st.trace ++ (chainTrace primesPred 0 chain c ++
            ([.yield (chainEnd 0 chain) c, .enter (.primeRecMap af ls) c] ++ fwdTrace b fwd c))))
        f 0 chain (.primeRecMap af ls) b fwd (Sieve_of_heap_eq st _ (by rfl) f 0 chain _ b fwd hs)
        [] (.primeRecMap (af ++ [c]) ls)
      rcases hls with ⟨hj0, -, -⟩ | ⟨-, hlj, hpend⟩
      · omega
      refine ⟨by omega, _, _, _, _, _, j, t1, ?_, ?_, hafc, ?_, ?_, ?_, ?_, ?_, ?_, ?_⟩
      · simp only [List.map_append, hch, chainOf, List.map_nil, List.append_nil]
      · omega
      · right
        refine ⟨hj1, hlj, ?_⟩
        intro r hr hrc
        rcases Nat.lt_or_ge r c with h | h
        · exact hpend r hr h
        · have : r = c := by omega
          omega
      · intro t ht
        obtain ⟨r, hr, hrc, hh⟩ := htrig t ht
        exact ⟨r, hr, by omega, hh⟩
      · exact next_below_square c j ls hj1 hlj hpend (fun _ => by omega) hsq hgap
      · rw [t3]
        show st.received ++ [c] = _
        rw [hrec, hfp]
      · rw [t3, t4]
        simp only [consumed_append, hcons, consumed_chainTrace, consumed_fwdTrace]
        simp [consumed]
      · simp [chainOf_length]; omega
      · simp; omega
  · have hx : allPass primesPred chain c = false := by
      obtain ⟨t, ht, hmod⟩ := composite_below_square c j hc2 hp hsq
      cases h : allPass primesPred chain c with
      | false => rfl
      | true =>
        rw [allPass_eq_all, hch, List.all_eq_true] at h
        have := h (.Filter (Nat.nth Nat.Prime t))
          (List.mem_map.mpr ⟨t, List.mem_range.mpr ht, rfl⟩)
        simp [primesPred, hmod] at this
    have hcount : Nat.count Nat.Prime (c + 1) = Nat.count Nat.Prime c := by
      rw [Nat.count_succ]; simp [hp]
    have hstep := Sieve_reject PrimesMap.defn primesPred st f 0 chain _ b fwd hs hdef c hx
      (fuel + 2 * i + 2 - chain.length)
    rw [show fuel + 2 * i + 2 - chain.length + chain.length = fuel + 2 * i + 2 by omega] at hstep
    rw [hstep]
    refine ⟨_, rfl, ?_⟩
    rcases hls with ⟨-, -, hc0⟩ | ⟨hj1, hlj, hpend⟩
    · exact absurd (hc0 ▸ Nat.prime_two) hp
    refine ⟨by omega, chain, af, ls, b, fwd, j,
      Sieve_of_heap_eq st _ (by rfl) f 0 chain _ b fwd hs, hch, by omega, by rw [hcount]; exact haf,
      ?_, ?_, ?_, ?_, ?_, by omega, by omega⟩
    · right
      refine ⟨hj1, hlj, ?_⟩
      intro r hr hrc
      rcases Nat.lt_or_ge r c with h | h
      · exact hpend r hr h
      · have : r = c := by omega
        exact absurd (this ▸ hr) hp
    · intro t ht
      obtain ⟨r, hr, hrc, hh⟩ := htrig t ht
      exact ⟨r, hr, by omega, hh⟩
    · exact next_below_square c j ls hj1 hlj hpend (fun h => absurd h hp) hsq hgap
    · rw [hcount]
      exact hrec
    · simp only [State.log_trace, State.log_received, consumed_append, consumed_chainTrace,
        hcons, List.append_nil]

/-- The step of the run of `RecPrimes()` under the hypothesis on the gaps, on a
prime the consumer answers with LoopDirectiveBreak. -/
theorem RecSound_last (f : List Nat → Nat → LoopDirective) (fuel i c : Nat) (st : PState)
    (hinv : RecSound f i c st) (hc : c.Prime) (hf : f st.received c = LoopDirectiveBreak) :
    ∃ st1, Yield PrimesMap.defn (fuel + 2 * i + 2) 0 c st = .ok (LoopDirectiveBreak, st1) ∧
      st1.received = (List.range (Nat.count Nat.Prime (c + 1))).map (Nat.nth Nat.Prime) ∧
      consumed st1.trace = st1.received ∧
      ∃ chain j b, Links st1 0 chain ∧ st1.slot (chainEnd 0 chain) = some (.method b) ∧
        chain.map Prod.fst =
          (List.range j).map (fun t => PrimesMap.Filter (Nat.nth Nat.Prime t)) ∧
        ∀ t, t < j ↔ ∃ r, r.Prime ∧ r < c ∧
          (t = 0 ∨ Nat.nth Nat.Prime (t - 1) * Nat.nth Nat.Prime (t - 1) < r) := by
  obtain ⟨hci, chain, af, ls, b, fwd, j, hs, hch, hjc, haf, hls, htrig, hsq, hrec, hcons,
    hl1, hl2⟩ := hinv
  have hmem : ∀ mb ∈ chain, ∃ t, t < j ∧ mb.1 = PrimesMap.Filter (Nat.nth Nat.Prime t) := by
    intro mb hmb
    have h1 : mb.1 ∈ chain.map Prod.fst := List.mem_map_of_mem _ hmb
    rw [hch] at h1
    obtain ⟨t, ht, hte⟩ := List.mem_map.mp h1
    exact ⟨t, List.mem_range.mp ht, hte.symm⟩
  have hdef : ∀ mb ∈ chain, PrimesMap.defn mb.1 = Filter (total (primesPred mb.1)) := by
    intro mb hmb
    obtain ⟨t, -, hte⟩ := hmem mb hmb
    rw [hte]
    exact defn_Filter _ (Nat.prime_nth_prime t).pos.ne'
  have hx : allPass primesPred chain c = true :=
    allPass_of_prime chain c hc (fun mb hmb => by
      obtain ⟨t, ht, hte⟩ := hmem mb hmb
      exact ⟨_, hte, two_le_nth_prime t,
        (Nat.lt_nth_iff_count_lt Nat.infinite_setOf_prime).mp (lt_of_lt_of_le ht hjc)⟩)
  have hfp := firstPrimes_succ c
  simp only [hc, if_true] at hfp
  have hstep := Sieve_pass PrimesMap.defn primesPred st f 0 chain (.primeRecMap af ls) b fwd hs
    hdef c hx _ rfl _ rfl LoopDirectiveBreak []
    (by rw [hf]; rfl) (fuel + 2 * i - fwd.length - chain.length)
  rw [show fuel + 2 * i - fwd.length - chain.length + fwd.length + 2 + chain.length =
    fuel + 2 * i + 2 by omega] at hstep
  rw [hstep]
  obtain ⟨h1, h2, h3, h4, h5⟩ := hs
  have ha : chainEnd 0 chain < st.heap.length := slot_lt_length st _ _ h2
  refine ⟨_, rfl, ?_, ?_, chain, j, b, ?_, ?_, hch, splice_timing c j ls hjc hls htrig⟩
  · simp only [splice, applyMaps, State.setYield_received]
    rw [hrec, hfp]
  · simp only [splice, applyMaps, State.setYield_trace, State.setYield_received,
      consumed_append, hcons, consumed_chainTrace, consumed_fwdTrace]
    simp [consumed]
  · simp only [splice, applyMaps]
    refine Links_frame 0 chain (fun k hk => ?_) (Links_of_heap_eq (by rfl) 0 chain h1)
    exact State.slot_setYield_ne _ _ _ _ (fun h => h4 (h ▸ hk))
  · simp only [splice, applyMaps]
    exact State.slot_setYield_self _ _ _ ha

/-- The square of a prime `q` passes every filter whose divisor is another prime,
so a sieve without the filter of `q` delivers `q * q` to the consumer. -/
theorem Sieve_square_delivered (f : List Nat → Nat → LoopDirective) (q : Nat) (hq : q.Prime)
    (st : PState) (chain : List (PrimesMap × Nat)) (af : List Nat) (ls b : Nat)
    (fwd : List Nat) (hs : Sieve st f 0 chain (.primeRecMap af ls) b fwd)
    (hch : ∀ mb ∈ chain, ∃ d, mb.1 = PrimesMap.Filter d ∧ d.Prime ∧ d ≠ q) (fuel : Nat) :
    ∃ r st1, Yield PrimesMap.defn (fuel + fwd.length + 2 + chain.length) 0 (q * q) st =
        .ok (r, st1) ∧ st1.received = st.received ++ [q * q] := by
  have hdef : ∀ mb ∈ chain, PrimesMap.defn mb.1 = Filter (total (primesPred mb.1)) := by
    intro mb hmb
    obtain ⟨d, hd, hdp, -⟩ := hch mb hmb
    rw [hd]
    exact defn_Filter d hdp.pos.ne'
  have hx : allPass primesPred chain (q * q) = true := by
    simp only [allPass, List.all_eq_true]
    intro mb hmb
    obtain ⟨d, hd, hdp, hdq⟩ := hch mb hmb
    rw [hd]
    simp only [primesPred, bne_iff_ne, ne_eq]
    intro hmod
    have hdvd : d ∣ q * q := Nat.dvd_of_mod_eq_zero hmod
    have : d ∣ q := by
      rcases (Nat.Prime.dvd_mul hdp).mp hdvd with h | h <;> exact h
    exact hdq ((Nat.prime_dvd_prime_iff_eq hdp hq).mp this)
  by_cases hb : LoopDirectiveBreak = f st.received (q * q)
  · have hstep := Sieve_pass PrimesMap.defn primesPred st f 0 chain (.primeRecMap af ls) b fwd
      hs hdef (q * q) hx _ rfl _ rfl LoopDirectiveBreak [] (by rw [if_pos hb]) fuel
    rw [hstep]
    refine ⟨_, _, rfl, ?_⟩
    simp [splice, applyMaps]
  · obtain ⟨fs, af1, ls1, hk, -, -, -⟩ :=
      primeRecMap_next_of_ne af ls (q * q) (f st.received (q * q)) hb
    have hstep := Sieve_pass PrimesMap.defn primesPred st f 0 chain (.primeRecMap af ls) b fwd
      hs hdef (q * q) hx _ rfl _ rfl LoopDirectiveContinue (fs ++ [.primeRecMap af1 ls1])
      (by exact hk) fuel
    rw [hstep]
    obtain ⟨-, -, t3, -⟩ := Sieve_splice
      (State.mk st.heap st.vars (st.received ++ [q * q])
        (st.trace ++ (chainTrace primesPred 0 chain (q * q) ++
          ([.yield (chainEnd 0 chain) (q * q), .enter (.primeRecMap af ls) (q * q)] ++
            fwdTrace b fwd (q * q)))))
      f 0 chain (.primeRecMap af ls) b fwd (Sieve_of_heap_eq st _ (by rfl) f 0 chain _ b fwd hs)
      fs (.primeRecMap af1 ls1)
    exact ⟨_, _, rfl, t3⟩

end TheRecursiveSieveUnderTheHypothesisOnPrimeGaps

/-! ## Generators out of reach of a call -/

section GeneratorsOutOfReachOfACall

variable {σ M T : Type}

theorem Closed_of_heap_eq {st st1 : State σ M T} (hh : st1.heap = st.heap)
    (h : Closed st) : Closed st1 := by
  intro i c hi p hp
  rw [hh]
  exact h i c (by simpa [State.slot, hh] using hi) p hp

theorem Separate_of_heap_eq {st st1 : State σ M T} (S : Nat → Prop) (hh : st1.heap = st.heap)
    (h : Separate S st) : Separate S st1 := by
  obtain ⟨h1, h2, h3⟩ := h
  refine ⟨Closed_of_heap_eq hh h1, fun i hi => by rw [hh]; exact h2 i hi, ?_⟩
  intro i c hi hS p hp
  exact h3 i c (by simpa [State.slot, hh] using hi) hS p hp

theorem Closed_iff_Separate (st : State σ M T) : Closed st ↔ Separate (fun _ => False) st :=
  ⟨fun h => ⟨h, fun _ hi => hi.elim, fun _ _ _ _ _ _ hp => hp⟩, fun h => h.1⟩

theorem Separate_setYield (S : Nat → Prop) (st : State σ M T) (g : Nat) (c : Continuation M T)
    (h : Separate S st) (hg : ¬ S g) (hc : ∀ p ∈ c.pointers, p < st.heap.length ∧ ¬ S p) :
    Separate S (st.setYield g c) ∧ ∀ i, S i → (st.setYield g c).slot i = st.slot i := by
  obtain ⟨h1, h2, h3⟩ := h
  refine ⟨⟨?_, ?_, ?_⟩, ?_⟩
  · intro i c1 hi p hp
    rw [State.setYield_length]
    rcases slot_setYield_cases _ _ _ _ _ hi with ⟨-, hcc⟩ | h4
    · rw [hcc] at hp; exact (hc p hp).1
    · exact h1 i c1 h4 p hp
  · intro i hi
    rw [State.setYield_length]
    exact h2 i hi
  · intro i c1 hi hS p hp
    rcases slot_setYield_cases _ _ _ _ _ hi with ⟨-, hcc⟩ | h4
    · rw [hcc] at hp; exact (hc p hp).2
    · exact h3 i c1 h4 hS p hp
  · intro i hi
    exact State.slot_setYield_ne st g i c (fun h => hg (h ▸ hi))

theorem Separate_Apply (S : Nat → Prop) (m : M) (a : Nat) (st : State σ M T)
    (h : Separate S st) (ha : ¬ S a) (hal : a < st.heap.length) :
    Separate S (mapGenerator.Apply m a st).2 ∧
    (∀ i, S i → (mapGenerator.Apply m a st).2.slot i = st.slot i) ∧
    ¬ S st.heap.length := by
  obtain ⟨h1, h2, h3⟩ := h
  have hn : ¬ S st.heap.length := fun hs => Nat.lt_irrefl _ (h2 _ hs)
  have hlen : (st.alloc (Kind.sGenerator a)).2.heap.length = st.heap.length + 1 := by
    simp [State.alloc]
  have hsep : Separate S (st.alloc (Kind.sGenerator a)).2 := by
    refine ⟨?_, ?_, ?_⟩
    · intro i c hi p hp
      rw [hlen]
      exact Nat.lt_succ_of_lt (h1 i c (slot_alloc_cases st _ i c hi) p hp)
    · intro i hi
      rw [hlen]
      exact Nat.lt_succ_of_lt (h2 i hi)
    · intro i c hi hS p hp
      exact h3 i c (slot_alloc_cases st _ i c hi) hS p hp
  obtain ⟨s1, s2⟩ := Separate_setYield S (st.alloc (Kind.sGenerator a)).2 a
    (.action m a st.heap.length) hsep ha (by
      intro p hp
      simp only [Continuation.pointers, List.mem_cons, List.mem_singleton, List.not_mem_nil,
        or_false] at hp
      rcases hp with hp | hp
      · rw [hp, hlen]; exact ⟨by omega, ha⟩
      · rw [hp, hlen]; exact ⟨by omega, hn⟩)
  refine ⟨s1, ?_, hn⟩
  intro i hi
  have h4 := s2 i hi
  show ((st.alloc (Kind.sGenerator a)).2.setYield a (.action m a st.heap.length)).slot i = _
  rw [h4]
  exact State.slot_alloc_lt st _ i (h2 i hi)

theorem Separate_applyMaps (S : Nat → Prop) (ms : List M) (a : Nat) (st : State σ M T)
    (h : Separate S st) (ha : ¬ S a) (hal : a < st.heap.length) :
    Separate S (applyMaps ms a st).2 ∧
    (∀ i, S i → (applyMaps ms a st).2.slot i = st.slot i) ∧
    ¬ S (applyMaps ms a st).1 ∧ (applyMaps ms a st).1 < (applyMaps ms a st).2.heap.length := by
  induction ms generalizing a st with
  | nil => exact ⟨h, fun _ _ => rfl, ha, hal⟩
  | cons m ms ih =>
    have hstep : applyMaps (m :: ms) a st =
        applyMaps ms st.heap.length (mapGenerator.Apply m a st).2 := rfl
    rw [hstep]
    obtain ⟨a1, a2, a3⟩ := Separate_Apply S m a st h ha hal
    have hlen : (mapGenerator.Apply m a st).2.heap.length = st.heap.length + 1 := by
      simp [mapGenerator.Apply, State.alloc]
    obtain ⟨i1, i2, i3, i4⟩ := ih st.heap.length (mapGenerator.Apply m a st).2 a1 a3
      (by rw [hlen]; omega)
    exact ⟨i1, fun i hi => by rw [i2 i hi, a2 i hi], i3, i4⟩

/-- Splicing maps in behind a generator outside `S` leaves `S` alone. -/
theorem Separate_splice (S : Nat → Prop) (ms : List M) (a b : Nat) (st : State σ M T)
    (h : Separate S st) (ha : ¬ S a) (hal : a < st.heap.length) (hb : ¬ S b)
    (hbl : b < st.heap.length) :
    Separate S (splice ms a b st) ∧ (∀ i, S i → (splice ms a b st).slot i = st.slot i) ∧
    st.heap.length ≤ (splice ms a b st).heap.length := by
  obtain ⟨a1, a2, a3, a4⟩ := Separate_applyMaps S ms a st h ha hal
  have hlen := applyMaps_length ms a st
  obtain ⟨s1, s2⟩ := Separate_setYield S (applyMaps ms a st).2 (applyMaps ms a st).1
    (.method b) a1 a3 (by
      intro p hp
      simp only [Continuation.pointers, List.mem_singleton] at hp
      rw [hp, hlen]
      exact ⟨by omega, hb⟩)
  refine ⟨s1, fun i hi => ?_, ?_⟩
  · show ((applyMaps ms a st).2.setYield (applyMaps ms a st).1 (.method b)).slot i = _
    rw [s2 i hi, a2 i hi]
  · show _ ≤ ((applyMaps ms a st).2.setYield (applyMaps ms a st).1 (.method b)).heap.length
    rw [State.setYield_length, hlen]
    omega

theorem Action.run_frame {α : Type} (S : Nat → Prop) (y : T → State σ M T → Call σ M T)
    (hy : ∀ x st d st1, Separate S st → y x st = .ok (d, st1) →
      Separate S st1 ∧ (∀ i, S i → st1.slot i = st.slot i) ∧
        st.heap.length ≤ st1.heap.length)
    (act : Action σ T α) (st st1 : State σ M T) (a : α) (hs : Separate S st)
    (h : act.run y st = .ok (a, st1)) :
    Separate S st1 ∧ (∀ i, S i → st1.slot i = st.slot i) ∧
      st.heap.length ≤ st1.heap.length := by
  induction act generalizing st with
  | ret a0 =>
    simp only [Action.run, Except.ok.injEq, Prod.mk.injEq] at h
    rw [← h.2]
    exact ⟨hs, fun _ _ => rfl, Nat.le_refl _⟩
  | fault e => simp [Action.run] at h
  | yield x k ih =>
    simp only [Action.run] at h
    cases hyx : y x st with
    | error e => simp [hyx] at h
    | ok r =>
      obtain ⟨d, st2⟩ := r
      simp only [hyx] at h
      obtain ⟨h1, h2, h3⟩ := hy x st d st2 hs hyx
      obtain ⟨h4, h5, h6⟩ := ih d st2 h1 h
      exact ⟨h4, fun i hi => by rw [h5 i hi, h2 i hi], Nat.le_trans h3 h6⟩
  | get k ih =>
    simp only [Action.run] at h
    exact ih _ st hs h
  | set s k ih =>
    simp only [Action.run] at h
    have := ih _ (Separate_of_heap_eq S (by rfl) hs) h
    exact this

/-- A call of a function value that refers to generators outside `S` only
neither reads nor writes the continuation of a generator of `S`. -/
theorem invoke_frame (defn : M → mapGenerator σ M T) (S : Nat → Prop) (fuel : Nat) :
    ∀ (c : Continuation M T) (x : T) (st : State σ M T) (d : LoopDirective)
      (st1 : State σ M T), Separate S st →
      (∀ p ∈ c.pointers, p < st.heap.length ∧ ¬ S p) →
      invoke defn fuel c x st = .ok (d, st1) →
      Separate S st1 ∧ (∀ i, S i → st1.slot i = st.slot i) ∧
        st.heap.length ≤ st1.heap.length := by
  induction fuel with
  | zero => intro c x st d st1 _ _ h; simp [invoke] at h
  | succ fuel ih =>
    have hy : ∀ b, ¬ S b → ∀ x (st : State σ M T) d st1, Separate S st →
        yieldWith (invoke defn fuel) b x st = .ok (d, st1) →
        Separate S st1 ∧ (∀ i, S i → st1.slot i = st.slot i) ∧
          st.heap.length ≤ st1.heap.length := by
      intro b hb x st d st1 hs h
      simp only [yieldWith] at h
      split at h
      · simp at h
      · rename_i c hc
        have := ih c x (st.emit (.yield b x)) d st1 (Separate_of_heap_eq S (by rfl) hs)
          (fun p hp => ⟨hs.1 b c hc p hp, hs.2.2 b c hc hb p hp⟩) h
        exact this
    intro c x st d st1 hs hc h
    cases c with
    | consumer f =>
      simp only [invoke, Except.ok.injEq, Prod.mk.injEq] at h
      rw [← h.2]
      exact ⟨Separate_of_heap_eq S (by rfl) hs, fun _ _ => rfl, Nat.le_refl _⟩
    | method b =>
      exact hy b (hc b (by simp [Continuation.pointers])).2 x st d st1 hs h
    | action m a b =>
      have hca := hc a (by simp [Continuation.pointers])
      have hcb := hc b (by simp [Continuation.pointers])
      simp only [invoke] at h
      split at h
      · have := Action.run_frame S _ (hy b hcb.2) _ _ _ _
          (Separate_of_heap_eq S (by rfl) hs) h
        exact this
      · split at h
        · simp at h
        · rename_i act _ r ms st2 hrun
          simp only [Except.ok.injEq, Prod.mk.injEq] at h
          have h0 := Action.run_frame S _ (hy b hcb.2) _ _ _ _
            (Separate_of_heap_eq S (by rfl) hs) hrun
          obtain ⟨h1, h2, h3⟩ := h0
          have h3 : st.heap.length ≤ st2.heap.length := h3
          obtain ⟨s1, s2, s3⟩ := Separate_splice S ms a b st2 h1 hca.2 (by omega) hcb.2
            (by omega)
          rw [← h.2]
          refine ⟨s1, fun i hi => ?_, Nat.le_trans h3 s3⟩
          have := s2 i hi
          exact this.trans (h2 i hi)

theorem Yield_frame (defn : M → mapGenerator σ M T) (S : Nat → Prop) (fuel b : Nat) (x : T)
    (st st1 : State σ M T) (d : LoopDirective) (hs : Separate S st) (hb : ¬ S b)
    (h : Yield defn fuel b x st = .ok (d, st1)) :
    Separate S st1 ∧ (∀ i, S i → st1.slot i = st.slot i) ∧
      st.heap.length ≤ st1.heap.length := by
  simp only [Yield, yieldWith] at h
  split at h
  · simp at h
  · rename_i c hc
    have := invoke_frame defn S fuel c x (st.emit (.yield b x)) d st1
      (Separate_of_heap_eq S (by rfl) hs)
      (fun p hp => ⟨hs.1 b c hc p hp, hs.2.2 b c hc hb p hp⟩) h
    exact this

theorem mem_sources_chainOf (ms : List M) (b n i : Nat) (h : i ∈ sources b (chainOf ms n)) :
    chainNodes b n ms.length i := by
  induction ms generalizing b n with
  | nil => simp [chainOf, sources] at h
  | cons m ms ih =>
    simp only [chainOf, sources, List.mem_cons] at h
    rcases h with h | h
    · exact Or.inl h
    · right
      rcases ih n (n + 1) h with h1 | ⟨h1, h2⟩
      · simp only [List.length_cons]; omega
      · simp only [List.length_cons]; omega

theorem chainEnd_chainNodes (ms : List M) (b n : Nat) :
    chainNodes b n ms.length (chainEnd b (chainOf ms n)) := by
  rw [chainEnd_chainOf]
  split
  · exact Or.inl rfl
  · right; omega

/-- After the splice behind `g`, the generators of the new chain are referred to
from inside the chain only. -/
theorem Separate_splice_chain (ms : List M) (g out : Nat) (st : State σ M T)
    (h : Separate (fun i => i = g) st) (hout : out < st.heap.length) :
    Separate (chainNodes g st.heap.length ms.length) (splice ms g out st) := by
  obtain ⟨h1, h2, h3⟩ := h
  have hg : g < st.heap.length := h2 g rfl
  obtain ⟨c1, -, -⟩ := Separate_splice (fun _ => False) ms g out st
    ((Closed_iff_Separate st).mp h1) (fun h => h) hg (fun h => h) hout
  obtain ⟨-, -, s3, s4, -, -, -⟩ := splice_spec ms g out st hg
  refine ⟨c1.1, ?_, ?_⟩
  · intro i hi
    show i < ((applyMaps ms g st).2.setYield (applyMaps ms g st).1 (.method out)).heap.length
    rw [s4]
    rcases hi with hi | hi <;> omega
  · intro i c hi hS p hp
    have hil : i < st.heap.length + ms.length := by
      have := slot_lt_length _ _ _ hi
      have h5 : (splice ms g out st).heap.length = st.heap.length + ms.length := s4
      omega
    have hig : i ≠ g := fun h => hS (Or.inl h)
    have hiN : i < st.heap.length := by
      by_contra hge
      exact hS (Or.inr ⟨by omega, hil⟩)
    have hold : st.slot i = some c := by
      rw [← s3 i hiN hig]; exact hi
    intro hp2
    rcases hp2 with hp2 | hp2
    · exact h3 i c hold hig p hp hp2
    · have := h1 i c hold p hp
      omega

/-- The example store `SpliceMap.start s` is separate at its source. -/
theorem SpliceMap.start_separate (s : List Nat) :
    Separate (fun i => i = 0) (SpliceMap.start s) := by
  refine ⟨?_, ?_, ?_⟩
  · intro i c hi p hp
    match i, hi with
    | 0, hi =>
      simp only [SpliceMap.start, Array2Generator, mapGenerator.Apply, State.alloc, State.init,
        State.setYield, State.slot] at hi
      simp at hi
      subst hi
      simp only [Continuation.pointers, List.mem_cons, List.mem_singleton, List.not_mem_nil,
        or_false] at hp
      rcases hp with hp | hp <;> subst hp <;>
        simp [SpliceMap.start, Array2Generator, mapGenerator.Apply, State.alloc, State.init,
          State.setYield]
    | 1, hi =>
      simp only [SpliceMap.start, Array2Generator, mapGenerator.Apply, State.alloc, State.init,
        State.setYield, State.slot] at hi
      simp at hi
      subst hi
      simp [Continuation.pointers] at hp
    | i + 2, hi =>
      simp [SpliceMap.start, Array2Generator, mapGenerator.Apply, State.alloc, State.init,
        State.setYield, State.slot] at hi
  · intro i hi
    subst hi
    simp [SpliceMap.start, Array2Generator, mapGenerator.Apply, State.alloc, State.init,
      State.setYield]
  · intro i c hi hS p hp
    match i, hi with
    | 0, hi => exact absurd rfl hS
    | 1, hi =>
      simp only [SpliceMap.start, Array2Generator, mapGenerator.Apply, State.alloc, State.init,
        State.setYield, State.slot] at hi
      simp at hi
      subst hi
      simp [Continuation.pointers] at hp
    | i + 2, hi =>
      simp [SpliceMap.start, Array2Generator, mapGenerator.Apply, State.alloc, State.init,
        State.setYield, State.slot] at hi

end GeneratorsOutOfReachOfACall

/-! ## A map that is applied once -/

section AMapThatIsAppliedOnce

variable {σ M T : Type}

theorem enteredWith_append [DecidableEq M] (m0 : M) (a b : List (Event M T)) :
    enteredWith m0 (a ++ b) = enteredWith m0 a ++ enteredWith m0 b := by
  simp [enteredWith, List.filterMap_append]

theorem Action.run_Returns {α : Type} (P : α → Prop) (y : T → State σ M T → Call σ M T)
    (act : Action σ T α) (st st1 : State σ M T) (a : α) (hP : act.Returns P)
    (h : act.run y st = .ok (a, st1)) : P a := by
  induction act generalizing st with
  | ret a0 =>
    simp only [Action.run, Except.ok.injEq, Prod.mk.injEq] at h
    rw [← h.1]
    exact hP
  | fault e => simp [Action.run] at h
  | yield x k ih =>
    simp only [Action.run] at h
    cases hyx : y x st with
    | error e => simp [hyx] at h
    | ok r =>
      obtain ⟨d, st2⟩ := r
      simp only [hyx] at h
      exact ih d st2 (hP d) h
  | get k ih =>
    simp only [Action.run] at h
    exact ih _ st (hP _) h
  | set s k ih =>
    simp only [Action.run] at h
    exact ih _ hP h

theorem Action.run_quiet {α : Type} [DecidableEq M] (S : Nat → Prop) (m0 : M)
    (y : T → State σ M T → Call σ M T)
    (hy : ∀ x st d st1, Separate S st →
      (∀ i a b, st.slot i = some (.action m0 a b) → S i) → y x st = .ok (d, st1) →
      Separate S st1 ∧ (∀ i a b, st1.slot i = some (.action m0 a b) → S i) ∧
        enteredWith m0 st1.trace = enteredWith m0 st.trace)
    (act : Action σ T α) (st st1 : State σ M T) (a : α) (hs : Separate S st)
    (ho : ∀ i a b, st.slot i = some (.action m0 a b) → S i)
    (h : act.run y st = .ok (a, st1)) :
    Separate S st1 ∧ (∀ i a b, st1.slot i = some (.action m0 a b) → S i) ∧
      enteredWith m0 st1.trace = enteredWith m0 st.trace := by
  induction act generalizing st with
  | ret a0 =>
    simp only [Action.run, Except.ok.injEq, Prod.mk.injEq] at h
    rw [← h.2]
    exact ⟨hs, ho, rfl⟩
  | fault e => simp [Action.run] at h
  | yield x k ih =>
    simp only [Action.run] at h
    cases hyx : y x st with
    | error e => simp [hyx] at h
    | ok r =>
      obtain ⟨d, st2⟩ := r
      simp only [hyx] at h
      obtain ⟨h1, h2, h3⟩ := hy x st d st2 hs ho hyx
      obtain ⟨h4, h5, h6⟩ := ih d st2 h1 h2 h
      exact ⟨h4, h5, h6.trans h3⟩
  | get k ih =>
    simp only [Action.run] at h
    exact ih _ st hs ho h
  | set s k ih =>
    simp only [Action.run] at h
    have := ih _ (Separate_of_heap_eq S (by rfl) hs) (by exact ho) h
    exact this

/-- When no map function returns the map `m0` and the closures of `m0` sit in
generators of `S`, a call of a function value that refers to generators outside
`S` only never runs the function of `m0` and installs no closure of `m0`. -/
theorem invoke_quiet [DecidableEq M] (defn : M → mapGenerator σ M T) (S : Nat → Prop) (m0 : M)
    (hret : ∀ m act, defn m = CreateRecursiveMap act → ∀ x, (act x).Returns fun r => m0 ∉ r.2)
    (fuel : Nat) :
    ∀ (c : Continuation M T) (x : T) (st : State σ M T) (d : LoopDirective)
      (st1 : State σ M T), Separate S st →
      (∀ i a b, st.slot i = some (.action m0 a b) → S i) →
      (∀ p ∈ c.pointers, p < st.heap.length ∧ ¬ S p) → (∀ a b, c ≠ .action m0 a b) →
      invoke defn fuel c x st = .ok (d, st1) →
      Separate S st1 ∧ (∀ i a b, st1.slot i = some (.action m0 a b) → S i) ∧
        enteredWith m0 st1.trace = enteredWith m0 st.trace := by
  induction fuel with
  | zero => intro c x st d st1 _ _ _ _ h; simp [invoke] at h
  | succ fuel ih =>
    have hy : ∀ b, ¬ S b → ∀ x (st : State σ M T) d st1, Separate S st →
        (∀ i a b, st.slot i = some (.action m0 a b) → S i) →
        yieldWith (invoke defn fuel) b x st = .ok (d, st1) →
        Separate S st1 ∧ (∀ i a b, st1.slot i = some (.action m0 a b) → S i) ∧
          enteredWith m0 st1.trace = enteredWith m0 st.trace := by
      intro b hb x st d st1 hs ho h
      simp only [yieldWith] at h
      split at h
      · simp at h
      · rename_i c hc
        obtain ⟨h1, h2, h3⟩ := ih c x (st.emit (.yield b x)) d st1
          (Separate_of_heap_eq S (by rfl) hs) (by exact ho)
          (fun p hp => ⟨hs.1 b c hc p hp, hs.2.2 b c hc hb p hp⟩)
          (fun a1 b1 hcc => hb (ho b a1 b1 (hcc ▸ hc))) h
        refine ⟨h1, h2, h3.trans ?_⟩
        simp [State.emit, enteredWith, List.filterMap_append]
    intro c x st d st1 hs ho hc hm h
    cases c with
    | consumer f =>
      simp only [invoke, Except.ok.injEq, Prod.mk.injEq] at h
      rw [← h.2]
      refine ⟨Separate_of_heap_eq S (by rfl) hs, by exact ho, ?_⟩
      simp [enteredWith, List.filterMap_append]
    | method b =>
      exact hy b (hc b (by simp [Continuation.pointers])).2 x st d st1 hs ho h
    | action m a b =>
      have hca := hc a (by simp [Continuation.pointers])
      have hcb := hc b (by simp [Continuation.pointers])
      have hmm : m ≠ m0 := fun hmm => hm a b (by rw [hmm])
      have hent : enteredWith m0 (st.emit (.enter m x)).trace = enteredWith m0 st.trace := by
        simp [State.emit, enteredWith, List.filterMap_append, hmm]
      simp only [invoke] at h
      split at h
      · obtain ⟨h1, h2, h3⟩ := Action.run_quiet S m0 _ (hy b hcb.2) _ _ _ _
          (Separate_of_heap_eq S (by rfl) hs) (by exact ho) h
        exact ⟨h1, h2, h3.trans hent⟩
      · split at h
        · simp at h
        · rename_i act hdef _ r ms st2 hrun
          simp only [Except.ok.injEq, Prod.mk.injEq] at h
          obtain ⟨h1, h2, h3⟩ := Action.run_quiet S m0 _ (hy b hcb.2) _ _ _ _
            (Separate_of_heap_eq S (by rfl) hs) (by exact ho) hrun
          have hmono := Action.run_length_le _
            (fun x st d st1 h => Yield_length_le defn fuel b x st st1 d h) _ _ _ _ hrun
          have hmono : st.heap.length ≤ st2.heap.length := hmono
          have hms : m0 ∉ ms :=
            Action.run_Returns (fun r => m0 ∉ r.2) _ _ _ _ _ (hret m act hdef x) hrun
          obtain ⟨s1, -, -⟩ := Separate_splice S ms a b st2 h1 hca.2 (by omega) hcb.2
            (by omega)
          obtain ⟨-, -, -, -, -, -, t7⟩ := splice_spec ms a b st2 (by omega)
          rw [← h.2]
          refine ⟨s1, ?_, ?_⟩
          · intro i a1 b1 hi
            rcases splice_action_cases ms a b st2 m0 a1 b1 i hi with h5 | h5
            · exact h2 i a1 b1 h5
            · exact absurd h5 hms
          · rw [t7]
            exact h3.trans hent

theorem Yield_quiet [DecidableEq M] (defn : M → mapGenerator σ M T) (S : Nat → Prop) (m0 : M)
    (hret : ∀ m act, defn m = CreateRecursiveMap act → ∀ x, (act x).Returns fun r => m0 ∉ r.2)
    (fuel b : Nat) (x : T) (st st1 : State σ M T) (d : LoopDirective) (hs : Separate S st)
    (ho : ∀ i a b, st.slot i = some (.action m0 a b) → S i) (hb : ¬ S b)
    (h : Yield defn fuel b x st = .ok (d, st1)) :
    Separate S st1 ∧ (∀ i a b, st1.slot i = some (.action m0 a b) → S i) ∧
      enteredWith m0 st1.trace = enteredWith m0 st.trace := by
  simp only [Yield, yieldWith] at h
  split at h
  · simp at h
  · rename_i c hc
    obtain ⟨h1, h2, h3⟩ := invoke_quiet defn S m0 hret fuel c x (st.emit (.yield b x)) d st1
      (Separate_of_heap_eq S (by rfl) hs) (by exact ho)
      (fun p hp => ⟨hs.1 b c hc p hp, hs.2.2 b c hc hb p hp⟩)
      (fun a1 b1 hcc => hb (ho b a1 b1 (hcc ▸ hc))) h
    refine ⟨h1, h2, h3.trans ?_⟩
    simp [State.emit, enteredWith, List.filterMap_append]

theorem Separate_congr {S S1 : Nat → Prop} (st : State σ M T) (h : ∀ i, S i ↔ S1 i)
    (hs : Separate S st) : Separate S1 st := by
  obtain ⟨h1, h2, h3⟩ := hs
  refine ⟨h1, fun i hi => h2 i ((h i).mpr hi), ?_⟩
  intro i c hi hS p hp hp1
  exact h3 i c hi (fun hSi => hS ((h i).mp hSi)) p hp ((h p).mpr hp1)

/-- The store of `Foreach(m.Apply(NewNaturals(2)), f)` is separate at its
source. -/
theorem sieveHeap_separate (m : PrimesMap) (f : List Nat → Nat → LoopDirective)
    (v : List Nat × Nat) (rc : List Nat) (tr : List (Event PrimesMap Nat)) :
    Separate (fun i => i = 0) (State.mk (sieveHeap m f) v rc tr : PState) := by
  refine ⟨?_, ?_, ?_⟩
  · intro i c hi p hp
    match i, hi with
    | 0, hi =>
      simp only [State.slot, sieveHeap, List.getElem?_cons_zero, Option.some.injEq] at hi
      subst hi
      simp only [Continuation.pointers, List.mem_cons, List.mem_singleton, List.not_mem_nil,
        or_false] at hp
      rcases hp with hp | hp <;> subst hp <;> simp [sieveHeap]
    | 1, hi =>
      simp [State.slot, sieveHeap] at hi
      subst hi
      simp [Continuation.pointers] at hp
    | i + 2, hi => simp [State.slot, sieveHeap] at hi
  · intro i hi
    subst hi
    simp [sieveHeap]
  · intro i c hi hS p hp
    match i, hi with
    | 0, hi => exact absurd rfl hS
    | 1, hi =>
      simp [State.slot, sieveHeap] at hi
      subst hi
      simp [Continuation.pointers] at hp
    | i + 2, hi => simp [State.slot, sieveHeap] at hi

/-- No map function of primes.go or of the documentation returns the map
`primeRecMap([], 0)` that `RecPrimes()` starts with. -/
theorem primeRecMap_not_returned (m : PrimesMap)
    (act : Nat → Action (List Nat × Nat) Nat (LoopDirective × List PrimesMap))
    (hdef : PrimesMap.defn m = CreateRecursiveMap act) (x : Nat) :
    (act x).Returns fun r => PrimesMap.primeRecMap [] 0 ∉ r.2 := by
  cases m with
  | Filter d => simp [PrimesMap.defn, Filter, CreateIterativeMap, CreateRecursiveMap] at hdef
  | primeIterMap =>
    simp [PrimesMap.defn, primeIterMap, CreateIterativeMap, CreateRecursiveMap] at hdef
  | primeRecMap af ls =>
    simp only [PrimesMap.defn, primeRecMap, CreateRecursiveMap,
      mapGenerator.recursive.injEq] at hdef
    rw [← hdef]
    simp only [Action.Returns]
    intro d
    by_cases hb : LoopDirectiveBreak = d
    · simp [hb, Action.Returns]
    · simp only [hb, if_false]
      by_cases hlt : ls * ls % uintSize < x
      · simp only [hlt, if_true]
        cases af with
        | nil =>
          simp only [List.nil_append, Action.Returns, List.mem_cons, List.mem_singleton,
            List.not_mem_nil, or_false, not_or]
          refine ⟨by simp, ?_⟩
          intro h
          simp only [PrimesMap.primeRecMap.injEq, true_and] at h
          omega
        | cons a0 rest =>
          simp [Action.Returns]
      · simp [hlt, Action.Returns]
  | primeMap =>
    simp only [PrimesMap.defn, primeMap, CreateRecursiveMap,
      mapGenerator.recursive.injEq] at hdef
    rw [← hdef]
    simp [Action.Returns]

/-- In the store of `Foreach(m.Apply(NewNaturals(2)), f)` the closure of `m` is
installed in the source only. -/
theorem sieveHeap_once (m : PrimesMap) (f : List Nat → Nat → LoopDirective)
    (v : List Nat × Nat) (rc : List Nat) (tr : List (Event PrimesMap Nat)) (i a b : Nat)
    (h : (State.mk (sieveHeap m f) v rc tr : PState).slot i = some (.action m a b)) :
    i = 0 := by
  match i, h with
  | 0, _ => rfl
  | 1, h => simp [State.slot, sieveHeap] at h
  | i + 2, h => simp [State.slot, sieveHeap] at h

end AMapThatIsAppliedOnce

/-! ## Claims about the array generator -/

section ArrayClaims

variable {σ M T : Type}

/-- C2 (order preservation): `Foreach(Array2Generator(s), recorder)` returns, the
recorder is called exactly `len(s)` times, and what it is called with, what it
records and what the source yields is exactly `s`, in order. -/
theorem array_order_preservation (defn : M → mapGenerator σ M T) (vars : σ) (fuel : Nat)
    (s : List T) :
    ∃ st, driveArray defn vars (fuel + 2) s recorder = .ok st ∧
      st.received = s ∧ consumed st.trace = s ∧
      (consumed st.trace).length = s.length ∧ yieldedBy 0 st.trace = s := by
  refine ⟨_, driveArray_eq defn vars fuel s recorder, ?_, ?_, ?_, ?_⟩
  · simp [sourced_recorder]
  · simp only [sourced_recorder]; exact consumed_flatMap_array 0 s
  · simp only [sourced_recorder]; rw [consumed_flatMap_array 0 s]
  · simp only [sourced_recorder]; exact yieldedBy_flatMap_array 0 s

/-- C3 (early termination): if the consumer answers LoopDirectiveContinue on its
first `k` calls and LoopDirectiveBreak on call `k + 1`, with `k < len(s)`, then
`Foreach(Array2Generator(s), consumer)` returns, the consumer is called exactly
`k + 1` times, with `s[0], ..., s[k]` in order, and the source yields exactly
these items: nothing beyond index `k`. -/
theorem array_early_termination (defn : M → mapGenerator σ M T) (vars : σ) (fuel : Nat)
    (s : List T) (k : Nat) (f : List T → T → LoopDirective) (hk : k < s.length)
    (hcont : ∀ hist x, hist.length < k → f hist x = LoopDirectiveContinue)
    (hbrk : ∀ hist x, hist.length = k → f hist x = LoopDirectiveBreak) :
    ∃ st, driveArray defn vars (fuel + 2) s f = .ok st ∧
      st.received = s.take (k + 1) ∧ consumed st.trace = s.take (k + 1) ∧
      (consumed st.trace).length = k + 1 ∧ yieldedBy 0 st.trace = s.take (k + 1) := by
  have hs : sourced (fun _ => true) f [] s = s.take (k + 1) := by
    rw [sourced_breakAt (fun _ => true) f k hcont hbrk [] s (by simp)]
    simpa using takeThrough_true k s
  refine ⟨_, driveArray_eq defn vars fuel s f, ?_, ?_, ?_, ?_⟩
  · simp [hs]
  · simp only [hs]; exact consumed_flatMap_array 0 _
  · simp only [hs]; rw [consumed_flatMap_array 0 _]; simp; omega
  · simp only [hs]; exact yieldedBy_flatMap_array 0 _

/-- Witness of C3: `s = [1, 2, 3]`, `k = 1`: the consumer receives 1 and 2, and 3
is never yielded. -/
theorem array_early_termination_witness :
    ∃ st, driveArray (fun (_ : Unit) => (Filter (fun _ => .ok true) : mapGenerator Unit Unit Nat))
        () 2 [1, 2, 3] testConsumer = .ok st ∧
      st.received = [1, 2] ∧ consumed st.trace = [1, 2] ∧
      (consumed st.trace).length = 2 ∧ yieldedBy 0 st.trace = [1, 2] :=
  array_early_termination _ () 0 [1, 2, 3] 1 testConsumer (by decide)
    (by intro hist x h; simp [testConsumer, h])
    (by intro hist x h; simp [testConsumer, h])

end ArrayClaims

/-! ## Claims about Filter -/

section FilterClaims

variable {σ T : Type}

/-- C1 (filter correctness): `Foreach(Filter(p).Apply(Array2Generator(s)), recorder)`
returns, and the recorder is called with, and records, exactly the items of `s`
that satisfy `p`, in their original order. -/
theorem filter_correctness (vars : σ) (fuel : Nat) (p : T → Bool) (s : List T) :
    ∃ st : State σ (Predicate T) T,
      driveMapped Filter vars (fuel + 4) s (total p) recorder = .ok st ∧
      st.received = s.filter p ∧ consumed st.trace = s.filter p := by
  obtain ⟨st, h1, -, h3, h4⟩ := driveFilters_eq vars fuel s [p] (recorder : List T → T → _)
  refine ⟨st, h1, ?_, ?_⟩
  · rw [h3, sourced_recorder]; simp
  · rw [h4, sourced_recorder, consumed_pipelineTrace]
    simp [holds_total]

/-- C5 (per-item behaviour of Filter): let `out` be the output generator of
`Filter(p).Apply(g)` and let `c` be the continuation installed on `out`.  When
`g` yields `x`: if `p(x)` holds, `c` is called once, with `x`, and what `g` gets
back is the result of that call; if `p(x)` does not hold, `c` is not called and
`g` gets LoopDirectiveContinue back (if `p` panics on `x`, so does the call). -/
theorem filter_per_item (p : Predicate T) (g : Nat) (st0 : State σ (Predicate T) T)
    (hg : g < st0.heap.length) (c : Continuation (Predicate T) T) (x : T) (fuel : Nat) :
    Yield Filter (fuel + 1) g x
        ((mapGenerator.Apply p g st0).2.setYield (mapGenerator.Apply p g st0).1 c) =
      match p x with
      | .ok true =>
        invoke Filter fuel c x
          (((mapGenerator.Apply p g st0).2.setYield (mapGenerator.Apply p g st0).1 c).log
            [.yield g x, .enter p x, .yield (mapGenerator.Apply p g st0).1 x])
      | .ok false =>
        .ok (LoopDirectiveContinue,
          ((mapGenerator.Apply p g st0).2.setYield (mapGenerator.Apply p g st0).1 c).log
            [.yield g x, .enter p x])
      | .error e => .error e := by
  obtain ⟨a1, a2, a3, -, -, -, -, -, -, -⟩ := Apply_spec p g st0 hg
  have hslotg : ((mapGenerator.Apply p g st0).2.setYield (mapGenerator.Apply p g st0).1 c).slot g
      = some (.action p g (mapGenerator.Apply p g st0).1) := by
    rw [State.slot_setYield_ne _ _ _ _ (by rw [a1]; omega), a3, a1]
  have hsloto : ((mapGenerator.Apply p g st0).2.setYield (mapGenerator.Apply p g st0).1 c).slot
      (mapGenerator.Apply p g st0).1 = some c :=
    State.slot_setYield_self _ _ _ (by rw [a1, a2]; omega)
  rw [Yield_filter Filter fuel g _ p p x _ rfl hslotg]
  cases hp : p x with
  | error e => rfl
  | ok b =>
    cases b with
    | false => rfl
    | true =>
      simp only [Yield, yieldWith, State.slot_log, hsloto, State.emit_eq_log, State.log_log,
        List.cons_append, List.nil_append]

/-- Witness of C5: the filter for even numbers applied to `Array2Generator([4])`,
with the recorder as downstream continuation. -/
theorem filter_per_item_witness :
    Yield Filter (1 + 1) 0 4
        ((mapGenerator.Apply (total fun n => n % 2 == 0) 0
            (Array2Generator [4] (State.init ())).2).2.setYield
          (mapGenerator.Apply (total fun n => n % 2 == 0) 0
            (Array2Generator [4] (State.init ())).2).1 (.consumer recorder)) =
      match total (fun n => n % 2 == 0) 4 with
      | .ok true =>
        invoke Filter 1 (.consumer recorder) 4
          (((mapGenerator.Apply (total fun n => n % 2 == 0) 0
              (Array2Generator [4] (State.init ())).2).2.setYield
            (mapGenerator.Apply (total fun n => n % 2 == 0) 0
              (Array2Generator [4] (State.init ())).2).1 (.consumer recorder)).log
            [.yield 0 4, .enter (total fun n => n % 2 == 0) 4,
              .yield (mapGenerator.Apply (total fun n => n % 2 == 0) 0
                (Array2Generator [4] (State.init ())).2).1 4])
      | .ok false =>
        .ok (LoopDirectiveContinue,
          ((mapGenerator.Apply (total fun n => n % 2 == 0) 0
              (Array2Generator [4] (State.init ())).2).2.setYield
            (mapGenerator.Apply (total fun n => n % 2 == 0) 0
              (Array2Generator [4] (State.init ())).2).1 (.consumer recorder)).log
            [.yield 0 4, .enter (total fun n => n % 2 == 0) 4])
      | .error e => .error e :=
  filter_per_item (total fun n => n % 2 == 0) 0 (Array2Generator [4] (State.init ())).2
    (by decide) (.consumer recorder) 4 1

/-- C4 (break propagation): in the pipeline of the filters `p1, ..., pn` over
`Array2Generator(s)`, driven by a consumer that answers LoopDirectiveContinue on
its first `j` calls and LoopDirectiveBreak on call `j + 1`, the consumer gets
exactly the first `j + 1` items of `s` that satisfy all predicates; the source
yields exactly the items of `s` up to the one that triggered the Break; and the
trace ends with that call of the consumer: afterwards the source yields no item,
no predicate is evaluated and the consumer is not called. -/
theorem break_propagation (vars : σ) (fuel : Nat) (ps : List (T → Bool)) (s : List T)
    (j : Nat) (f : List T → T → LoopDirective)
    (hcont : ∀ hist x, hist.length < j → f hist x = LoopDirectiveContinue)
    (hbrk : ∀ hist x, hist.length = j → f hist x = LoopDirectiveBreak) :
    ∃ st : State σ (Predicate T) T,
      drivePipeline Filter vars (fuel + 2 * ps.length + 2) s (ps.map total) f = .ok st ∧
      st.received = (s.filter fun x => ps.all fun p => p x).take (j + 1) ∧
      consumed st.trace = (s.filter fun x => ps.all fun p => p x).take (j + 1) ∧
      yieldedBy 0 st.trace = takeThrough (fun x => ps.all fun p => p x) j s ∧
      st.trace = (takeThrough (fun x => ps.all fun p => p x) j s).flatMap
        (pipelineTrace (ps.map total)) ∧
      ∀ y, (s.filter fun x => ps.all fun p => p x)[j]? = some y →
        ∃ pre, st.trace = pre ++ [.consume y] ∧
          consumed pre = (s.filter fun x => ps.all fun p => p x).take j := by
  obtain ⟨st, h1, -, h3, h4⟩ := driveFilters_eq vars fuel s ps f
  rw [sourced_breakAt _ f j hcont hbrk [] s (by simp)] at h3 h4
  simp only [List.length_nil, Nat.sub_zero] at h3 h4
  have hcons : consumed st.trace = (s.filter fun x => ps.all fun p => p x).take (j + 1) := by
    rw [h4, consumed_pipelineTrace, ← filter_takeThrough]
    congr 1
    funext x
    exact all_map_total ps x
  refine ⟨st, h1, ?_, hcons, ?_, h4, ?_⟩
  · rw [h3, filter_takeThrough]
  · rw [h4, yieldedBy_pipelineTrace]
  · intro y hy
    obtain ⟨pre, hpre, hky⟩ := takeThrough_last _ j s y hy
    have hall : ((ps.map total).all fun p => holds p y) = true := by
      rw [all_map_total]; exact hky
    refine ⟨pre.flatMap (pipelineTrace (ps.map total)) ++
      (chainTrace holds 0 (chainOf (ps.map total) 1) y ++ [.yield (ps.map total).length y]),
      ?_, ?_⟩
    · rw [h4, hpre, List.flatMap_append]
      simp [pipelineTrace, hall]
    · have h5 : consumed st.trace =
          consumed (pre.flatMap (pipelineTrace (ps.map total)) ++
            (chainTrace holds 0 (chainOf (ps.map total) 1) y ++
              [.yield (ps.map total).length y])) ++ [y] := by
        rw [h4, hpre, List.flatMap_append, consumed_append, consumed_append,
          consumed_append]
        simp [pipelineTrace, hall, consumed, consumed_append]
      rw [hcons, List.take_succ, hy] at h5
      exact (List.append_inj_left' h5 rfl).symm

/-- Witness of C4: the filters "odd" and "not divisible by 3" over
`[1, 2, 5, 9, 7, 11]`, with a consumer that breaks on its second call. -/
theorem break_propagation_witness :
    ∃ st : State Unit (Predicate Nat) Nat,
      drivePipeline Filter () (0 + 2 * [fun n => n % 2 == 1, fun n => n % 3 != 0].length + 2)
        [1, 2, 5, 9, 7, 11] ([fun n => n % 2 == 1, fun n => n % 3 != 0].map total)
        testConsumer = .ok st ∧
      st.received = ([1, 2, 5, 9, 7, 11].filter fun x =>
        [fun n => n % 2 == 1, fun n => n % 3 != 0].all fun p => p x).take (1 + 1) ∧
      consumed st.trace = ([1, 2, 5, 9, 7, 11].filter fun x =>
        [fun n => n % 2 == 1, fun n => n % 3 != 0].all fun p => p x).take (1 + 1) ∧
      yieldedBy 0 st.trace = takeThrough (fun x =>
        [fun n => n % 2 == 1, fun n => n % 3 != 0].all fun p => p x) 1 [1, 2, 5, 9, 7, 11] ∧
      st.trace = (takeThrough (fun x =>
        [fun n => n % 2 == 1, fun n => n % 3 != 0].all fun p => p x) 1
          [1, 2, 5, 9, 7, 11]).flatMap
        (pipelineTrace ([fun n => n % 2 == 1, fun n => n % 3 != 0].map total)) ∧
      ∀ y, ([1, 2, 5, 9, 7, 11].filter fun x =>
          [fun n => n % 2 == 1, fun n => n % 3 != 0].all fun p => p x)[1]? = some y →
        ∃ pre, st.trace = pre ++ [.consume y] ∧
          consumed pre = ([1, 2, 5, 9, 7, 11].filter fun x =>
            [fun n => n % 2 == 1, fun n => n % 3 != 0].all fun p => p x).take 1 :=
  break_propagation () 0 [fun n => n % 2 == 1, fun n => n % 3 != 0] [1, 2, 5, 9, 7, 11] 1
    testConsumer
    (by intro hist x h; simp [testConsumer, h])
    (by intro hist x h; simp [testConsumer, h])

end FilterClaims

/-! ## Claims about recursive maps -/

/-- C10 (left-to-right application of spliced maps): let the function of a map
built by CreateRecursiveMap return the maps `ms = [m1, ..., mn]` on the first
item `x0` yielded by its input generator `g`, in a store where only the closure
of `g` refers to `g`.  Then that call leaves the store in which `m1, ..., mn`
have been applied to `g` from left to right and `outStream.Yield` is the
continuation of the last stream (`Rebuilt`).  When `mi = Filter(pi)`, in every
store with this chain an item `x` yielded by `g` reaches the output generator iff
`p1(x), ..., pn(x)` all hold (and is answered by LoopDirectiveContinue
otherwise), the filters entered on `x` are `m1`, then `m2` if `p1(x)` held, and
so on (the leading filters that accept `x` and the first one that rejects it),
and the call leaves a store with this chain again, whatever the maps downstream
of the output generator do: so this holds for every later item. -/
theorem spliced_maps_left_to_right {σ M T : Type} (defn : M → mapGenerator σ M T)
    (pred : M → T → Bool) (m0 : M) (act : T → Action σ T (LoopDirective × List M))
    (hdef0 : defn m0 = CreateRecursiveMap act) (g out : Nat) (st : State σ M T)
    (hslot : st.slot g = some (.action m0 g out))
    (hsep : Separate (fun i => i = g) st) (hne : out ≠ g) (x0 : T) (fuel : Nat)
    (r : LoopDirective) (ms : List M) (st1 : State σ M T)
    (hrun : (act x0).run (yieldWith (invoke defn fuel) out)
      (st.log [.yield g x0, .enter m0 x0]) = .ok ((r, ms), st1)) :
    Yield defn (fuel + 1) g x0 st =
      .ok (r, (applyMaps ms g st1).2.setYield (applyMaps ms g st1).1 (.method out)) ∧
    Rebuilt g out st1.heap.length ms
      ((applyMaps ms g st1).2.setYield (applyMaps ms g st1).1 (.method out)) ∧
    ((∀ m ∈ ms, defn m = Filter (total (pred m))) →
      ∀ st3 : State σ M T, Rebuilt g out st1.heap.length ms st3 →
      ∀ (x : T) (fuel2 : Nat),
        Yield defn (fuel2 + ms.length + 1) g x st3 =
          (if ms.all (fun m => pred m x) then
            Yield defn fuel2 out x
              (st3.log (chainTrace pred g (chainOf ms st1.heap.length) x ++
                [.yield (applyMaps ms g st1).1 x]))
          else .ok (LoopDirectiveContinue,
            st3.log (chainTrace pred g (chainOf ms st1.heap.length) x))) ∧
        entered (chainTrace pred g (chainOf ms st1.heap.length) x) =
          ms.take ((ms.takeWhile fun m => pred m x).length + 1) ∧
        ∀ (d : LoopDirective) (st4 : State σ M T),
          Yield defn (fuel2 + ms.length + 1) g x st3 = .ok (d, st4) →
          Rebuilt g out st1.heap.length ms st4) := by
  have hg : g < st.heap.length := slot_lt_length st g _ hslot
  have hout : out < st.heap.length := hsep.1 g _ hslot out (by simp [Continuation.pointers])
  obtain ⟨hsep1, -, hmono⟩ := Action.run_frame (fun i => i = g) _
    (fun x st d st1 hs h => Yield_frame defn (fun i => i = g) fuel out x st st1 d hs hne h)
    _ _ _ _ (Separate_of_heap_eq _ (by rfl) hsep) hrun
  have hmono : st.heap.length ≤ st1.heap.length := hmono
  have hg1 : g < st1.heap.length := by omega
  obtain ⟨s1, s2, -, -, -, -, -⟩ := splice_spec ms g out st1 hg1
  have hend : (applyMaps ms g st1).1 = chainEnd g (chainOf ms st1.heap.length) :=
    (applyMaps_spec ms g st1 hg1).1
  have hnout : ¬ chainNodes g st1.heap.length ms.length out := by
    intro h
    rcases h with h | h
    · exact hne h
    · omega
  refine ⟨Yield_recursive defn fuel g out m0 act x0 st st1 r ms hdef0 hslot hrun,
    ⟨s1, s2, Separate_splice_chain ms g out st1 hsep1 (by omega)⟩, ?_⟩
  intro hfil st3 hre x fuel2
  obtain ⟨hl, hs3, hsep3⟩ := hre
  have hf : fuel2 + ms.length + 1 = (fuel2 + 1) + (chainOf ms st1.heap.length).length := by
    rw [chainOf_length]; omega
  have hY : Yield defn (fuel2 + ms.length + 1) g x st3 =
      (if ms.all (fun m => pred m x) then
        Yield defn fuel2 out x
          (st3.log (chainTrace pred g (chainOf ms st1.heap.length) x ++
            [.yield (applyMaps ms g st1).1 x]))
      else .ok (LoopDirectiveContinue,
        st3.log (chainTrace pred g (chainOf ms st1.heap.length) x))) := by
    rw [hf, Yield_filters defn pred (chainOf ms st1.heap.length)
      (fun mb hmb => hfil mb.1 (mem_chainOf ms _ mb hmb)) (fuel2 + 1) g x st3 hl,
      allPass_chainOf]
    by_cases hp : (ms.all fun m => pred m x) = true
    · simp only [hp, if_true]
      rw [Yield_method defn fuel2 _ out x _ (by rw [State.slot_log]; exact hs3)]
      rw [State.log_log, hend]
    · simp only [hp]
      rfl
  refine ⟨hY, entered_chainTrace pred ms g _ x, ?_⟩
  intro d st4 h4
  rw [hY] at h4
  by_cases hp : (ms.all fun m => pred m x) = true
  · simp only [hp, if_true] at h4
    obtain ⟨f1, f2, -⟩ := Yield_frame defn (chainNodes g st1.heap.length ms.length) fuel2 out x
      _ st4 d (Separate_of_heap_eq _ (by rfl) hsep3) hnout h4
    refine ⟨Links_frame g _ (fun i hi => ?_) hl, ?_, f1⟩
    · exact f2 i (mem_sources_chainOf ms g _ i hi)
    · rw [f2 _ (chainEnd_chainNodes ms g _)]
      exact hs3
  · simp only [hp] at h4
    simp only [Bool.false_eq_true, if_false, Except.ok.injEq, Prod.mk.injEq] at h4
    rw [← h4.2]
    exact ⟨Links_of_heap_eq (by rfl) g _ hl, hs3, Separate_of_heap_eq _ (by rfl) hsep3⟩

/-- Witness of C10: the example map `splice` over `Array2Generator([5, 9, 7])`,
first item 5. -/
theorem spliced_maps_left_to_right_witness :
    Yield SpliceMap.defn (1 + 1) 0 5 (SpliceMap.start [5, 9, 7]) =
      .ok (LoopDirectiveContinue,
        (applyMaps [SpliceMap.odd, SpliceMap.notMultipleOf3] 0 SpliceMap.afterFirst).2.setYield
          (applyMaps [SpliceMap.odd, SpliceMap.notMultipleOf3] 0 SpliceMap.afterFirst).1
          (.method 1)) ∧
    Rebuilt 0 1 SpliceMap.afterFirst.heap.length [SpliceMap.odd, SpliceMap.notMultipleOf3]
      ((applyMaps [SpliceMap.odd, SpliceMap.notMultipleOf3] 0 SpliceMap.afterFirst).2.setYield
        (applyMaps [SpliceMap.odd, SpliceMap.notMultipleOf3] 0 SpliceMap.afterFirst).1
        (.method 1)) ∧
    ∀ st3 : State Unit SpliceMap Nat,
      Rebuilt 0 1 SpliceMap.afterFirst.heap.length [SpliceMap.odd, SpliceMap.notMultipleOf3]
        st3 →
      ∀ (x : Nat) (fuel2 : Nat),
        Yield SpliceMap.defn (fuel2 + [SpliceMap.odd, SpliceMap.notMultipleOf3].length + 1) 0 x
            st3 =
          (if [SpliceMap.odd, SpliceMap.notMultipleOf3].all (fun m => SpliceMap.pred m x) then
            Yield SpliceMap.defn fuel2 1 x
              (st3.log (chainTrace SpliceMap.pred 0
                (chainOf [SpliceMap.odd, SpliceMap.notMultipleOf3]
                  SpliceMap.afterFirst.heap.length) x ++
                [.yield (applyMaps [SpliceMap.odd, SpliceMap.notMultipleOf3] 0
                  SpliceMap.afterFirst).1 x]))
          else .ok (LoopDirectiveContinue,
            st3.log (chainTrace SpliceMap.pred 0
              (chainOf [SpliceMap.odd, SpliceMap.notMultipleOf3]
                SpliceMap.afterFirst.heap.length) x))) ∧
        entered (chainTrace SpliceMap.pred 0
            (chainOf [SpliceMap.odd, SpliceMap.notMultipleOf3]
              SpliceMap.afterFirst.heap.length) x) =
          [SpliceMap.odd, SpliceMap.notMultipleOf3].take
            (([SpliceMap.odd, SpliceMap.notMultipleOf3].takeWhile
              fun m => SpliceMap.pred m x).length + 1) ∧
        ∀ (d : LoopDirective) (st4 : State Unit SpliceMap Nat),
          Yield SpliceMap.defn (fuel2 + [SpliceMap.odd, SpliceMap.notMultipleOf3].length + 1) 0
            x st3 = .ok (d, st4) →
          Rebuilt 0 1 SpliceMap.afterFirst.heap.length
            [SpliceMap.odd, SpliceMap.notMultipleOf3] st4 := by
  obtain ⟨h1, h2, h3⟩ := spliced_maps_left_to_right SpliceMap.defn SpliceMap.pred .splice
    (fun x => .yield x fun d => .ret (d, [.odd, .notMultipleOf3])) rfl 0 1
    (SpliceMap.start [5, 9, 7]) rfl (SpliceMap.start_separate [5, 9, 7]) (by decide) 5 1
    LoopDirectiveContinue [.odd, .notMultipleOf3] SpliceMap.afterFirst rfl
  refine ⟨h1, h2, h3 ?_⟩
  intro m hm
  simp only [List.mem_cons, List.mem_singleton, List.not_mem_nil, or_false] at hm
  rcases hm with h | h <;> subst h <;> rfl

/-! ## Claims about the prime pipelines -/

section PrimeClaims

theorem observe_eq_some {σ M T : Type} (r : Except Err (State σ M T)) (a b : List T)
    (h : observe r = some (a, b)) :
    ∃ st, r = .ok st ∧ st.received = a ∧ consumed st.trace = b := by
  cases r with
  | error e => simp [observe] at h
  | ok st =>
    simp only [observe, Option.some.injEq, Prod.mk.injEq] at h
    exact ⟨st, rfl, h.1, h.2⟩

set_option maxRecDepth 100000 in
/-- C6 (first twelve primes): driven by the consumer of primes_test.go, which
answers LoopDirectiveBreak on its 12th call, both `Primes()` and `RecPrimes()`
return; in both runs the consumer is called exactly 12 times and receives
2, 3, 5, 7, 11, 13, 17, 19, 23, 29, 31, 37. -/
theorem first_twelve_primes :
    (∃ st, drivePrimes 40 (breakOnCall 12) = .ok st ∧
      st.received = [2, 3, 5, 7, 11, 13, 17, 19, 23, 29, 31, 37] ∧
      consumed st.trace = [2, 3, 5, 7, 11, 13, 17, 19, 23, 29, 31, 37]) ∧
    (∃ st, driveRecPrimes 64 (breakOnCall 12) = .ok st ∧
      st.received = [2, 3, 5, 7, 11, 13, 17, 19, 23, 29, 31, 37] ∧
      consumed st.trace = [2, 3, 5, 7, 11, 13, 17, 19, 23, 29, 31, 37]) :=
  ⟨observe_eq_some _ _ _ (by decide), observe_eq_some _ _ _ (by decide)⟩

/-- C7 (`Primes()` generates exactly the primes): driven by a consumer that
answers LoopDirectiveBreak on its `n`-th call (LoopDirectiveContinue before),
`Primes()` returns and the consumer has received exactly the `n` smallest
primes in increasing order, provided the `n`-th prime is at most
`(2 ^ 32 - 1) ^ 2`, which keeps the counter and `l * l` inside the `uint`
range.  The natural-number stream yields `2, 3, ...` up to that prime, and the
items primeIterMap forwards are exactly the primes among them. -/
theorem primes_correct (n : Nat) (hn : 1 ≤ n) (f : List Nat → Nat → LoopDirective)
    (hcont : ∀ hist x, hist.length + 1 < n → f hist x = LoopDirectiveContinue)
    (hbrk : ∀ hist x, hist.length + 1 = n → f hist x = LoopDirectiveBreak)
    (hov : Nat.nth Nat.Prime (n - 1) ≤ (2 ^ 32 - 1) ^ 2) (fuel : Nat) :
    ∃ st, drivePrimes (fuel + Nat.nth Nat.Prime (n - 1) + 2) f = .ok st ∧
      st.received = (List.range n).map (Nat.nth Nat.Prime) ∧
      consumed st.trace = (List.range n).map (Nat.nth Nat.Prime) ∧
      yieldedBy 0 st.trace = List.range' 2 (Nat.nth Nat.Prime (n - 1) - 1) ∧
      yieldedBy 1 st.trace = (yieldedBy 0 st.trace).filter fun e => decide e.Prime := by
  obtain ⟨p, hpdef⟩ : ∃ p, p = Nat.nth Nat.Prime (n - 1) := ⟨_, rfl⟩
  rw [← hpdef] at hov ⊢
  have hpp : p.Prime := hpdef ▸ Nat.prime_nth_prime _
  have hp2 : 2 ≤ p := hpp.two_le
  have hcount : Nat.count Nat.Prime p = n - 1 := by
    rw [hpdef]; exact Nat.count_nth_of_infinite Nat.infinite_setOf_prime _
  have hB : (2 ^ 32 - 1) ^ 2 + 1 < uintSize := by norm_num [uintSize]
  have hrun := naturals_loop_inv (Yield PrimesMap.defn (fuel + p) 0)
    (fun counter => (counter + 1) % uintSize)
    (fun i c st => PrimesInv f i c st)
    (fun st => st.received = (List.range n).map (Nat.nth Nat.Prime) ∧
      consumed st.trace = (List.range n).map (Nat.nth Nat.Prime) ∧
      yieldedBy 0 st.trace = List.range' 2 (p - 1) ∧
      yieldedBy 1 st.trace = (yieldedBy 0 st.trace).filter fun e => decide e.Prime)
    (p - 2)
    (by
      intro i c st hi hinv
      have hci : c = i + 2 := hinv.1
      have hrec := hinv.2.2.2.2.2.2.1
      obtain ⟨st1, h1, h2⟩ := PrimesInv_step f (fuel + p - 2) i c st hinv (by omega)
      rw [show fuel + p - 2 + 2 = fuel + p by omega] at h1
      refine ⟨_, st1, h1, ?_, ?_⟩
      · by_cases hc : c.Prime
        · have hlt : Nat.count Nat.Prime c < Nat.count Nat.Prime p :=
            Nat.count_strict_mono hc (by omega)
          have hlen : st.received.length + 1 < n := by
            rw [hrec, length_firstPrimes]; omega
          simp [hc, hcont st.received c hlen]
        · simp [hc]
      · have : (c + 1) % uintSize = c + 1 := Nat.mod_eq_of_lt (by omega)
        simp only [this]
        exact h2)
    (by
      intro c st hinv
      have hci : c = p - 2 + 2 := hinv.1
      have hcp : c = p := by omega
      have hrec := hinv.2.2.2.2.2.2.1
      obtain ⟨st1, h1, h2⟩ := PrimesInv_step f (fuel + p - 2) (p - 2) c st hinv (by omega)
      rw [show fuel + p - 2 + 2 = fuel + p by omega] at h1
      have hlen : st.received.length + 1 = n := by
        rw [hrec, length_firstPrimes, hcp, hcount]; omega
      have hbr : f st.received c = LoopDirectiveBreak := hbrk st.received c hlen
      refine ⟨st1, by rw [h1, hbr]; simp [hcp, hpp], ?_⟩
      obtain ⟨-, -, -, -, -, -, g7, g8, g9, g10⟩ := h2
      have hcnt : Nat.count Nat.Prime (c + 1) = n := by
        rw [Nat.count_succ, hcp, hcount]; simp [hpp]; omega
      rw [hcnt] at g7
      refine ⟨g7, by rw [g8, g7], ?_, g10⟩
      rw [g9]; congr 1; omega)
    (fuel + 1) (p - 2) 0 2 (State.mk (primesHeap f) ([], 2) [] []) (by omega) (by omega)
    (by
      refine ⟨rfl, rfl, ?_, Or.inl rfl, by simp, by simp, ?_, rfl, rfl, rfl⟩
      · simp [count_prime_two]
      · simp [count_prime_two])
  obtain ⟨st1, h1, h2⟩ := hrun
  refine ⟨st1, ?_, h2⟩
  rw [drivePrimes_eq]
  rw [show fuel + 1 + (p - 2) + 1 = fuel + p by omega] at h1
  exact h1

/-- Witness of C7: `n = 3`. -/
theorem primes_correct_witness :
    ∃ st, drivePrimes (0 + Nat.nth Nat.Prime (3 - 1) + 2) (breakOnCall 3) = .ok st ∧
      st.received = (List.range 3).map (Nat.nth Nat.Prime) ∧
      consumed st.trace = (List.range 3).map (Nat.nth Nat.Prime) ∧
      yieldedBy 0 st.trace = List.range' 2 (Nat.nth Nat.Prime (3 - 1) - 1) ∧
      yieldedBy 1 st.trace = (yieldedBy 0 st.trace).filter fun e => decide e.Prime :=
  primes_correct 3 (by decide) (breakOnCall 3)
    (by intro hist x h; simp [breakOnCall]; omega)
    (by intro hist x h; simp [breakOnCall]; omega)
    (by rw [show 3 - 1 = 2 from rfl, nth_prime_two]; norm_num) 0

/-- C9 (recursive map splicing reproduces the sieve): driven by a consumer that
answers LoopDirectiveBreak on its `n`-th call (LoopDirectiveContinue before),
the documentation's `primeMap().Apply(NewNaturals(2))` returns and the consumer
has received exactly the `n` smallest primes in increasing order, provided the
`n`-th prime is below `2 ^ 64` (the counter does not wrap around).  In particular
no proper multiple of a received item is received. -/
theorem doc_sieve_correct (n : Nat) (hn : 1 ≤ n) (f : List Nat → Nat → LoopDirective)
    (hcont : ∀ hist x, hist.length + 1 < n → f hist x = LoopDirectiveContinue)
    (hbrk : ∀ hist x, hist.length + 1 = n → f hist x = LoopDirectiveBreak)
    (hov : Nat.nth Nat.Prime (n - 1) < 2 ^ 64) (fuel : Nat) :
    ∃ st, driveDocPrimes (fuel + 2 * Nat.nth Nat.Prime (n - 1) + 2) f = .ok st ∧
      st.received = (List.range n).map (Nat.nth Nat.Prime) ∧
      consumed st.trace = (List.range n).map (Nat.nth Nat.Prime) ∧
      ∀ a ∈ st.received, ∀ m, a < m → a ∣ m → m ∉ st.received := by
  obtain ⟨p, hpdef⟩ : ∃ p, p = Nat.nth Nat.Prime (n - 1) := ⟨_, rfl⟩
  rw [← hpdef] at hov ⊢
  have hpp : p.Prime := hpdef ▸ Nat.prime_nth_prime _
  have hp2 : 2 ≤ p := hpp.two_le
  have hcount : Nat.count Nat.Prime p = n - 1 := by
    rw [hpdef]; exact Nat.count_nth_of_infinite Nat.infinite_setOf_prime _
  have hU : uintSize = 2 ^ 64 := rfl
  have hrun := naturals_loop_inv (Yield PrimesMap.defn (fuel + 2 * p) 0)
    (fun counter => (counter + 1) % uintSize)
    (fun i c st => DocInv f i c st)
    (fun st => st.received = (List.range n).map (Nat.nth Nat.Prime) ∧
      consumed st.trace = (List.range n).map (Nat.nth Nat.Prime))
    (p - 2)
    (by
      intro i c st hi hinv
      have hci : c = i + 2 := hinv.1
      obtain ⟨chain, b, fwd, -, -, hrec, -, -, -⟩ := hinv.2
      obtain ⟨st1, h1, h2⟩ := DocInv_step f (fuel + 2 * p - 2 * i - 2) i c st hinv
      rw [show fuel + 2 * p - 2 * i - 2 + 2 * i + 2 = fuel + 2 * p by omega] at h1
      refine ⟨_, st1, h1, ?_, ?_⟩
      · by_cases hc : c.Prime
        · have hlt : Nat.count Nat.Prime c < Nat.count Nat.Prime p :=
            Nat.count_strict_mono hc (by omega)
          have hlen : st.received.length + 1 < n := by
            rw [hrec, length_firstPrimes]; omega
          simp [hc, hcont st.received c hlen]
        · simp [hc]
      · have : (c + 1) % uintSize = c + 1 := Nat.mod_eq_of_lt (by omega)
        simp only [this]
        exact h2)
    (by
      intro c st hinv
      have hci : c = p - 2 + 2 := hinv.1
      have hcp : c = p := by omega
      obtain ⟨chain, b, fwd, -, -, hrec, -, -, -⟩ := hinv.2
      obtain ⟨st1, h1, h2⟩ := DocInv_step f (fuel + 2 * p - 2 * (p - 2) - 2) (p - 2) c st hinv
      rw [show fuel + 2 * p - 2 * (p - 2) - 2 + 2 * (p - 2) + 2 = fuel + 2 * p by omega] at h1
      have hlen : st.received.length + 1 = n := by
        rw [hrec, length_firstPrimes, hcp, hcount]; omega
      have hbr : f st.received c = LoopDirectiveBreak := hbrk st.received c hlen
      refine ⟨st1, by rw [h1, hbr]; simp [hcp, hpp], ?_⟩
      obtain ⟨-, chain1, b1, fwd1, -, -, g3, -, -, g6⟩ := h2
      have hcnt : Nat.count Nat.Prime (c + 1) = n := by
        rw [Nat.count_succ, hcp, hcount]; simp [hpp]; omega
      rw [hcnt] at g3
      exact ⟨g3, by rw [g6, g3]⟩)
    (fuel + p + 1) (p - 2) 0 2 (State.mk (sieveHeap .primeMap f) ([], 2) [] [])
    (by omega) (by omega)
    (by
      refine ⟨rfl, [], 1, [], Sieve_init _ f _, ?_, ?_, by simp, by simp, rfl⟩
      · simp [count_prime_two]
      · simp [count_prime_two])
  obtain ⟨st1, h1, h2, h3⟩ := hrun
  refine ⟨st1, ?_, h2, h3, ?_⟩
  · rw [driveDocPrimes_eq]
    rw [show fuel + p + 1 + (p - 2) + 1 = fuel + 2 * p by omega] at h1
    exact h1
  · intro a ha m ham hdvd hm
    rw [h2] at ha hm
    obtain ⟨i, -, rfl⟩ := List.mem_map.mp ha
    obtain ⟨j, -, rfl⟩ := List.mem_map.mp hm
    have hpa := Nat.prime_nth_prime i
    have hpm := Nat.prime_nth_prime j
    rcases (Nat.dvd_prime hpm).mp hdvd with h | h
    · exact hpa.one_lt.ne' h
    · omega

/-- Witness of C9: `n = 3`. -/
theorem doc_sieve_correct_witness :
    ∃ st, driveDocPrimes (0 + 2 * Nat.nth Nat.Prime (3 - 1) + 2) (breakOnCall 3) = .ok st ∧
      st.received = (List.range 3).map (Nat.nth Nat.Prime) ∧
      consumed st.trace = (List.range 3).map (Nat.nth Nat.Prime) ∧
      ∀ a ∈ st.received, ∀ m, a < m → a ∣ m → m ∉ st.received :=
  doc_sieve_correct 3 (by decide) (breakOnCall 3)
    (by intro hist x h; simp [breakOnCall]; omega)
    (by intro hist x h; simp [breakOnCall]; omega)
    (by rw [show 3 - 1 = 2 from rfl, nth_prime_two]; norm_num) 0

/-- C8 (`RecPrimes()` generates all primes): for every prime `p` below `2 ^ 64`
(the counter does not wrap around), driven by a consumer that answers
LoopDirectiveContinue as long as it has not seen `p` and LoopDirectiveBreak on
`p`, `RecPrimes()` returns and the last item the consumer has received is `p`;
every prime up to `p` has been received (no filter stage suppressed it), and the
received items are strictly increasing. -/
theorem rec_primes_complete (p : Nat) (hp : p.Prime) (hov : p < 2 ^ 64)
    (f : List Nat → Nat → LoopDirective)
    (hcont : ∀ hist x, p ∉ hist → x ≠ p → f hist x = LoopDirectiveContinue)
    (hbrk : ∀ hist, f hist p = LoopDirectiveBreak) (fuel : Nat) :
    ∃ st, driveRecPrimes (fuel + 2 * p + 2) f = .ok st ∧
      st.received.getLast? = some p ∧
      (∀ q, q.Prime → q ≤ p → q ∈ st.received) ∧
      st.received.Pairwise (· < ·) ∧
      consumed st.trace = st.received := by
  have hp2 : 2 ≤ p := hp.two_le
  have hU : uintSize = 2 ^ 64 := rfl
  have hrun := naturals_loop_inv (Yield PrimesMap.defn (fuel + 2 * p) 0)
    (fun counter => (counter + 1) % uintSize)
    (fun i c st => RecInv f i c st)
    (fun st => st.received.getLast? = some p ∧
      (∀ q, q.Prime → q ≤ p → q ∈ st.received) ∧
      st.received.Pairwise (· < ·) ∧ consumed st.trace = st.received)
    (p - 2)
    (by
      intro i c st hi hinv
      have hci : c = i + 2 := hinv.1
      obtain ⟨chain, af, ls, b, fwd, -, -, -, -, hbound, -, -, -, -⟩ := hinv.2
      have hnot : p ∉ st.received := fun h => by
        have := (hbound p h).2; omega
      obtain ⟨st1, h1, h2⟩ := RecInv_step f (fuel + 2 * p - 2 * i - 2) i c st hinv
        (hcont st.received c hnot (by omega))
      rw [show fuel + 2 * p - 2 * i - 2 + 2 * i + 2 = fuel + 2 * p by omega] at h1
      refine ⟨_, st1, h1, by decide, ?_⟩
      have : (c + 1) % uintSize = c + 1 := Nat.mod_eq_of_lt (by omega)
      simp only [this]
      exact h2)
    (by
      intro c st hinv
      have hci : c = p - 2 + 2 := hinv.1
      have hcp : c = p := by omega
      subst hcp
      obtain ⟨chain, af, ls, b, fwd, -, -, -, hprimes, hbound, hsorted, -, -, -⟩ := hinv.2
      obtain ⟨st1, h1, h2, h3⟩ := RecInv_last f (fuel + 2 * c - 2 * (c - 2) - 2) (c - 2) c st
        hinv hp (hbrk st.received)
      rw [show fuel + 2 * c - 2 * (c - 2) - 2 + 2 * (c - 2) + 2 = fuel + 2 * c by omega] at h1
      refine ⟨st1, h1, ?_, ?_, ?_, h3⟩
      · rw [h2]; simp
      · intro q hq hqc
        rw [h2]
        rcases Nat.lt_or_ge q c with h | h
        · exact List.mem_append_left _ (hprimes q hq h)
        · have : q = c := by omega
          subst this
          simp
      · rw [h2, List.pairwise_append]
        refine ⟨hsorted, by simp, ?_⟩
        intro a ha x hx2
        simp only [List.mem_singleton] at hx2
        subst hx2
        exact (hbound a ha).2)
    (fuel + p + 1) (p - 2) 0 2 (State.mk (sieveHeap (.primeRecMap [] 0) f) ([], 2) [] [])
    (by omega) (by omega)
    (by
      refine ⟨rfl, [], [], 0, 1, [], Sieve_init _ f _, by simp, by simp, ?_, by simp, by simp,
        by simp, by simp, rfl⟩
      intro q hq hq2
      have := hq.two_le
      omega)
  obtain ⟨st1, h1, h2⟩ := hrun
  refine ⟨st1, ?_, h2⟩
  rw [driveRecPrimes_eq]
  rw [show fuel + p + 1 + (p - 2) + 1 = fuel + 2 * p by omega] at h1
  exact h1

/-- Witness of C8: `p = 7`. -/
theorem rec_primes_complete_witness :
    ∃ st, driveRecPrimes (0 + 2 * 7 + 2) (breakOnItem 7) = .ok st ∧
      st.received.getLast? = some 7 ∧
      (∀ q, q.Prime → q ≤ 7 → q ∈ st.received) ∧
      st.received.Pairwise (· < ·) ∧
      consumed st.trace = st.received :=
  rec_primes_complete 7 (by norm_num) (by norm_num) (breakOnItem 7)
    (by intro hist x _ hx; simp [breakOnItem, hx])
    (by intro hist; simp [breakOnItem]) 0

end PrimeClaims

/-! ## Claims about faults, directives and the sources -/

section LaterClaims

variable {σ M T : Type}

/-- C11, as amended: on a generator created by Array2Generator(data) with no
continuation installed, `Loop()` returns without doing anything when `data` is
empty, and panics with a nil dereference at the first item otherwise. -/
theorem loop_without_continuation (defn : M → mapGenerator σ M T) (fuel : Nat)
    (data : List T) (st0 : State σ M T) :
    Loop defn (fuel + 1) (Array2Generator data st0).1 (Array2Generator data st0).2 =
      match data with
      | [] => .ok (Array2Generator data st0).2
      | _ :: _ => .error .nilDereference := by
  have hk : (Array2Generator data st0).2.kind (Array2Generator data st0).1 =
      some (.arrayGenerator data) := State.kind_alloc_new st0 _
  have hs : (Array2Generator data st0).2.slot (Array2Generator data st0).1 = none :=
    State.slot_alloc_new st0 _
  rw [Loop_array defn fuel _ data _ hk]
  cases data with
  | nil => rfl
  | cons x xs => simp [arrayGenerator.Loop, Yield, yieldWith, hs]

/-- C11, counterexample: for the empty slice, `Loop()` on the generator without
continuation returns normally. -/
theorem loop_without_continuation_counterexample :
    Loop PrimesMap.defn 1 emptyArray.1 emptyArray.2 = .ok emptyArray.2 := by
  rfl

/-- C13, as amended: for every divisor other than zero, IsNonDivisible(d)(e)
returns a boolean, which is true iff `e` is not divisible by `d`. -/
theorem isNonDivisible_spec (d e : Nat) (hd : d ≠ 0) :
    IsNonDivisible d e = .ok (decide (¬ d ∣ e)) := by
  simp only [IsNonDivisible, hd, if_false]
  congr 1
  by_cases h : d ∣ e
  · simp [h, Nat.mod_eq_zero_of_dvd h]
  · have : e % d ≠ 0 := fun hm => h (Nat.dvd_of_mod_eq_zero hm)
    simp [h, this]

/-- C13, witness of the amended claim. -/
theorem isNonDivisible_spec_witness :
    (3 : Nat) ≠ 0 ∧ IsNonDivisible 3 7 = .ok (decide (¬ 3 ∣ 7)) :=
  ⟨by decide, isNonDivisible_spec 3 7 (by decide)⟩

/-- C13, counterexample: IsNonDivisible(0)(5) returns no boolean, it panics. -/
theorem isNonDivisible_counterexample : IsNonDivisible 0 5 = .error .divideByZero := by
  rfl

/-- C14, counterexample: 2 is a value of type LoopDirective other than
LoopDirectiveBreak and LoopDirectiveContinue. -/
theorem loopDirective_counterexample :
    ¬ ∀ d : LoopDirective, d = LoopDirectiveBreak ∨ d = LoopDirectiveContinue := by
  intro h
  have := h 2
  simp at this

/-- C14, as amended: LoopDirective is a number type with the two distinct named
values LoopDirectiveBreak and LoopDirectiveContinue, and the array generator
compares against LoopDirectiveBreak only: with a consumer that never answers
LoopDirectiveBreak, whatever else it answers, every item is delivered. -/
theorem loopDirective_open (defn : M → mapGenerator σ M T) (vars : σ) (fuel : Nat)
    (s : List T) (f : List T → T → LoopDirective)
    (hf : ∀ hist x, f hist x ≠ LoopDirectiveBreak) :
    LoopDirectiveBreak ≠ LoopDirectiveContinue ∧
    ∃ st, driveArray defn vars (fuel + 2) s f = .ok st ∧ st.received = s ∧
      consumed st.trace = s := by
  refine ⟨by decide, _, driveArray_eq defn vars fuel s f, ?_, ?_⟩
  · simp [sourced_never_break _ f hf]
  · simp only [sourced_never_break _ f hf]
    exact consumed_flatMap_array 0 s

/-- C14, witness of the amended claim: a consumer that always answers 2. -/
theorem loopDirective_open_witness :
    LoopDirectiveBreak ≠ LoopDirectiveContinue ∧
    ∃ st, driveArray PrimesMap.defn ([], 2) (0 + 2) [1, 2, 3] answerTwo = .ok st ∧
      st.received = [1, 2, 3] ∧ consumed st.trace = [1, 2, 3] :=
  loopDirective_open PrimesMap.defn ([], 2) 0 [1, 2, 3] answerTwo
    (by intro hist x; simp [answerTwo])

/-- C17 (filters compose as conjunction, and the always-true filter is the
identity): for every consumer, the pipeline of `Filter(p)` followed by
`Filter(q)` over `Array2Generator(s)` and the pipeline of the single filter
`Filter(p and q)` return with the same items received by the consumer, in the
same order, and with the same items yielded by the source (the same stopping
point); likewise `Filter(true)` over `Array2Generator(s)` and
`Array2Generator(s)` itself. -/
theorem filters_compose (vars : σ) (fuel : Nat) (p q : T → Bool) (s : List T)
    (c : List T → T → LoopDirective) :
    (∃ st1 st2 : State σ (Predicate T) T,
      drivePipeline Filter vars (fuel + 6) s [total p, total q] c = .ok st1 ∧
      driveMapped Filter vars (fuel + 4) s (total fun x => p x && q x) c = .ok st2 ∧
      st1.received = st2.received ∧ consumed st1.trace = consumed st2.trace ∧
      consumed st1.trace = st1.received ∧
      yieldedBy 0 st1.trace = yieldedBy 0 st2.trace) ∧
    (∃ st3 st4 : State σ (Predicate T) T,
      driveMapped Filter vars (fuel + 4) s (total fun _ => true) c = .ok st3 ∧
      driveArray Filter vars (fuel + 2) s c = .ok st4 ∧
      st3.received = st4.received ∧ consumed st3.trace = consumed st4.trace ∧
      consumed st3.trace = st3.received ∧
      yieldedBy 0 st3.trace = yieldedBy 0 st4.trace) := by
  obtain ⟨st1, a1, -, a3, a4⟩ := driveFilters_eq vars fuel s [p, q] c
  obtain ⟨st2, b1, -, b3, b4⟩ := driveFilters_eq vars fuel s [fun x => p x && q x] c
  obtain ⟨st3, c1, -, c3, c4⟩ := driveFilters_eq vars fuel s [fun _ => true] c
  have hk : (fun x => [p, q].all fun r => r x) =
      fun x => [fun x => p x && q x].all fun r => r x := by
    funext x; simp [Bool.and_assoc]
  have hk2 : (fun x => [fun (_ : T) => true].all fun r => r x) = fun _ => true := by
    funext x; simp
  rw [hk] at a3 a4
  rw [hk2] at c3 c4
  refine ⟨⟨st1, st2, a1, b1, ?_, ?_, ?_, ?_⟩, ⟨st3, _, c1, driveArray_eq Filter vars fuel s c,
    ?_, ?_, ?_, ?_⟩⟩
  · rw [a3, b3]
  · rw [a4, b4, consumed_pipelineTrace, consumed_pipelineTrace]
    have hk3 : (fun x => ([p, q].map total).all fun r => holds r x) =
        fun x => ([fun x => p x && q x].map total).all fun r => holds r x := by
      funext x; simp [holds_total, Bool.and_assoc]
    rw [hk3]
  · rw [a4, a3, consumed_pipelineTrace]
    have hk3 : (fun x => ([p, q].map total).all fun r => holds r x) =
        fun x => [fun x => p x && q x].all fun r => r x := by
      funext x; simp [holds_total, Bool.and_assoc]
    rw [hk3]
  · rw [a4, b4, yieldedBy_pipelineTrace, yieldedBy_pipelineTrace]
  · rw [c3]; simp
  · rw [c4, consumed_pipelineTrace]
    simp only [consumed_flatMap_array]
    simp [holds_total]
  · rw [c4, c3, consumed_pipelineTrace]
    simp [holds_total]
  · rw [c4, yieldedBy_pipelineTrace]
    simp only [yieldedBy_flatMap_array]

/-- C12, as amended: driven by a consumer that answers LoopDirectiveContinue on
its first `k` calls and LoopDirectiveBreak on call `k + 1`, `NewNaturals(start)`
returns after delivering the `k + 1` items `(start + i) mod 2 ^ 64`,
`i = 0, ..., k`; these are `start, start + 1, ..., start + k`, strictly
increasing, when `start + k < 2 ^ 64`.  Driven by a consumer that never answers
LoopDirectiveBreak, `Loop` does not return, however many iterations it is
given. -/
theorem naturals_source (defn : M → mapGenerator σ M Nat) (vars : σ) (fuel start k : Nat)
    (f : List Nat → Nat → LoopDirective) (hstart : start < uintSize)
    (hcont : ∀ hist x, hist.length < k → f hist x = LoopDirectiveContinue)
    (hbrk : ∀ hist x, hist.length = k → f hist x = LoopDirectiveBreak) :
    (∃ st, driveNaturals defn vars (fuel + k + 2) start f = .ok st ∧
      st.received = (List.range (k + 1)).map (fun i => (start + i) % uintSize) ∧
      consumed st.trace = st.received ∧ yieldedBy 0 st.trace = st.received ∧
      (start + k < uintSize →
        st.received = List.range' start (k + 1) ∧ st.received.Pairwise (· < ·))) ∧
    ∀ (g : List Nat → Nat → LoopDirective), (∀ hist x, g hist x ≠ LoopDirectiveBreak) →
      ∀ fuel2, driveNaturals defn vars fuel2 start g = .error .outOfFuel := by
  constructor
  · have hrun := naturals_loop_inv (Yield defn (fuel + k + 1) 0)
      (fun counter => (counter + 1) % uintSize)
      (fun i c st => c = (start + i) % uintSize ∧ st.heap = naturalsHeap start f ∧
        st.received = (List.range i).map (fun j => (start + j) % uintSize) ∧
        consumed st.trace = st.received ∧ yieldedBy 0 st.trace = st.received)
      (fun st => st.received = (List.range (k + 1)).map (fun i => (start + i) % uintSize) ∧
        consumed st.trace = st.received ∧ yieldedBy 0 st.trace = st.received)
      k
      (by
        intro i c st hi ⟨hc, hh, hr, hcons, hy⟩
        have hslot : st.slot 0 = some (.consumer f) := by
          simp [State.slot, hh, naturalsHeap]
        have hlen : st.received.length < k := by rw [hr]; simpa using hi
        refine ⟨_, _, Yield_consumer defn (fuel + k) 0 c f st hslot, ?_, ?_, hh, ?_, ?_, ?_⟩
        · rw [hcont _ _ hlen]; decide
        · show (c + 1) % uintSize = (start + (i + 1)) % uintSize
          rw [hc, Nat.mod_add_mod, Nat.add_assoc]
        · show st.received ++ [c] = _
          rw [List.range_succ, List.map_append, hr, hc]
          rfl
        · show consumed (st.trace ++ _) = st.received ++ [c]
          rw [consumed_append, hcons]
          simp [consumed]
        · show yieldedBy 0 (st.trace ++ _) = st.received ++ [c]
          rw [yieldedBy_append, hy]
          simp [yieldedBy])
      (by
        intro c st ⟨hc, hh, hr, hcons, hy⟩
        have hslot : st.slot 0 = some (.consumer f) := by
          simp [State.slot, hh, naturalsHeap]
        have hlen : st.received.length = k := by rw [hr]; simp
        rw [Yield_consumer defn (fuel + k) 0 c f st hslot, hbrk _ _ hlen]
        refine ⟨_, rfl, ?_, ?_, ?_⟩
        · show st.received ++ [c] = _
          rw [List.range_succ, List.map_append, hr, hc]
          rfl
        · show consumed (st.trace ++ _) = st.received ++ [c]
          rw [consumed_append, hcons]
          simp [consumed]
        · show yieldedBy 0 (st.trace ++ _) = st.received ++ [c]
          rw [yieldedBy_append, hy]
          simp [yieldedBy])
      fuel k 0 start (State.mk (naturalsHeap start f) vars [] []) (by omega) (by omega)
      ⟨by simp [Nat.mod_eq_of_lt hstart], rfl, rfl, rfl, rfl⟩
    obtain ⟨st, h1, h2, h3, h4⟩ := hrun
    refine ⟨st, ?_, h2, h3, h4, ?_⟩
    · rw [show fuel + k + 2 = (fuel + k + 1) + 1 by omega, driveNaturals_eq]
      exact h1
    · intro hk
      have hmap : (List.range (k + 1)).map (fun i => (start + i) % uintSize) =
          List.range' start (k + 1) := by
        rw [List.range'_eq_map_range]
        apply List.map_congr_left
        intro i hi
        have := List.mem_range.mp hi
        exact Nat.mod_eq_of_lt (by omega)
      rw [h2, hmap]
      exact ⟨rfl, List.pairwise_lt_range' start (k + 1)⟩
  · intro g hg fuel2
    cases fuel2 with
    | zero => rfl
    | succ n =>
      rw [driveNaturals_eq]
      exact naturals_loop_never_returns defn start g hg n n start _ rfl

/-- C12, witness of the amended claim: `start = 5`, `k = 2`. -/
theorem naturals_source_witness :
    (∃ st, driveNaturals PrimesMap.defn ([], 2) (0 + 2 + 2) 5 (breakOnCall 3) = .ok st ∧
      st.received = (List.range (2 + 1)).map (fun i => (5 + i) % uintSize) ∧
      consumed st.trace = st.received ∧ yieldedBy 0 st.trace = st.received ∧
      (5 + 2 < uintSize →
        st.received = List.range' 5 (2 + 1) ∧ st.received.Pairwise (· < ·))) ∧
    ∀ (g : List Nat → Nat → LoopDirective), (∀ hist x, g hist x ≠ LoopDirectiveBreak) →
      ∀ fuel2, driveNaturals PrimesMap.defn ([], 2) fuel2 5 g = .error .outOfFuel :=
  naturals_source PrimesMap.defn ([], 2) 0 5 2 (breakOnCall 3) (by decide)
    (by intro hist x h; simp [breakOnCall]; omega)
    (by intro hist x h; simp [breakOnCall]; omega)

set_option maxRecDepth 100000 in
/-- C12, counterexample: from `start = 2 ^ 64 - 1` the second item delivered is 0,
not `start + 1`, and it is not greater than the first. -/
theorem naturals_source_counterexample :
    ∃ st, driveNaturals PrimesMap.defn ([], 2) 3 18446744073709551615 (breakOnCall 2) = .ok st ∧
      st.received = [18446744073709551615, 0] ∧
      st.received ≠ [18446744073709551615, 18446744073709551615 + 1] ∧
      ¬ st.received.Pairwise (· < ·) := by
  obtain ⟨st, h1, h2, -⟩ := observe_eq_some
    (driveNaturals PrimesMap.defn ([], 2) 3 18446744073709551615 (breakOnCall 2))
    [18446744073709551615, 0] [18446744073709551615, 0] (by decide)
  refine ⟨st, h1, h2, ?_, ?_⟩
  · rw [h2]; decide
  · rw [h2]; decide

set_option maxRecDepth 100000 in
/-- A map built by CreateRecursiveMap whose function returns the map itself is
applied again by every splice: over `Array2Generator([1, 2, 3])` its function is
called on every item of the run, three times.  A function runs once only when
its map is applied once. -/
theorem self_map_runs_on_every_item :
    ∃ st, driveMapped SelfMap.defn () 20 [1, 2, 3] SelfMap.self recorder = .ok st ∧
      entered st.trace = [SelfMap.self, SelfMap.self, SelfMap.self] ∧
      st.received = [1, 2, 3] := by
  obtain ⟨st, h1, h2⟩ := enteredIn_eq_some
    (driveMapped SelfMap.defn () 20 [1, 2, 3] SelfMap.self recorder)
    [SelfMap.self, SelfMap.self, SelfMap.self] (by decide)
  refine ⟨st, h1, h2, ?_⟩
  obtain ⟨st', h3, h4, -⟩ := observe_eq_some
    (driveMapped SelfMap.defn () 20 [1, 2, 3] SelfMap.self recorder) [1, 2, 3] [1, 2, 3]
    (by decide)
  rw [h1] at h3
  cases h3
  exact h4

/-- C18: in a run of `Primes()` or of `RecPrimes()` driven through Foreach by any
consumer (whatever directives it answers), with fewer than 2^64 items so that the
counter of `naturals` stays in the range of uint, the pipeline never faults on
its own arithmetic or indexing: the run returns, or is still going when the fuel
of the model is used up, and no remainder by zero, slice access out of bounds or
nil call happens.  When the run returns, every entry of primeIterMap's
`alreadyFound`, every divisor of an installed filter and every entry of
primeRecMap's `alreadyFound` is at least 2. -/
theorem prime_pipelines_never_fault (f : List Nat → Nat → LoopDirective) (fuel : Nat)
    (hfuel : fuel < uintSize) :
    (drivePrimes fuel f = .error .outOfFuel ∨
      ∃ st, drivePrimes fuel f = .ok st ∧ ∀ d ∈ st.vars.1, 2 ≤ d) ∧
    (driveRecPrimes fuel f = .error .outOfFuel ∨
      ∃ st, driveRecPrimes fuel f = .ok st ∧
        ∀ i m g out, st.slot i = some (.action m g out) → SafeMap m) :=
  ⟨drivePrimes_safe f fuel hfuel, driveRecPrimes_safe f fuel hfuel⟩

theorem prime_pipelines_never_fault_witness :
    (20 < uintSize) ∧
    (drivePrimes 20 (breakOnCall 3) = .error .outOfFuel ∨
      ∃ st, drivePrimes 20 (breakOnCall 3) = .ok st ∧ ∀ d ∈ st.vars.1, 2 ≤ d) ∧
    (driveRecPrimes 20 (breakOnCall 3) = .error .outOfFuel ∨
      ∃ st, driveRecPrimes 20 (breakOnCall 3) = .ok st ∧
        ∀ i m g out, st.slot i = some (.action m g out) → SafeMap m) :=
  ⟨by simp [uintSize], prime_pipelines_never_fault (breakOnCall 3) 20 (by simp [uintSize])⟩

/-- C16: conditional soundness of the recursive sieve.  Let the consumer answer
LoopDirectiveBreak on the prime `p < 2 ^ 62` (so that no square overflows) and
LoopDirectiveContinue before, and suppose that for consecutive primes `a < b`
with `b * b ≤ p` there is a prime `r` with `a * a < r < b * b`.  Then
`Foreach(RecPrimes(), f)` returns, the consumer has received exactly the primes
up to `p` in increasing order (every delivered item is prime), and the filters
in place at the end are those of the first `j` primes, where the filter of the
`t`-th prime is in place iff a prime below `p` was delivered that exceeds the
square of the `(t - 1)`-th prime (for the filter of 2: iff a prime below `p` was
delivered).  The hypothesis is needed: a sieve whose filters have prime divisors
other than the prime `q` delivers `q * q` to the consumer. -/
theorem rec_primes_sound (p : Nat) (hp : p.Prime) (hov : p < 2 ^ 62)
    (hgap : ∀ j, Nat.nth Nat.Prime (j + 1) * Nat.nth Nat.Prime (j + 1) ≤ p →
      ∃ r, r.Prime ∧ Nat.nth Nat.Prime j * Nat.nth Nat.Prime j < r ∧
        r < Nat.nth Nat.Prime (j + 1) * Nat.nth Nat.Prime (j + 1))
    (f : List Nat → Nat → LoopDirective)
    (hcont : ∀ hist x, p ∉ hist → x ≠ p → f hist x = LoopDirectiveContinue)
    (hbrk : ∀ hist, f hist p = LoopDirectiveBreak) (fuel : Nat) :
    (∃ st, driveRecPrimes (fuel + 2 * p + 2) f = .ok st ∧
      st.received = (List.range (Nat.count Nat.Prime (p + 1))).map (Nat.nth Nat.Prime) ∧
      (∀ x ∈ st.received, x.Prime) ∧
      consumed st.trace = st.received ∧
      ∃ chain j b, Links st 0 chain ∧ st.slot (chainEnd 0 chain) = some (.method b) ∧
        chain.map Prod.fst =
          (List.range j).map (fun t => PrimesMap.Filter (Nat.nth Nat.Prime t)) ∧
        ∀ t, t < j ↔ ∃ r, r.Prime ∧ r < p ∧
          (t = 0 ∨ Nat.nth Nat.Prime (t - 1) * Nat.nth Nat.Prime (t - 1) < r)) ∧
    (∀ (q : Nat) (st : PState) (chain : List (PrimesMap × Nat)) (af : List Nat) (ls b : Nat)
      (fwd : List Nat) (n : Nat), q.Prime →
      Sieve st f 0 chain (.primeRecMap af ls) b fwd →
      (∀ mb ∈ chain, ∃ d, mb.1 = PrimesMap.Filter d ∧ d.Prime ∧ d ≠ q) →
      ∃ r st1, Yield PrimesMap.defn (n + fwd.length + 2 + chain.length) 0 (q * q) st =
          .ok (r, st1) ∧ st1.received = st.received ++ [q * q]) := by
  refine ⟨?_, fun q st chain af ls b fwd n hq hs hch =>
    Sieve_square_delivered f q hq st chain af ls b fwd hs hch n⟩
  have hp2 : 2 ≤ p := hp.two_le
  have hU : uintSize = 2 ^ 64 := rfl
  have hrun := naturals_loop_inv (Yield PrimesMap.defn (fuel + 2 * p) 0)
    (fun counter => (counter + 1) % uintSize)
    (fun i c st => RecSound f i c st)
    (fun st =>
      st.received = (List.range (Nat.count Nat.Prime (p + 1))).map (Nat.nth Nat.Prime) ∧
      consumed st.trace = st.received ∧
      ∃ chain j b, Links st 0 chain ∧ st.slot (chainEnd 0 chain) = some (.method b) ∧
        chain.map Prod.fst =
          (List.range j).map (fun t => PrimesMap.Filter (Nat.nth Nat.Prime t)) ∧
        ∀ t, t < j ↔ ∃ r, r.Prime ∧ r < p ∧
          (t = 0 ∨ Nat.nth Nat.Prime (t - 1) * Nat.nth Nat.Prime (t - 1) < r))
    (p - 2)
    (by
      intro i c st hi hinv
      have hci : c = i + 2 := hinv.1
      obtain ⟨chain, af, ls, b, fwd, j, -, -, -, -, -, -, -, hrec, -, -, -⟩ := hinv.2
      have hnot : p ∉ st.received := fun h => by
        rw [hrec] at h
        have := ((mem_firstPrimes c p).mp h).2
        omega
      obtain ⟨st1, h1, h2⟩ := RecSound_step f (fuel + 2 * p - 2 * i - 2) i c st hinv (by omega)
        (fun t ht => hgap t (by omega)) (hcont st.received c hnot (by omega))
      rw [show fuel + 2 * p - 2 * i - 2 + 2 * i + 2 = fuel + 2 * p by omega] at h1
      refine ⟨_, st1, h1, by decide, ?_⟩
      have : (c + 1) % uintSize = c + 1 := Nat.mod_eq_of_lt (by omega)
      simp only [this]
      exact h2)
    (by
      intro c st hinv
      have hci : c = p - 2 + 2 := hinv.1
      have hcp : c = p := by omega
      subst hcp
      obtain ⟨st1, h1, h2⟩ := RecSound_last f (fuel + 2 * c - 2 * (c - 2) - 2) (c - 2) c st
        hinv hp (hbrk st.received)
      rw [show fuel + 2 * c - 2 * (c - 2) - 2 + 2 * (c - 2) + 2 = fuel + 2 * c by omega] at h1
      exact ⟨st1, h1, h2⟩)
    (fuel + p + 1) (p - 2) 0 2 (State.mk (sieveHeap (.primeRecMap [] 0) f) ([], 2) [] [])
    (by omega) (by omega)
    (by
      refine ⟨rfl, [], [], 0, 1, [], 0, Sieve_init _ f _, by simp, by simp, ?_, Or.inl ⟨rfl, rfl, rfl⟩,
        ?_, ?_, ?_, ?_, by simp, by simp⟩
      · simp [count_prime_two]
      · intro t ht; omega
      · rw [nth_prime_zero]; norm_num
      · simp [count_prime_two]
      · simp [count_prime_two, consumed])
  obtain ⟨st1, h1, h2, h3, h4⟩ := hrun
  refine ⟨st1, ?_, h2, ?_, h3, h4⟩
  · rw [driveRecPrimes_eq]
    rw [show fuel + p + 1 + (p - 2) + 1 = fuel + 2 * p by omega] at h1
    exact h1
  · intro x hx
    rw [h2] at hx
    exact ((mem_firstPrimes (p + 1) x).mp hx).1

/-- Witness of C16: `p = 11`; the only pair of consecutive primes whose larger
square is at most 11 is 2, 3, and 5 lies between 4 and 9. -/
theorem rec_primes_sound_witness :
    (∃ st, driveRecPrimes (0 + 2 * 11 + 2) (breakOnItem 11) = .ok st ∧
      st.received = (List.range (Nat.count Nat.Prime (11 + 1))).map (Nat.nth Nat.Prime) ∧
      (∀ x ∈ st.received, x.Prime) ∧
      consumed st.trace = st.received ∧
      ∃ chain j b, Links st 0 chain ∧ st.slot (chainEnd 0 chain) = some (.method b) ∧
        chain.map Prod.fst =
          (List.range j).map (fun t => PrimesMap.Filter (Nat.nth Nat.Prime t)) ∧
        ∀ t, t < j ↔ ∃ r, r.Prime ∧ r < 11 ∧
          (t = 0 ∨ Nat.nth Nat.Prime (t - 1) * Nat.nth Nat.Prime (t - 1) < r)) ∧
    (∀ (q : Nat) (st : PState) (chain : List (PrimesMap × Nat)) (af : List Nat) (ls b : Nat)
      (fwd : List Nat) (n : Nat), q.Prime →
      Sieve st (breakOnItem 11) 0 chain (.primeRecMap af ls) b fwd →
      (∀ mb ∈ chain, ∃ d, mb.1 = PrimesMap.Filter d ∧ d.Prime ∧ d ≠ q) →
      ∃ r st1, Yield PrimesMap.defn (n + fwd.length + 2 + chain.length) 0 (q * q) st =
          .ok (r, st1) ∧ st1.received = st.received ++ [q * q]) :=
  rec_primes_sound 11 (by norm_num) (by norm_num)
    (by
      intro j hj
      have hj0 : j = 0 := by
        by_contra hne
        have h1 : Nat.nth Nat.Prime 2 ≤ Nat.nth Nat.Prime (j + 1) :=
          Nat.nth_monotone Nat.infinite_setOf_prime (by omega)
        rw [nth_prime_two] at h1
        have := Nat.mul_le_mul h1 h1
        omega
      subst hj0
      refine ⟨5, by norm_num, ?_, ?_⟩
      · rw [nth_prime_zero]; norm_num
      · rw [nth_prime_one]; norm_num)
    (breakOnItem 11)
    (by intro hist x _ hx; simp [breakOnItem, hx])
    (by intro hist; simp [breakOnItem]) 0

/-- C15: a recursive map's function runs only on the first item.  Let the map
`m0` be built by CreateRecursiveMap and applied once: its closure is installed
in its input generator `g` and nowhere else, only that closure refers to `g`,
and no map function returns `m0`, so that no splice applies it again.  Then the
first item `x0` yielded by `g` calls the function of `m0` once and splices the
returned maps `ms`; afterwards the continuation of `g` is the closure of the
first returned map, or `outStream.Yield` if no map was returned, and no
generator holds a closure of `m0`.  From then on no call of any generator's
`Yield` runs the function of `m0` or installs a closure of it again: the
function is invoked exactly once per run, on the first item.  If no map was
returned, every later item `x` yielded by `g` is passed unchanged to the
continuation `c` of the output generator, what `g` gets back is the result of
that call, and the call leaves `g` wired to the output generator again. -/
theorem recursive_function_runs_once [DecidableEq M] (defn : M → mapGenerator σ M T) (m0 : M)
    (act : T → Action σ T (LoopDirective × List M))
    (hdef0 : defn m0 = CreateRecursiveMap act) (g out : Nat) (st : State σ M T)
    (hslot : st.slot g = some (.action m0 g out))
    (hsep : Separate (fun i => i = g) st) (hne : out ≠ g)
    (honce : ∀ i a b, st.slot i = some (.action m0 a b) → i = g)
    (hret : ∀ m act1, defn m = CreateRecursiveMap act1 →
      ∀ x, (act1 x).Returns fun r => m0 ∉ r.2)
    (x0 : T) (fuel : Nat) (r : LoopDirective) (ms : List M) (st1 : State σ M T)
    (hrun : (act x0).run (yieldWith (invoke defn fuel) out)
      (st.log [.yield g x0, .enter m0 x0]) = .ok ((r, ms), st1)) :
    Yield defn (fuel + 1) g x0 st = .ok (r, splice ms g out st1) ∧
    enteredWith m0 (splice ms g out st1).trace = enteredWith m0 st.trace ++ [x0] ∧
    (splice ms g out st1).slot g =
      some (rebuiltContinuation ms g out st1.heap.length) ∧
    Closed (splice ms g out st1) ∧
    (∀ i a b, (splice ms g out st1).slot i ≠ some (.action m0 a b)) ∧
    (∀ st3 : State σ M T, Closed st3 → (∀ i a b, st3.slot i ≠ some (.action m0 a b)) →
      ∀ (g1 : Nat) (x : T) (fuel3 : Nat) (d : LoopDirective) (st4 : State σ M T),
      Yield defn fuel3 g1 x st3 = .ok (d, st4) →
      Closed st4 ∧ (∀ i a b, st4.slot i ≠ some (.action m0 a b)) ∧
        enteredWith m0 st4.trace = enteredWith m0 st3.trace) ∧
    (ms = [] →
      Separate (fun i => i = g) (splice ms g out st1) ∧
      ∀ st3 : State σ M T, Separate (fun i => i = g) st3 →
        st3.slot g = some (.method out) →
        ∀ (c : Continuation M T), st3.slot out = some c → ∀ (x : T) (fuel2 : Nat),
        Yield defn (fuel2 + 1) g x st3 =
          invoke defn fuel2 c x (st3.log [.yield g x, .yield out x]) ∧
        ∀ (d : LoopDirective) (st4 : State σ M T),
          Yield defn (fuel2 + 1) g x st3 = .ok (d, st4) →
          Separate (fun i => i = g) st4 ∧ st4.slot g = some (.method out)) := by
  have hg : g < st.heap.length := slot_lt_length st g _ hslot
  have hout : out < st.heap.length := hsep.1 g _ hslot out (by simp [Continuation.pointers])
  obtain ⟨hsep1, honce1, hent1⟩ := Action.run_quiet (fun i => i = g) m0 _
    (fun x st d st1 hs ho h =>
      Yield_quiet defn (fun i => i = g) m0 hret fuel out x st st1 d hs ho hne h)
    _ _ _ _ (Separate_of_heap_eq _ (by rfl) hsep) (by exact honce) hrun
  have hmono := Action.run_length_le _
    (fun x st d st1 h => Yield_length_le defn fuel out x st st1 d h) _ _ _ _ hrun
  have hmono : st.heap.length ≤ st1.heap.length := hmono
  have hg1 : g < st1.heap.length := by omega
  have hms : m0 ∉ ms :=
    Action.run_Returns (fun r => m0 ∉ r.2) _ _ _ _ _ (hret m0 act hdef0 x0) hrun
  obtain ⟨-, -, -, -, -, -, t7⟩ := splice_spec ms g out st1 hg1
  have hslotg : (splice ms g out st1).slot g =
      some (rebuiltContinuation ms g out st1.heap.length) := by
    cases ms with
    | nil => exact State.slot_setYield_self st1 g _ hg1
    | cons m1 rest =>
      obtain ⟨s1, -⟩ := splice_spec (m1 :: rest) g out st1 hg1
      exact s1.1
  obtain ⟨c1, -, -⟩ := Separate_splice (fun _ => False) ms g out st1
    ((Closed_iff_Separate st1).mp hsep1.1) (fun h => h) hg1 (fun h => h) (by omega)
  refine ⟨Yield_recursive defn fuel g out m0 act x0 st st1 r ms hdef0 hslot hrun, ?_, hslotg,
    c1.1, ?_, ?_, ?_⟩
  · show enteredWith m0
      ((applyMaps ms g st1).2.setYield (applyMaps ms g st1).1 (.method out)).trace = _
    rw [t7, hent1]
    simp [State.log, enteredWith, List.filterMap_append]
  · intro i a b hi
    rcases splice_action_cases ms g out st1 m0 a b i hi with h5 | h5
    · have hig : i = g := honce1 i a b h5
      subst hig
      rw [hslotg] at hi
      cases ms with
      | nil => simp [rebuiltContinuation] at hi
      | cons m1 rest =>
        simp only [rebuiltContinuation, Option.some.injEq, Continuation.action.injEq] at hi
        exact hms (by rw [← hi.1]; exact List.mem_cons_self _ _)
    · exact hms h5
  · intro st3 hc3 hno3 g1 x fuel3 d st4 h4
    obtain ⟨q1, q2, q3⟩ := Yield_quiet defn (fun _ => False) m0 hret fuel3 g1 x st3 st4 d
      ((Closed_iff_Separate st3).mp hc3) (fun i a b hi => hno3 i a b hi) (fun h => h) h4
    exact ⟨q1.1, fun i a b hi => q2 i a b hi, q3⟩
  · intro hnil
    subst hnil
    refine ⟨?_, ?_⟩
    · refine Separate_congr _ (fun i => ?_)
        (Separate_splice_chain ([] : List M) g out st1 hsep1 (by omega))
      simp [chainNodes]
    · intro st3 hs3 hsg c hc x fuel2
      have hY : Yield defn (fuel2 + 1) g x st3 =
          Yield defn fuel2 out x (st3.log [.yield g x]) :=
        Yield_method defn fuel2 g out x st3 hsg
      refine ⟨?_, ?_⟩
      · rw [hY]
        simp only [Yield, yieldWith, State.slot_log, hc, State.emit_eq_log, State.log_log,
          List.singleton_append]
      · intro d st4 h4
        rw [hY] at h4
        obtain ⟨f1, f2, -⟩ := Yield_frame defn (fun i => i = g) fuel2 out x _ st4 d
          (Separate_of_heap_eq _ (by rfl) hs3) hne h4
        refine ⟨f1, ?_⟩
        rw [f2 g rfl]
        exact hsg

/-- Witness of C15: `RecPrimes()` driven by a consumer that answers
LoopDirectiveBreak on its first call, so that the function of
`primeRecMap([], 0)` returns no maps on the first item 2. -/
theorem recursive_function_runs_once_witness :
    Yield PrimesMap.defn (1 + 1) 0 2 recFirst =
      .ok (LoopDirectiveBreak, splice [] 0 1 recAfterFirst) ∧
    enteredWith (.primeRecMap [] 0) (splice ([] : List PrimesMap) 0 1 recAfterFirst).trace =
      enteredWith (.primeRecMap [] 0) recFirst.trace ++ [2] ∧
    (splice ([] : List PrimesMap) 0 1 recAfterFirst).slot 0 =
      some (rebuiltContinuation ([] : List PrimesMap) 0 1 recAfterFirst.heap.length) ∧
    Closed (splice ([] : List PrimesMap) 0 1 recAfterFirst) ∧
    (∀ i a b, (splice ([] : List PrimesMap) 0 1 recAfterFirst).slot i ≠
      some (.action (.primeRecMap [] 0) a b)) ∧
    (∀ st3 : PState, Closed st3 →
      (∀ i a b, st3.slot i ≠ some (.action (.primeRecMap [] 0) a b)) →
      ∀ (g1 : Nat) (x : Nat) (fuel3 : Nat) (d : LoopDirective) (st4 : PState),
      Yield PrimesMap.defn fuel3 g1 x st3 = .ok (d, st4) →
      Closed st4 ∧ (∀ i a b, st4.slot i ≠ some (.action (.primeRecMap [] 0) a b)) ∧
        enteredWith (.primeRecMap [] 0) st4.trace =
          enteredWith (.primeRecMap [] 0) st3.trace) ∧
    (([] : List PrimesMap) = [] →
      Separate (fun i => i = 0) (splice ([] : List PrimesMap) 0 1 recAfterFirst) ∧
      ∀ st3 : PState, Separate (fun i => i = 0) st3 →
        st3.slot 0 = some (.method 1) →
        ∀ (c : Continuation PrimesMap Nat), st3.slot 1 = some c → ∀ (x : Nat) (fuel2 : Nat),
        Yield PrimesMap.defn (fuel2 + 1) 0 x st3 =
          invoke PrimesMap.defn fuel2 c x (st3.log [.yield 0 x, .yield 1 x]) ∧
        ∀ (d : LoopDirective) (st4 : PState),
          Yield PrimesMap.defn (fuel2 + 1) 0 x st3 = .ok (d, st4) →
          Separate (fun i => i = 0) st4 ∧ st4.slot 0 = some (.method 1)) :=
  recursive_function_runs_once PrimesMap.defn (.primeRecMap [] 0) _ rfl 0 1 recFirst rfl
    (sieveHeap_separate _ _ _ _ _) (by decide)
    (fun i a b h => sieveHeap_once _ _ _ _ _ i a b h)
    primeRecMap_not_returned 2 1 LoopDirectiveBreak [] recAfterFirst rfl

end LaterClaims

end Generator
